import Mathlib

/-!
# OrbitalSwarm: gossip bookkeeping and block log

A shallow embedding of the sequential core of `gossip/gossiper.go`,
`gossip/packets.go`, `gossip/blockchain.go`, `paxos/blockchain.go` and
`paxos/blk/block.go`, and of the basic path that `pathgenerator` tests,
followed by the properties proved about it.

Conventions of the embedding:

* a Go `map` and a `sync.Map` are association lists with one entry per key
  (`GoMap`), read with `Load` and written with `Store`;
* a `uint32` is a `Nat` and every `++` on it is followed by `uint32`
  (reduction modulo `2^32`);
* a Go `int` and a `time.Duration` are an `Int`, and every addition or
  multiplication on them is followed by `int64` (two's complement wrap-around
  on 64 bits, the size of an `int` on the 64-bit platforms);
* a pointer that is mutated in place is modelled by storing the new value back
  under the same key;
* a loop that may not terminate takes a fuel argument and returns `none` when
  it runs out; the fuel is chosen so that `none` is returned exactly when the
  Go loop does not terminate.
-/

set_option autoImplicit false

/-! ## Go maps -/

/-- A Go map (or `sync.Map`): an association list. -/
abbrev GoMap (K V : Type) := List (K × V)

namespace GoMap

variable {K V : Type} [DecidableEq K]

/-- The value stored under `k`, if any (`m[k]`, `sync.Map.Load`). -/
def Load : GoMap K V → K → Option V
  | [], _ => none
  | (k', v) :: m, k => if k' = k then some v else Load m k

/-- Writes `v` under `k`, replacing the value that was there
(`m[k] = v`, `sync.Map.Store`). -/
def Store : GoMap K V → K → V → GoMap K V
  | [], k, v => [(k, v)]
  | (k', v') :: m, k, v => if k' = k then (k, v) :: m else (k', v') :: Store m k v

/-- The existing value under `k` and `true` when there is one, otherwise stores
and returns the given value and `false` (`sync.Map.LoadOrStore`). The third
component is the map afterwards. -/
def LoadOrStore (m : GoMap K V) (k : K) (v : V) : V × Bool × GoMap K V :=
  match Load m k with
  | some w => (w, true, m)
  | none => (v, false, Store m k v)

/-- The keys of the map, in iteration order. -/
def keys (m : GoMap K V) : List K := m.map Prod.fst

end GoMap

/-! ## Go integers -/

/-- The largest `int64` (`math.MaxInt64`), which is the largest `int` on a
64-bit platform. -/
def MaxInt64 : Int := 2 ^ 63 - 1

/-- The smallest `int64` (`math.MinInt64`). -/
def MinInt64 : Int := -2 ^ 63

/-- Reduction of an integer to the range of an `int64`: what an addition or a
multiplication of two such numbers leaves in Go, where the result wraps around
(two's complement). -/
def int64 (n : Int) : Int := (n + 2 ^ 63) % 2 ^ 64 - 2 ^ 63

/-- The number is in the range of an `int64`, as every value of a Go `int`
is. -/
def isInt64 (n : Int) : Prop := MinInt64 ≤ n ∧ n ≤ MaxInt64

instance isInt64Decidable (n : Int) : Decidable (isInt64 n) :=
  inferInstanceAs (Decidable (MinInt64 ≤ n ∧ n ≤ MaxInt64))

/-! ## `gossip/packets.go` and `gossip/gossiper.go` -/

namespace Gossip

/-- Reduction of a natural number to the range of a Go `uint32`. -/
def uint32 (n : Nat) : Nat := n % 2 ^ 32

/-- `RumorMessage` of `packets.go`; `E` is the type of the extra (consensus)
payload, which the gossiper never inspects. -/
structure RumorMessage (E : Type) where
  Origin : String
  ID : Nat
  Text : String
  Extra : Option E
deriving DecidableEq, Repr

/-- `RouteStruct` of `packets.go`. -/
structure RouteStruct where
  NextHop : String
  LastID : Nat
deriving DecidableEq, Repr

/-- `messageTracking` of `gossiper.go`: the rumors received from one origin and
the next id expected from it. -/
structure messageTracking (E : Type) where
  messages : GoMap Nat (RumorMessage E)
  nextID : Nat
deriving DecidableEq, Repr

/-- The fields of `Gossiper` that the sequential bookkeeping reads and writes.
`nodes` maps an address to its resolved form. -/
structure Gossiper (E : Type) where
  identifier : String
  address : String
  antiEntropy : Int
  routeTimer : Int
  nodes : GoMap String String
  nextID : Nat
  messages : GoMap String (messageTracking E)
  routes : GoMap String RouteStruct
deriving DecidableEq, Repr

/-- `NewGossiper`, after the UDP server has been created: `address` is the
local address the server reports. The maps start empty and the local sequence
counter at 1; a non-positive anti-entropy interval is replaced by 10. -/
def NewGossiper {E : Type} (address identifier : String) (antiEntropy routeTimer : Int) :
    Gossiper E :=
  let antiEntropy := if antiEntropy ≤ 0 then 10 else antiEntropy
  { identifier := identifier
    address := address
    antiEntropy := antiEntropy
    routeTimer := routeTimer
    nodes := []
    nextID := 1
    messages := []
    routes := [] }

/-- `updateRoute`: nothing happens when the next hop is the local address;
otherwise `LoadOrStore` of a new route, whose fields are then written again
when (and only when) the route was not loaded, that is, was just stored. -/
def updateRoute {E : Type} (g : Gossiper E) (destination nextHop : String) (lastID : Nat)
    (_officialDsdvUpdate : Bool) : Gossiper E :=
  if g.address = nextHop then g
  else
    match GoMap.LoadOrStore g.routes destination { NextHop := nextHop, LastID := lastID } with
    | (route, ok, routes) =>
      if !ok then
        { g with routes :=
            GoMap.Store routes destination { route with NextHop := nextHop, LastID := lastID } }
      else { g with routes := routes }

/-- `AddRoute`. -/
def AddRoute {E : Type} (g : Gossiper E) (peerName nextHop : String) : Gossiper E :=
  updateRoute g peerName nextHop 0 true

/-- `GetRoutingTable`: a copy of the routes. -/
def GetRoutingTable {E : Type} (g : Gossiper E) : GoMap String RouteStruct :=
  g.routes.foldl (fun routes e => GoMap.Store routes e.1 e.2) []

/-- The fuel given to the `Find next ID` loop: the number of `uint32` values.
After that many iterations the loop has met every id, all of them stored, and
goes round for ever. -/
def findFuel : Nat := 2 ^ 32

/-- The loop `for i := tracking.nextID; ; i++` of `trackMessage`: while id `i`
is in the history, both `i` and `tracking.nextID` are incremented; the first id
that is not stored ends the loop, which returns `tracking.nextID`. -/
def findNextID {E : Type} (messages : GoMap Nat (RumorMessage E)) : Nat → Nat → Nat → Option Nat
  | 0, _, _ => none
  | fuel + 1, i, nextID =>
    match GoMap.Load messages i with
    | some _ => findNextID messages fuel (uint32 (i + 1)) (uint32 (nextID + 1))
    | none => some nextID

/-- The closure `trackMessage` of `trackRumor`, for the rumor `msg`: returns
the tracking afterwards and the two results (expected id after, expected id
before). -/
def trackMessage {E : Type} (msg : RumorMessage E) (tracking : messageTracking E) :
    Option (messageTracking E × Nat × Nat) :=
  let ID := tracking.nextID
  let messages := GoMap.Store tracking.messages msg.ID msg
  if tracking.nextID ≠ msg.ID then
    some ({ tracking with messages := messages }, ID, ID)
  else
    let nextID := uint32 (tracking.nextID + 1)
    match findNextID messages findFuel nextID nextID with
    | some next => some ({ messages := messages, nextID := next }, next, ID)
    | none => none

/-- `trackRumor`: the gossiper afterwards and the two returned values, or `none`
when the call does not return. -/
def trackRumor {E : Type} (g : Gossiper E) (msg : RumorMessage E) :
    Option (Gossiper E × Nat × Nat) :=
  let ID := if msg.ID = 1 then 2 else 1
  let tracking : messageTracking E :=
    { nextID := ID, messages := GoMap.Store [] msg.ID msg }
  match GoMap.LoadOrStore g.messages msg.Origin tracking with
  | (track, true, _) =>
    let tracking := { track with messages := GoMap.Store track.messages msg.ID msg }
    match trackMessage msg tracking with
    | some (tracking, after, before) =>
      some ({ g with messages := GoMap.Store g.messages msg.Origin tracking }, after, before)
    | none => none
  | (_, false, messages) => some ({ g with messages := messages }, ID, 1)

/-- The id the gossiper expects next from `origin`, when it knows the origin. -/
def expectedID {E : Type} (g : Gossiper E) (origin : String) : Option Nat :=
  (GoMap.Load g.messages origin).map (fun t => t.nextID)

/-- A sequence of `trackRumor` calls: the gossiper afterwards and, for every
call in order, the origin of its rumor with the two values it returned. -/
def trackAll {E : Type} (g : Gossiper E) :
    List (RumorMessage E) → Option (Gossiper E × List (String × Nat × Nat))
  | [] => some (g, [])
  | msg :: rest =>
    match trackRumor g msg with
    | none => none
    | some (g1, after, before) =>
      match trackAll g1 rest with
      | none => none
      | some (g2, results) => some (g2, (msg.Origin, after, before) :: results)

/-- The (after, before) results of the calls made for `origin`, in order. -/
def reportsFor (origin : String) (results : List (String × Nat × Nat)) : List (Nat × Nat) :=
  (results.filter (fun r => r.1 = origin)).map (fun r => r.2)

/-- The ids a call with results (after, before) newly reports: `before`, ...,
`after - 1`. -/
def newIDs (r : Nat × Nat) : List Nat := List.range' r.2 (r.1 - r.2)

/-- The ranges of successive calls are contiguous from `start`: the `before` of
each call is the `after` of the previous one (`start` for the first) and is
not above its own `after`. -/
def contiguousFrom : Nat → List (Nat × Nat) → Prop
  | _, [] => True
  | start, (after, before) :: rest => before = start ∧ before ≤ after ∧ contiguousFrom after rest

instance contiguousFromDecidable : ∀ (start : Nat) (rs : List (Nat × Nat)),
    Decidable (contiguousFrom start rs)
  | _, [] => isTrue trivial
  | start, (after, before) :: rest =>
    have := contiguousFromDecidable after rest
    inferInstanceAs (Decidable (before = start ∧ before ≤ after ∧ contiguousFrom after rest))

/-- `StatusPacket` entries of `packets.go`. -/
structure PeerStatus where
  Identifier : String
  NextID : Nat
deriving DecidableEq, Repr

/-- `StatusPacket` of `packets.go`. -/
structure StatusPacket where
  Want : List PeerStatus
deriving DecidableEq, Repr

/-- `PrivateMessageData` of `packets.go`; `L` is the type of a location
(`r3.Vec`). -/
structure PrivateMessageData (L : Type) where
  Location : L
  DroneID : Nat
deriving DecidableEq, Repr

/-- `PrivateMessage` of `packets.go`. -/
structure PrivateMessage (L : Type) where
  Origin : String
  ID : Nat
  Data : PrivateMessageData L
  Destination : String
  HopLimit : Int
deriving DecidableEq, Repr

/-- `GossipPacket` of `packets.go`: each variant is a pointer that may be
nil. -/
structure GossipPacket (E L : Type) where
  Rumor : Option (RumorMessage E)
  Status : Option StatusPacket
  Private : Option (PrivateMessage L)
deriving DecidableEq, Repr

/-- The message handler (`g.handler.HandlePacket`), which is not part of the
sources at hand: it takes the gossiper, the packet and the address the packet
came from, and leaves the gossiper in a new state. -/
abbrev PacketHandler (E L : Type) := Gossiper E → GossipPacket E L → String → Gossiper E

/-- `AddMessage`: takes the next local id, increments the counter, dispatches
the rumor to the handler as coming from the local address, and returns the
id. -/
def AddMessage {E L : Type} (HandlePacket : PacketHandler E L) (g : Gossiper E) (text : String) :
    Gossiper E × Nat :=
  let id := g.nextID
  let g := { g with nextID := uint32 (g.nextID + 1) }
  let msg : GossipPacket E L :=
    { Rumor := some { Origin := g.identifier, ID := id, Text := text, Extra := none }
      Status := none
      Private := none }
  (HandlePacket g msg g.address, id)

/-- `AddExtraMessage`: as `AddMessage`, for a consensus payload. -/
def AddExtraMessage {E L : Type} (HandlePacket : PacketHandler E L) (g : Gossiper E)
    (paxosMsg : E) : Gossiper E × Nat :=
  let id := g.nextID
  let g := { g with nextID := uint32 (g.nextID + 1) }
  let msg : GossipPacket E L :=
    { Rumor := some { Origin := g.identifier, ID := id, Text := "", Extra := some paxosMsg }
      Status := none
      Private := none }
  (HandlePacket g msg g.address, id)

/-- One local submission: a call of `AddMessage` or of `AddExtraMessage`. -/
inductive Submission (E : Type) where
  | message (text : String)
  | extra (paxosMsg : E)
deriving DecidableEq, Repr

/-- A sequence of submissions: the gossiper afterwards and the ids returned,
in order. -/
def submitAll {E L : Type} (HandlePacket : PacketHandler E L) (g : Gossiper E) :
    List (Submission E) → Gossiper E × List Nat
  | [] => (g, [])
  | .message text :: rest =>
    let r := AddMessage HandlePacket g text
    let s := submitAll HandlePacket r.1 rest
    (s.1, r.2 :: s.2)
  | .extra paxosMsg :: rest =>
    let r := AddExtraMessage HandlePacket g paxosMsg
    let s := submitAll HandlePacket r.1 rest
    (s.1, r.2 :: s.2)

/-- A handler that tracks the rumor of a packet with `trackRumor` and does
nothing else; used as a concrete handler where one is needed. -/
def trackingHandler {E L : Type} : PacketHandler E L := fun g packet _ =>
  match packet.Rumor with
  | none => g
  | some msg =>
    match trackRumor g msg with
    | some (g1, _, _) => g1
    | none => g

/-! ### Vocabulary of the proofs about `trackRumor` -/

/-- What `trackRumor` does to the tracking of the rumor's origin: `tracking` is
the entry of the origin before the call (`none` for an unknown origin); the
result is the entry afterwards with the two returned values. -/
def originStep {E : Type} (tracking : Option (messageTracking E)) (msg : RumorMessage E) :
    Option (messageTracking E × Nat × Nat) :=
  match tracking with
  | none =>
    some ({ nextID := if msg.ID = 1 then 2 else 1, messages := GoMap.Store [] msg.ID msg },
      if msg.ID = 1 then 2 else 1, 1)
  | some track =>
    trackMessage msg { track with messages := GoMap.Store track.messages msg.ID msg }

/-- A sequence of calls for one origin, seen from the entry of that origin. -/
def originRun {E : Type} (tracking : Option (messageTracking E)) :
    List (RumorMessage E) → Option (Option (messageTracking E) × List (Nat × Nat))
  | [] => some (tracking, [])
  | msg :: rest =>
    match originStep tracking msg with
    | none => none
    | some (t1, after, before) =>
      match originRun (some t1) rest with
      | none => none
      | some (t2, results) => some (t2, (after, before) :: results)

/-- Id `i` is in the history of the tracking. -/
def received {E : Type} (t : messageTracking E) (i : Nat) : Prop :=
  GoMap.Load t.messages i ≠ none

/-- The state of an origin all of whose ids are below `2^32 - 1`: the expected
id is the smallest positive id that was not received. -/
def Tidy {E : Type} (t : messageTracking E) : Prop :=
  1 ≤ t.nextID ∧ ¬ received t t.nextID ∧ (∀ i, 1 ≤ i → i < t.nextID → received t i) ∧
    ∀ i, received t i → i < 2 ^ 32 - 1

/-- Every origin the gossiper knows is `Tidy`. -/
def AllTidy {E : Type} (g : Gossiper E) : Prop :=
  ∀ o t, GoMap.Load g.messages o = some t → Tidy t

/-- The state of an origin on a gossiper that started fresh, whatever ids it
was given: either every positive id below the expected one was received, or
the expected id has wrapped to 0 and every positive id was received. -/
def Loose {E : Type} (t : messageTracking E) : Prop :=
  t.nextID < 2 ^ 32 ∧
    ((1 ≤ t.nextID ∧ ∀ i, 1 ≤ i → i < t.nextID → received t i) ∨
      (t.nextID = 0 ∧ ∀ i, 1 ≤ i → i < 2 ^ 32 → received t i))

/-- The id expected from an origin with entry `t`: 1 when it has no entry
yet. -/
def expectedOf {E : Type} : Option (messageTracking E) → Nat
  | none => 1
  | some t => t.nextID

/-- Id `i` is in the history of an origin with entry `t`. -/
def receivedIn {E : Type} : Option (messageTracking E) → Nat → Prop
  | none, _ => False
  | some t, i => received t i

/-- A fresh gossiper, for the concrete runs. -/
def freshExample : Gossiper Unit := NewGossiper "127.0.0.1:5000" "A" 10 0

/-- The gossiper of the concrete runs once it knows origin `o` with the given
history and expected id. -/
def knowingExample (history : GoMap Nat (RumorMessage Unit)) (nextID : Nat) : Gossiper Unit :=
  { freshExample with messages := [("o", { messages := history, nextID := nextID })] }

/-- The rumors with ids `1, 2, ..., n` of origin `o`, in increasing order. -/
def ascending (E : Type) (o : String) (n : Nat) : List (RumorMessage E) :=
  (List.range' 1 n).map (fun i => { Origin := o, ID := i, Text := "", Extra := none })

end Gossip

/-! ## `encoding/hex` -/

namespace hex

/-- One hexadecimal digit, lower case. -/
def digit (n : Nat) : Char :=
  if n < 10 then Char.ofNat (48 + n) else Char.ofNat (87 + n)

/-- `hex.EncodeToString`: two digits per byte, high digit first. A byte is a
natural number below 256. -/
def EncodeToString (src : List Nat) : String :=
  String.mk (src.flatMap (fun byte => [digit (byte / 16 % 16), digit (byte % 16)]))

end hex

/-! ## The block log

`paxos/blockchain.go` (namespace `Paxos`) and its earlier form
`gossip/blockchain.go` (namespace `Gossip`). The consensus round (`TLC`), the
digest `Hash()` and the block types are not part of the sources at hand: they
are parameters (`Paxos.Env`, `Gossip.Env`). The gossiper that every call passes
on to the round is only used by the round and is left out. A Go `int` (block
numbers) is an `Int` and `+ 1` on it is followed by `int64`, so that the
number after `MaxInt64` is `MinInt64` as in Go; a byte slice is a list of
natural numbers. -/

/-- The block maps the log keeps are linked: whenever two stored blocks have
consecutive numbers, the later one carries the hash of the earlier one. -/
def ChainLinked {B : Type} (number : B → Int) (previous hash : B → List Nat)
    (blocks : GoMap String B) : Prop :=
  ∀ k1 k2 b1 b2, GoMap.Load blocks k1 = some b1 → GoMap.Load blocks k2 = some b2 →
    number b2 = number b1 + 1 → previous b2 = hash b1

/-- Block `b` extends the chain that ends in `tail`: its number is one more
and it carries the hash of the tail. Any block extends the empty chain. -/
def Extends {B : Type} (number : B → Int) (previous hash : B → List Nat) :
    Option B → B → Prop
  | none, _ => True
  | some tail, b => number b = number tail + 1 ∧ previous b = hash tail

/-- No stored block has a number above that of the tail, and the tail is the
only stored block with its number; without a tail nothing is stored. -/
def TailOnTop {B : Type} (number : B → Int) (blocks : GoMap String B) : Option B → Prop
  | none => blocks = []
  | some tail => ∀ k b, GoMap.Load blocks k = some b →
      number b ≤ number tail ∧ (number b = number tail → b = tail)

namespace Paxos

/-- What the interface `blk.Block` gives access to: number, previous hash and
content (`none` for a nil content). -/
structure Block (C : Type) where
  BlockNumber : Int
  PreviousHash : List Nat
  Content : Option C
deriving DecidableEq, Repr

/-- `blk.BlockContainer`: a block and the name of its type (the field `Type`
of the source). The block log only handles containers whose embedded block is
set. -/
structure BlockContainer (C : Type) where
  Block : Block C
  BlockType : String
deriving DecidableEq, Repr

/-- The two constructors of the block factory that `Propose` calls. -/
structure BlockFactory (C : Type) where
  NewGenesisBlock : String → Int → C → BlockContainer C
  NewBlock : String → Int → List Nat → C → BlockContainer C

/-- Modelled from the spec: the block factory, whose implementation is not in
the sources. "Block — {index: integer, previous-hash: 32-byte digest, content:
opaque typed payload}"; "The genesis block has index 0 and a zero
previous-hash": a block made by the factory has the number, previous hash and
content it is given, the genesis block a previous hash of 32 zero bytes. -/
def specFactory (C : Type) : BlockFactory C :=
  { NewGenesisBlock := fun blockType blockNumber content =>
      { Block := { BlockNumber := blockNumber, PreviousHash := List.replicate 32 0,
                   Content := some content }
        BlockType := blockType }
    NewBlock := fun blockType blockNumber previousHash content =>
      { Block := { BlockNumber := blockNumber, PreviousHash := previousHash,
                   Content := some content }
        BlockType := blockType } }

/-- The operations the block log calls and that are not in the sources: the
consensus round `TLC` with state `T` (`NewTLC`, `propose`, `handleExtraMessage`
on a message of type `M`, `stop`), the digest `Hash()` of a block and
`BlockType()` of a content. -/
structure Env (T M C : Type) where
  NewTLC : Int → Int → Int → Int → BlockFactory C → T
  tlcPropose : T → BlockContainer C → T
  tlcHandleExtraMessage : T → M → T × Option (BlockContainer C)
  tlcStop : T → T
  Hash : Block C → List Nat
  BlockType : C → String

/-- `BlockChain` of `paxos/blockchain.go`. -/
structure BlockChain (T C : Type) where
  numParticipant : Int
  nodeIndex : Int
  paxosRetry : Int
  tail : Option (BlockContainer C)
  blocks : GoMap String (BlockContainer C)
  tlc : T
  blockFactory : BlockFactory C

/-- `NewBlockchain`. -/
def NewBlockchain {T M C : Type} (env : Env T M C) (numParticipant nodeIndex paxosRetry : Int)
    (blockFactory : BlockFactory C) : BlockChain T C :=
  { numParticipant := numParticipant
    nodeIndex := nodeIndex
    paxosRetry := paxosRetry
    tlc := env.NewTLC numParticipant nodeIndex paxosRetry 0 blockFactory
    tail := none
    blocks := []
    blockFactory := blockFactory }

/-- The block that `Propose` hands to the round. -/
def proposal {T M C : Type} (env : Env T M C) (b : BlockChain T C) (blockContent : C) :
    BlockContainer C :=
  match b.tail with
  | none => b.blockFactory.NewGenesisBlock (env.BlockType blockContent) 0 blockContent
  | some tail =>
    b.blockFactory.NewBlock (env.BlockType blockContent) (int64 (tail.Block.BlockNumber + 1))
      (env.Hash tail.Block) blockContent

/-- `Propose`: hands the round the genesis block when there is no tail, and
otherwise the block that follows the tail. -/
def Propose {T M C : Type} (env : Env T M C) (b : BlockChain T C) (blockContent : C) :
    BlockChain T C :=
  { b with tlc := env.tlcPropose b.tlc (proposal env b blockContent) }

/-- `GetBlocks`. -/
def GetBlocks {T M C : Type} (env : Env T M C) (b : BlockChain T C) :
    String × GoMap String (BlockContainer C) :=
  match b.tail with
  | none => (hex.EncodeToString (List.replicate 32 0), b.blocks)
  | some tail => (hex.EncodeToString (env.Hash tail.Block), b.blocks)

/-- `HandleExtraMessage`: the message goes to the round; a block that the
round hands back is stored under its hash and becomes the tail, the round is
stopped and dropped, and a new round is created for the next number. Returns
the block log afterwards and the block (`none` for nil). -/
def HandleExtraMessage {T M C : Type} (env : Env T M C) (b : BlockChain T C) (msg : M) :
    BlockChain T C × Option (BlockContainer C) :=
  match env.tlcHandleExtraMessage b.tlc msg with
  | (_, some block) =>
    ({ b with
        blocks := GoMap.Store b.blocks (hex.EncodeToString (env.Hash block.Block)) block
        tail := some block
        tlc := env.NewTLC b.numParticipant b.nodeIndex b.paxosRetry
          (int64 (block.Block.BlockNumber + 1)) b.blockFactory },
      some block)
  | (tlc, none) => ({ b with tlc := tlc }, none)

/-- One call on the block log. -/
inductive Call (M C : Type) where
  | propose (blockContent : C)
  | handle (msg : M)

/-- The block log after a sequence of calls. -/
def exec {T M C : Type} (env : Env T M C) : BlockChain T C → List (Call M C) → BlockChain T C
  | b, [] => b
  | b, .propose blockContent :: rest => exec env (Propose env b blockContent) rest
  | b, .handle msg :: rest => exec env (HandleExtraMessage env b msg).1 rest

/-- Chain integrity of a block log. -/
def ChainIntegrity {T M C : Type} (env : Env T M C) (b : BlockChain T C) : Prop :=
  ChainLinked (fun c => c.Block.BlockNumber) (fun c => c.Block.PreviousHash)
    (fun c => env.Hash c.Block) b.blocks

/-- Along the sequence of calls, every block the round hands back extends the
tail of that moment. -/
def linkedCalls {T M C : Type} (env : Env T M C) : BlockChain T C → List (Call M C) → Prop
  | _, [] => True
  | b, .propose blockContent :: rest => linkedCalls env (Propose env b blockContent) rest
  | b, .handle msg :: rest =>
    (∀ block, (env.tlcHandleExtraMessage b.tlc msg).2 = some block →
        Extends (fun c => c.Block.BlockNumber) (fun c => c.Block.PreviousHash)
          (fun c => env.Hash c.Block) b.tail block) ∧
      linkedCalls env (HandleExtraMessage env b msg).1 rest

/-- For the concrete runs: a round that hands back the block its message
carries, a digest that lists the block number modulo 256, and contents that
are numbers. -/
def echoEnv : Env Unit (Option (BlockContainer Nat)) Nat :=
  { NewTLC := fun _ _ _ _ _ => ()
    tlcPropose := fun t _ => t
    tlcHandleExtraMessage := fun t msg => (t, msg)
    tlcStop := fun t => t
    Hash := fun block => [block.BlockNumber.toNat % 256]
    BlockType := fun _ => "NamingBlock" }

end Paxos

namespace Gossip

/-- `types.Block` as `gossip/blockchain.go` uses it. -/
structure Block where
  BlockNumber : Int
  PreviousHash : List Nat
  Filename : String
  Metahash : List Nat
deriving DecidableEq, Repr

/-- The operations `gossip/blockchain.go` calls and that are not in the
sources: the consensus round `TLC` with state `T` and the digest `Hash()`. -/
structure Env (T M : Type) where
  NewTLC : Int → Int → Int → Int → Block → T
  tlcPropose : T → Block → T
  tlcHandleExtraMessage : T → M → T × Option Block
  tlcStop : T → T
  Hash : Block → List Nat

/-- `BlockChain` of `gossip/blockchain.go`. -/
structure BlockChain (T : Type) where
  numParticipant : Int
  nodeIndex : Int
  paxosRetry : Int
  tail : Option Block
  blocks : GoMap String Block
  tlc : T

/-- `NewBlockchain` of `gossip/blockchain.go`. -/
def NewBlockchain {T M : Type} (env : Env T M) (numParticipant nodeIndex paxosRetry : Int) :
    BlockChain T :=
  { numParticipant := numParticipant
    nodeIndex := nodeIndex
    paxosRetry := paxosRetry
    tlc := env.NewTLC numParticipant nodeIndex paxosRetry 0
      { BlockNumber := 0, PreviousHash := List.replicate 32 0, Filename := "", Metahash := [] }
    tail := none
    blocks := [] }

/-- The block that `propose` hands to the round. -/
def proposal {T M : Type} (env : Env T M) (b : BlockChain T) (metahash : List Nat)
    (filename : String) : Block :=
  match b.tail with
  | none =>
    { BlockNumber := 0, PreviousHash := List.replicate 32 0,
      Filename := filename, Metahash := metahash }
  | some tail =>
    { BlockNumber := int64 (tail.BlockNumber + 1), PreviousHash := env.Hash tail,
      Filename := filename, Metahash := metahash }

/-- `propose` of `gossip/blockchain.go`. -/
def propose {T M : Type} (env : Env T M) (b : BlockChain T) (metahash : List Nat)
    (filename : String) : BlockChain T :=
  { b with tlc := env.tlcPropose b.tlc (proposal env b metahash filename) }

/-- `GetBlocks` of `gossip/blockchain.go`. -/
def GetBlocks {T M : Type} (env : Env T M) (b : BlockChain T) : String × GoMap String Block :=
  match b.tail with
  | none => (hex.EncodeToString (List.replicate 32 0), b.blocks)
  | some tail => (hex.EncodeToString (env.Hash tail), b.blocks)

/-- `handleExtraMessage` of `gossip/blockchain.go`. -/
def handleExtraMessage {T M : Type} (env : Env T M) (b : BlockChain T) (msg : M) :
    BlockChain T × Option Block :=
  match env.tlcHandleExtraMessage b.tlc msg with
  | (_, some block) =>
    ({ b with
        blocks := GoMap.Store b.blocks (hex.EncodeToString (env.Hash block)) block
        tail := some block
        tlc := env.NewTLC b.numParticipant b.nodeIndex b.paxosRetry
          (int64 (block.BlockNumber + 1))
          { BlockNumber := int64 (block.BlockNumber + 1), PreviousHash := env.Hash block,
            Filename := "", Metahash := [] } },
      some block)
  | (tlc, none) => ({ b with tlc := tlc }, none)

/-- One call on the block log of `gossip/blockchain.go`. -/
inductive Call (M : Type) where
  | propose (metahash : List Nat) (filename : String)
  | handle (msg : M)

/-- The block log after a sequence of calls. -/
def exec {T M : Type} (env : Env T M) : BlockChain T → List (Call M) → BlockChain T
  | b, [] => b
  | b, .propose metahash filename :: rest => exec env (propose env b metahash filename) rest
  | b, .handle msg :: rest => exec env (handleExtraMessage env b msg).1 rest

/-- Chain integrity of a block log. -/
def ChainIntegrity {T M : Type} (env : Env T M) (b : BlockChain T) : Prop :=
  ChainLinked (fun c => c.BlockNumber) (fun c => c.PreviousHash) env.Hash b.blocks

/-- Along the sequence of calls, every block the round hands back extends the
tail of that moment. -/
def linkedCalls {T M : Type} (env : Env T M) : BlockChain T → List (Call M) → Prop
  | _, [] => True
  | b, .propose metahash filename :: rest =>
    linkedCalls env (propose env b metahash filename) rest
  | b, .handle msg :: rest =>
    (∀ block, (env.tlcHandleExtraMessage b.tlc msg).2 = some block →
        Extends (fun c => c.BlockNumber) (fun c => c.PreviousHash) env.Hash b.tail block) ∧
      linkedCalls env (handleExtraMessage env b msg).1 rest

/-- For the concrete runs: a round that hands back the block its message
carries and a digest that lists the block number modulo 256. -/
def echoEnv : Env Unit (Option Block) :=
  { NewTLC := fun _ _ _ _ _ => ()
    tlcPropose := fun t _ => t
    tlcHandleExtraMessage := fun t msg => (t, msg)
    tlcStop := fun t => t
    Hash := fun block => [block.BlockNumber.toNat % 256] }

end Gossip

/-! ## Peers, routes and timers of the gossiper -/

namespace Gossip

/-- `AddAddresses`: the addresses are taken in order; the first one that
`net.ResolveUDPAddr` (the parameter `ResolveUDPAddr`, which gives the resolved
address or an error) cannot resolve ends the call with that error; an address
that resolves is put in `nodes` unless it is the local address. Returns the
gossiper afterwards and the error (`none` for nil). -/
def AddAddresses {E : Type} (ResolveUDPAddr : String → Except String String) (g : Gossiper E) :
    List String → Gossiper E × Option String
  | [] => (g, none)
  | a :: rest =>
    match ResolveUDPAddr a with
    | .error err => (g, some err)
    | .ok addr =>
      if a ≠ g.address then
        AddAddresses ResolveUDPAddr { g with nodes := GoMap.Store g.nodes a addr } rest
      else AddAddresses ResolveUDPAddr g rest

/-- `GetNodes`: the keys of `nodes`. -/
def GetNodes {E : Type} (g : Gossiper E) : List String := GoMap.keys g.nodes

/-- `GetLocalAddr`. -/
def GetLocalAddr {E : Type} (g : Gossiper E) : String := g.address

/-- `RandomAddress`: the known nodes that are not among `exceptAddresses`; an
error when there is none, and otherwise the one at index `rand.Intn(len)`.
The outcome of `rand.Intn(n)` is `random % n`, for the number `random` drawn:
every index below `n` is the outcome for some `random`. -/
def RandomAddress {E : Type} (random : Nat) (g : Gossiper E) (exceptAddresses : List String) :
    Except String String :=
  let nodes := (GoMap.keys g.nodes).filter (fun n => !exceptAddresses.contains n)
  if nodes.length ≤ 0 then .error "No other known hosts"
  else .ok (nodes.getD (random % nodes.length) "")

/-- The address (or the error) as a yes or no: did the address resolve. -/
def resolves (ResolveUDPAddr : String → Except String String) (a : String) : Bool :=
  match ResolveUDPAddr a with
  | .ok _ => true
  | .error _ => false

/-- A sequence of `AddAddresses` calls, one batch each, whatever each call
returns: the gossiper afterwards. -/
def addBatches {E : Type} (ResolveUDPAddr : String → Except String String) (g : Gossiper E) :
    List (List String) → Gossiper E
  | [] => g
  | batch :: rest => addBatches ResolveUDPAddr (AddAddresses ResolveUDPAddr g batch).1 rest

/-- One call that touches the routing table. -/
inductive RouteCall where
  | update (destination nextHop : String) (lastID : Nat) (officialDsdvUpdate : Bool)
  | add (peerName nextHop : String)
deriving DecidableEq, Repr

/-- A sequence of `updateRoute` and `AddRoute` calls. -/
def routeAll {E : Type} (g : Gossiper E) : List RouteCall → Gossiper E
  | [] => g
  | .update destination nextHop lastID flag :: rest =>
    routeAll (updateRoute g destination nextHop lastID flag) rest
  | .add peerName nextHop :: rest => routeAll (AddRoute g peerName nextHop) rest

/-- `time.Second`: the number of nanoseconds, the unit of a `time.Duration`,
in a second. -/
def Second : Int := 1000000000

/-- What a timer part of `Run` comes to: no ticker is started, a ticker is
started with a period of that many nanoseconds, or `time.NewTicker` panics. -/
inductive Ticker where
  | off
  | every (nanoseconds : Int)
  | panics
deriving DecidableEq, Repr

/-- `time.NewTicker(d)`, for a duration `d` in nanoseconds: it panics when `d`
is not positive. -/
def NewTicker (d : Int) : Ticker := if d ≤ 0 then .panics else .every d

/-- The anti-entropy part of `Run`: when the stored interval is positive,
`time.NewTicker(time.Second * time.Duration(g.antiEntropy))`, a product of
two `int64`; otherwise no ticker. -/
def antiEntropyTicker {E : Type} (g : Gossiper E) : Ticker :=
  if g.antiEntropy > 0 then NewTicker (int64 (Second * g.antiEntropy)) else .off

/-- The route-rumor part of `Run`: when the route timer is positive,
`time.NewTicker(time.Second * time.Duration(g.routeTimer))`; otherwise no
ticker. -/
def routeRumorTicker {E : Type} (g : Gossiper E) : Ticker :=
  if g.routeTimer > 0 then NewTicker (int64 (Second * g.routeTimer)) else .off

/-- `GossipPacket.Copy`: a new rumor, status and private message for the
variants that are set, field by field. `copyExtra` is `ExtraMessage.Copy`,
which is not part of the sources at hand. -/
def GossipPacket.Copy {E L : Type} (copyExtra : E → E) (g : GossipPacket E L) :
    GossipPacket E L :=
  let rumor : Option (RumorMessage E) :=
    match g.Rumor with
    | none => none
    | some r =>
      some { Origin := r.Origin
             ID := r.ID
             Text := r.Text
             Extra := match r.Extra with
               | none => none
               | some extra => some (copyExtra extra) }
  let status : Option StatusPacket :=
    match g.Status with
    | none => none
    | some s => some { Want := [] ++ s.Want }
  let priv : Option (PrivateMessage L) :=
    match g.Private with
    | none => none
    | some p =>
      some { Destination := p.Destination
             HopLimit := p.HopLimit
             ID := p.ID
             Origin := p.Origin
             Data := { Location := p.Data.Location, DroneID := p.Data.DroneID } }
  { Rumor := rumor, Status := status, Private := priv }

end Gossip

/-! ## Snapshots, pending proposals and block decoding -/

/-- Every stored block is stored under the key that `key` gives it, the tail
is stored under its key, and without a tail nothing is stored. -/
def HashKeyed {B : Type} (key : B → String) (blocks : GoMap String B) (tail : Option B) : Prop :=
  (∀ k b, GoMap.Load blocks k = some b → k = key b) ∧
    match tail with
    | none => blocks = []
    | some t => GoMap.Load blocks (key t) = some t

namespace Paxos

/-- For the concrete runs: a round that keeps, in order, every block that
`propose` hands it, and hands back the block its message carries. -/
def recordEnv : Env (List (BlockContainer Nat)) (Option (BlockContainer Nat)) Nat :=
  { NewTLC := fun _ _ _ _ _ => []
    tlcPropose := fun t block => t ++ [block]
    tlcHandleExtraMessage := fun t msg => (t, msg)
    tlcStop := fun t => t
    Hash := fun block => [block.BlockNumber.toNat % 256]
    BlockType := fun _ => "NamingBlock" }

/-- For the concrete runs: a round that is the number it was created for, and
hands back the block its message carries. -/
def numberEnv : Env Int (Option (BlockContainer Nat)) Nat :=
  { NewTLC := fun _ _ _ blockNumber _ => blockNumber
    tlcPropose := fun t _ => t
    tlcHandleExtraMessage := fun t msg => (t, msg)
    tlcStop := fun t => t
    Hash := fun block => [block.BlockNumber.toNat % 256]
    BlockType := fun _ => "NamingBlock" }

/-- A JSON value as `encoding/json` decodes it into an `interface{}`. -/
inductive JSON where
  | null
  | bool (b : Bool)
  | number (n : Int)
  | string (s : String)
  | array (items : List JSON)
  | object (fields : List (String × JSON))

/-- How a call of `BlockContainer.UnmarshalJSON` ends: it returns nil with the
receiver set to a container, returns nil with the receiver untouched, returns
an error, or panics. -/
inductive Unmarshalled (C : Type) where
  | set (container : BlockContainer C)
  | untouched
  | error (message : String)
  | panic (message : String)

/-- `blockNamingStr`. -/
def blockNamingStr : String := "NamingBlock"

/-- The keys of the tables `blockTypes` and `blockContentTypes` of
`UnmarshalJSON`: a lookup of any other key gives the nil `reflect.Type`. -/
def registered (blockType : String) : Bool := blockType = blockNamingStr

/-- `json.Unmarshal(data, &m)` for an empty `m` of type
`map[string]interface{}`: the fields of an object, in order, a later field
replacing an earlier one of the same name; nothing for `null`; an error for
any other value. -/
def unmarshalMap : JSON → Except String (GoMap String JSON)
  | .object fields => .ok (fields.foldl (fun m field => GoMap.Store m field.1 field.2) [])
  | .null => .ok []
  | _ => .error "json: cannot unmarshal into Go value of type map[string]interface {}"

/-- `BlockContainer.UnmarshalJSON`. `data` is the JSON value of the input
(`none` for bytes that are not JSON, which `json.Unmarshal` rejects).
`decodeContent` and `decodeBlock` are `json.Unmarshal` into a new content and
a new block of the registered type; these types are not part of the sources at
hand. `json.Marshal` of a decoded value gives that value back. `reflect.New`
panics on the nil type. -/
def UnmarshalJSON {C : Type} (decodeContent : JSON → Except String C)
    (decodeBlock : JSON → Block C) (data : Option JSON) : Unmarshalled C :=
  match data with
  | none => .error "invalid character"
  | some value =>
    match unmarshalMap value with
    | .error err => .error err
    | .ok m =>
      match GoMap.Load m "Type", GoMap.Load m "Block" with
      | some blockTypeInterface, some blockMapInterface =>
        match blockTypeInterface with
        | .string blockType =>
          match blockMapInterface with
          | .null => .untouched
          | .object fields =>
            let blockMap := fields.foldl (fun m field => GoMap.Store m field.1 field.2) []
            match GoMap.Load blockMap "Content" with
            | none => .error "Not a valid BlockContainer, Block.Content not valid"
            | some blockContentMap =>
              if registered blockType then
                match decodeContent blockContentMap with
                | .error err => .error err
                | .ok blockContent =>
                  let block := decodeBlock (.object fields)
                  .set { Block := { block with Content := some blockContent }
                         BlockType := blockType }
              else .panic "reflect: New(nil)"
          | _ => .error "Not a valid BlockContainer, BlockMap not valid"
        | _ => .error "Not a valid BlockContainer, BlockType not valid"
      | _, _ => .error "Not a valid BlockContainer"

end Paxos

namespace Gossip

/-- For the concrete runs: a round that keeps, in order, every block that
`propose` hands it, and hands back the block its message carries. -/
def recordEnv : Env (List Block) (Option Block) :=
  { NewTLC := fun _ _ _ _ _ => []
    tlcPropose := fun t block => t ++ [block]
    tlcHandleExtraMessage := fun t msg => (t, msg)
    tlcStop := fun t => t
    Hash := fun block => [block.BlockNumber.toNat % 256] }

/-- For the concrete runs: a round that is the number it was created for, and
hands back the block its message carries. -/
def numberEnv : Env Int (Option Block) :=
  { NewTLC := fun _ _ _ blockNumber _ => blockNumber
    tlcPropose := fun t _ => t
    tlcHandleExtraMessage := fun t msg => (t, msg)
    tlcStop := fun t => t
    Hash := fun block => [block.BlockNumber.toNat % 256] }

end Gossip

/-! ## `pathgenerator`: the basic path -/

namespace pathgenerator

/-- An `r3.Vec` whose coordinates are whole numbers: a point of the grid, or a
step between two points. -/
structure Vec where
  X : Int
  Y : Int
  Z : Int
deriving DecidableEq, Repr

/-- The step from `a` to `b`. -/
def Vec.sub (b a : Vec) : Vec := { X := b.X - a.X, Y := b.Y - a.Y, Z := b.Z - a.Z }

/-- The zero step. -/
def Vec.zero : Vec := { X := 0, Y := 0, Z := 0 }

/-- The sum of the steps of a path, coordinate by coordinate. -/
def total (path : List Vec) : Vec :=
  { X := (path.map (fun v => v.X)).sum
    Y := (path.map (fun v => v.Y)).sum
    Z := (path.map (fun v => v.Z)).sum }

/-- A step of at most one unit along a single axis, or the zero step. -/
def isStep (v : Vec) : Prop := v.X.natAbs + v.Y.natAbs + v.Z.natAbs ≤ 1

instance isStepDecidable (v : Vec) : Decidable (isStep v) :=
  inferInstanceAs (Decidable (v.X.natAbs + v.Y.natAbs + v.Z.natAbs ≤ 1))

/-- The unit steps that cover the distance `delta` along the axis with unit
vector `axis`: as many as the distance is long, in its direction. -/
def moves (delta : Int) (axis : Vec) : List Vec :=
  List.replicate delta.natAbs
    { X := Int.sign delta * axis.X, Y := Int.sign delta * axis.Y, Z := Int.sign delta * axis.Z }

/-- The steps of one drone: its moves along Y, then along X, then along Z. -/
def dronePath (start dest : Vec) : List Vec :=
  moves (dest.Y - start.Y) { X := 0, Y := 1, Z := 0 } ++
    moves (dest.X - start.X) { X := 1, Y := 0, Z := 0 } ++
    moves (dest.Z - start.Z) { X := 0, Y := 0, Z := 1 }

/-- The number of steps of the longest path. -/
def longest (paths : List (List Vec)) : Nat := paths.foldr (fun path n => max path.length n) 0

/-- Modelled from the spec: `generateBasicPath`, whose code is not in the
sources (only its test `TestGenerateBasicPath` is). As the test shows and the
property under test says: one path per drone, made of unit steps along one
axis at a time, the Y moves before the X moves (then the Z moves, which the
test does not exercise), every path padded with zero steps to the length of
the longest one, so that all drones move in lock-step and each ends on its
target. `start` is the argument `from` of the source. -/
def generateBasicPath (start dest : List Vec) : List (List Vec) :=
  let paths := List.zipWith dronePath start dest
  paths.map (fun path => path ++ List.replicate (longest paths - path.length) Vec.zero)

/-- The starting points of `TestGenerateBasicPath`. -/
def testFrom : List Vec := [⟨0, 0, 0⟩, ⟨1, 0, 0⟩, ⟨0, 0, 1⟩, ⟨1, 0, 1⟩]

/-- The targets of `TestGenerateBasicPath`. -/
def testDest : List Vec := [⟨-2, 1, 0⟩, ⟨2, 2, 0⟩, ⟨0, 2, 1⟩, ⟨2, 2, 1⟩]

/-- The paths that `TestGenerateBasicPath` expects. -/
def testExpected : List (List Vec) :=
  [[⟨0, 1, 0⟩, ⟨-1, 0, 0⟩, ⟨-1, 0, 0⟩],
   [⟨0, 1, 0⟩, ⟨0, 1, 0⟩, ⟨1, 0, 0⟩],
   [⟨0, 1, 0⟩, ⟨0, 1, 0⟩, ⟨0, 0, 0⟩],
   [⟨0, 1, 0⟩, ⟨0, 1, 0⟩, ⟨1, 0, 0⟩]]

end pathgenerator

/-! # Theorems -/

/-! ## Go integers -/

theorem int64_of_isInt64 {n : Int} (h : isInt64 n) : int64 n = n := by
  unfold isInt64 MinInt64 MaxInt64 at h
  unfold int64
  omega

theorem isInt64_int64 (n : Int) : isInt64 (int64 n) := by
  unfold isInt64 MinInt64 MaxInt64 int64
  omega

/-- Below `MaxInt64` the successor on a Go `int` is the successor. -/
theorem int64_succ {n : Int} (h : isInt64 n) (hmax : n < MaxInt64) : int64 (n + 1) = n + 1 := by
  unfold isInt64 MinInt64 MaxInt64 at *
  unfold int64
  omega

/-- The successor on a Go `int` is never the number itself. -/
theorem int64_succ_ne (n : Int) : int64 (n + 1) ≠ n := by
  unfold int64
  omega

/-- The successor of `MaxInt64` on a Go `int` is `MinInt64`. -/
theorem int64_succ_max : int64 (MaxInt64 + 1) = MinInt64 := by
  decide

/-! ## Go maps -/

namespace GoMap

variable {K V : Type} [DecidableEq K]

theorem Load_Store_self (m : GoMap K V) (k : K) (v : V) : Load (Store m k v) k = some v := by
  induction m with
  | nil => simp [Store, Load]
  | cons e m ih =>
    obtain ⟨k', v'⟩ := e
    by_cases h : k' = k
    · simp [Store, Load, h]
    · simp [Store, Load, h, ih]

theorem Load_Store_of_ne (m : GoMap K V) {k k' : K} (v : V) (h : k' ≠ k) :
    Load (Store m k v) k' = Load m k' := by
  induction m with
  | nil => simp [Store, Load, Ne.symm h]
  | cons e m ih =>
    obtain ⟨k1, v1⟩ := e
    by_cases h1 : k1 = k
    · subst h1
      simp [Store, Load, Ne.symm h]
    · by_cases h2 : k1 = k'
      · subst h2
        simp [Store, Load, h1]
      · simp [Store, Load, h1, h2, ih]

theorem Load_Store (m : GoMap K V) (k k' : K) (v : V) :
    Load (Store m k v) k' = if k' = k then some v else Load m k' := by
  by_cases h : k' = k
  · subst h
    simp [Load_Store_self]
  · simp [h, Load_Store_of_ne m v h]

end GoMap

namespace Gossip

variable {E : Type}

theorem uint32_lt (n : Nat) : uint32 n < 2 ^ 32 := by
  unfold uint32
  exact Nat.mod_lt _ (by norm_num)

theorem uint32_of_lt {n : Nat} (h : n < 2 ^ 32) : uint32 n = n := by
  unfold uint32
  exact Nat.mod_eq_of_lt h

theorem uint32_succ_add (a b : Nat) : uint32 (uint32 (a + 1) + b) = uint32 (a + (b + 1)) := by
  unfold uint32
  rw [Nat.mod_add_mod]
  congr 1
  omega

/-- The loop returns the id reached after `k` increments when the `k` ids
before it are stored, the one reached is not, and `k` is within the fuel. -/
theorem findNextID_eq (messages : GoMap Nat (RumorMessage E)) :
    ∀ (fuel i n k : Nat), k < fuel →
      (∀ j, j < k → GoMap.Load messages (uint32 (i + j)) ≠ none) →
      GoMap.Load messages (uint32 (i + k)) = none → i < 2 ^ 32 → n < 2 ^ 32 →
      findNextID messages fuel i n = some (uint32 (n + k)) := by
  intro fuel
  induction fuel with
  | zero => intro i n k hk; omega
  | succ fuel ih =>
    intro i n k hk hst hnone hi hn
    cases k with
    | zero =>
      rw [Nat.add_zero, uint32_of_lt hi] at hnone
      simp [findNextID, hnone, uint32_of_lt hn]
    | succ k =>
      have h0 := hst 0 (by omega)
      rw [Nat.add_zero, uint32_of_lt hi] at h0
      obtain ⟨v, hv⟩ := Option.ne_none_iff_exists'.mp h0
      have hrec := ih (uint32 (i + 1)) (uint32 (n + 1)) k (by omega)
        (fun j hj => by rw [uint32_succ_add]; exact hst (j + 1) (by omega))
        (by rw [uint32_succ_add]; exact hnone) (uint32_lt _) (uint32_lt _)
      rw [uint32_succ_add] at hrec
      simp only [findNextID, hv]
      exact hrec

/-- What a result of the loop says: it was reached after `k` increments, within
the fuel, over stored ids, and is not stored itself. -/
theorem findNextID_some (messages : GoMap Nat (RumorMessage E)) :
    ∀ (fuel i n r : Nat), findNextID messages fuel i n = some r → i < 2 ^ 32 → n < 2 ^ 32 →
      ∃ k, k < fuel ∧ r = uint32 (n + k) ∧ GoMap.Load messages (uint32 (i + k)) = none ∧
        ∀ j, j < k → GoMap.Load messages (uint32 (i + j)) ≠ none := by
  intro fuel
  induction fuel with
  | zero => intro i n r h; simp [findNextID] at h
  | succ fuel ih =>
    intro i n r h hi hn
    cases hl : GoMap.Load messages i with
    | none =>
      simp only [findNextID, hl] at h
      refine ⟨0, by omega, ?_, ?_, ?_⟩
      · rw [Nat.add_zero, uint32_of_lt hn]
        exact (Option.some.inj h).symm
      · rw [Nat.add_zero, uint32_of_lt hi]
        exact hl
      · intro j hj
        omega
    | some v =>
      simp only [findNextID, hl] at h
      obtain ⟨k, hk, hr, hnone, hst⟩ := ih _ _ _ h (uint32_lt _) (uint32_lt _)
      refine ⟨k + 1, by omega, ?_, ?_, ?_⟩
      · rw [← uint32_succ_add]
        exact hr
      · rw [← uint32_succ_add]
        exact hnone
      · intro j hj
        cases j with
        | zero =>
          rw [Nat.add_zero, uint32_of_lt hi, hl]
          simp
        | succ j =>
          rw [← uint32_succ_add]
          exact hst j (by omega)

/-! ### `trackRumor` through the entry of the rumor's origin -/

theorem trackRumor_eq (g : Gossiper E) (msg : RumorMessage E) :
    trackRumor g msg = (originStep (GoMap.Load g.messages msg.Origin) msg).map
      (fun r => ({ g with messages := GoMap.Store g.messages msg.Origin r.1 }, r.2.1, r.2.2)) := by
  unfold trackRumor originStep GoMap.LoadOrStore
  cases h : GoMap.Load g.messages msg.Origin with
  | none => simp
  | some t =>
    simp only
    cases trackMessage msg { t with messages := GoMap.Store t.messages msg.ID msg } with
    | none => rfl
    | some r => rfl

theorem trackRumor_some {g g1 : Gossiper E} {msg : RumorMessage E} {a b : Nat}
    (h : trackRumor g msg = some (g1, a, b)) :
    ∃ t1, originStep (GoMap.Load g.messages msg.Origin) msg = some (t1, a, b) ∧
      g1 = { g with messages := GoMap.Store g.messages msg.Origin t1 } := by
  rw [trackRumor_eq] at h
  cases hs : originStep (GoMap.Load g.messages msg.Origin) msg with
  | none => rw [hs] at h; simp at h
  | some r =>
    obtain ⟨t1, a1, b1⟩ := r
    rw [hs] at h
    simp only [Option.map_some', Option.some.injEq, Prod.mk.injEq] at h
    obtain ⟨hg, ha, hb⟩ := h
    subst ha hb
    exact ⟨t1, rfl, hg.symm⟩

theorem trackRumor_of_step {g : Gossiper E} {msg : RumorMessage E} {t1 : messageTracking E}
    {a b : Nat} (h : originStep (GoMap.Load g.messages msg.Origin) msg = some (t1, a, b)) :
    trackRumor g msg =
      some ({ g with messages := GoMap.Store g.messages msg.Origin t1 }, a, b) := by
  rw [trackRumor_eq, h]
  rfl

/-- The history after a call for a known origin: the rumor of the call under
its id, everything else as before. -/
theorem Load_stored_twice (m : GoMap Nat (RumorMessage E)) (msg : RumorMessage E) (i : Nat) :
    GoMap.Load (GoMap.Store (GoMap.Store m msg.ID msg) msg.ID msg) i =
      if i = msg.ID then some msg else GoMap.Load m i := by
  rw [GoMap.Load_Store, GoMap.Load_Store]
  by_cases h : i = msg.ID <;> simp [h]

theorem originStep_ne {t : messageTracking E} {msg : RumorMessage E} (h : msg.ID ≠ t.nextID) :
    originStep (some t) msg =
      some ({ messages := GoMap.Store (GoMap.Store t.messages msg.ID msg) msg.ID msg,
              nextID := t.nextID }, t.nextID, t.nextID) := by
  simp [originStep, trackMessage, Ne.symm h]

theorem originStep_eq {t : messageTracking E} {msg : RumorMessage E} (h : msg.ID = t.nextID) :
    originStep (some t) msg =
      (findNextID (GoMap.Store (GoMap.Store t.messages msg.ID msg) msg.ID msg) findFuel
        (uint32 (t.nextID + 1)) (uint32 (t.nextID + 1))).map
        (fun next => ({ messages := GoMap.Store (GoMap.Store t.messages msg.ID msg) msg.ID msg,
                        nextID := next }, next, t.nextID)) := by
  simp only [originStep, trackMessage, h, ne_eq, not_true_eq_false, if_false]
  cases findNextID (GoMap.Store (GoMap.Store t.messages t.nextID msg) t.nextID msg) findFuel
      (uint32 (t.nextID + 1)) (uint32 (t.nextID + 1)) with
  | none => rfl
  | some r => rfl

/-- Whatever a call for a known origin returns: the second value is the id
expected before, the first the id expected afterwards, and the history gains
the rumor of the call. -/
theorem originStep_known {t t1 : messageTracking E} {msg : RumorMessage E} {a b : Nat}
    (h : originStep (some t) msg = some (t1, a, b)) :
    b = t.nextID ∧ t1.nextID = a ∧
      (∀ i, GoMap.Load t1.messages i = if i = msg.ID then some msg else GoMap.Load t.messages i) ∧
      ((msg.ID ≠ t.nextID ∧ a = t.nextID) ∨
        (msg.ID = t.nextID ∧ ∃ k, 1 ≤ k ∧ k ≤ 2 ^ 32 ∧ a = uint32 (t.nextID + k) ∧
          ¬ received t1 a ∧ ∀ j, 1 ≤ j → j < k → received t1 (uint32 (t.nextID + j)))) := by
  by_cases hid : msg.ID = t.nextID
  · rw [originStep_eq hid] at h
    cases hf : findNextID (GoMap.Store (GoMap.Store t.messages msg.ID msg) msg.ID msg) findFuel
        (uint32 (t.nextID + 1)) (uint32 (t.nextID + 1)) with
    | none => rw [hf] at h; simp at h
    | some r =>
      rw [hf] at h
      simp only [Option.map_some', Option.some.injEq, Prod.mk.injEq] at h
      obtain ⟨ht, ha, hb⟩ := h
      subst ht ha hb
      obtain ⟨k, hk, hr, hnone, hst⟩ := findNextID_some _ _ _ _ _ hf (uint32_lt _) (uint32_lt _)
      rw [uint32_succ_add] at hr hnone
      refine ⟨rfl, rfl, fun i => Load_stored_twice _ _ _, Or.inr ⟨hid, k + 1, by omega, ?_, hr, ?_, ?_⟩⟩
      · unfold findFuel at hk
        omega
      · unfold received
        rw [hr]
        simpa using hnone
      · intro j hj1 hjk
        unfold received
        have := hst (j - 1) (by omega)
        rw [uint32_succ_add] at this
        have hj : j - 1 + 1 = j := by omega
        rw [hj] at this
        exact this
  · rw [originStep_ne hid] at h
    simp only [Option.some.injEq, Prod.mk.injEq] at h
    obtain ⟨ht, ha, hb⟩ := h
    subst ht ha hb
    exact ⟨rfl, rfl, fun i => Load_stored_twice _ _ _, Or.inl ⟨hid, rfl⟩⟩

/-- A call for a known origin whose id is the expected one returns as soon as
some id after it is not stored. -/
theorem originStep_advance {t : messageTracking E} {msg : RumorMessage E} (hid : msg.ID = t.nextID)
    (k : Nat) (hk1 : 1 ≤ k) (hk : k ≤ 2 ^ 32)
    (hnone : GoMap.Load t.messages (uint32 (t.nextID + k)) = none)
    (hne : uint32 (t.nextID + k) ≠ msg.ID)
    (hst : ∀ j, 1 ≤ j → j < k → uint32 (t.nextID + j) ≠ msg.ID →
      GoMap.Load t.messages (uint32 (t.nextID + j)) ≠ none) :
    originStep (some t) msg =
      some ({ messages := GoMap.Store (GoMap.Store t.messages msg.ID msg) msg.ID msg,
              nextID := uint32 (t.nextID + k) }, uint32 (t.nextID + k), t.nextID) := by
  rw [originStep_eq hid]
  have hf := findNextID_eq (GoMap.Store (GoMap.Store t.messages msg.ID msg) msg.ID msg) findFuel
    (uint32 (t.nextID + 1)) (uint32 (t.nextID + 1)) (k - 1) (by unfold findFuel; omega)
    (fun j hj => by
      rw [uint32_succ_add, Load_stored_twice]
      by_cases h : uint32 (t.nextID + (j + 1)) = msg.ID
      · simp [h]
      · simpa [h] using hst (j + 1) (by omega) (by omega) h)
    (by
      rw [uint32_succ_add, Load_stored_twice]
      have hk' : k - 1 + 1 = k := by omega
      rw [hk']
      simp [hne, hnone])
    (uint32_lt _) (uint32_lt _)
  rw [uint32_succ_add] at hf
  have hk' : k - 1 + 1 = k := by omega
  rw [hk'] at hf
  rw [hf]
  rfl

/-! ### Calls whose ids stay below `2^32 - 1` -/

/-- Above any id there is a first id that was not received, when some id above
it was not received. -/
theorem exists_first_missing (t : messageTracking E) (n top : Nat) (hn : n < top)
    (htop : ¬ received t top) :
    ∃ r, n < r ∧ r ≤ top ∧ ¬ received t r ∧ ∀ j, n < j → j < r → received t j := by
  classical
  have hex : ∃ r, n < r ∧ ¬ received t r := ⟨top, hn, htop⟩
  refine ⟨Nat.find hex, (Nat.find_spec hex).1, Nat.find_min' hex ⟨hn, htop⟩,
    (Nat.find_spec hex).2, ?_⟩
  intro j hj hlt
  by_contra hc
  exact Nat.find_min hex hlt ⟨hj, hc⟩

/-- A call for a known origin, when neither the history nor the rumor has an
id at or above `2^32 - 1`: the call returns; it leaves the expected id alone
when the id of the rumor is another one, and otherwise moves it to the first
id above that was not received. -/
theorem originStep_bounded {t : messageTracking E} {msg : RumorMessage E}
    (hb : ∀ i, received t i → i < 2 ^ 32 - 1) (hm : msg.ID < 2 ^ 32 - 1) :
    ∃ t1 a, originStep (some t) msg = some (t1, a, t.nextID) ∧ t1.nextID = a ∧
      (∀ i, GoMap.Load t1.messages i = if i = msg.ID then some msg else GoMap.Load t.messages i) ∧
      (msg.ID ≠ t.nextID → a = t.nextID) ∧
      (msg.ID = t.nextID → t.nextID < a ∧ a ≤ 2 ^ 32 - 1 ∧ ¬ received t1 a ∧
        ∀ j, t.nextID < j → j < a → received t1 j) := by
  by_cases hid : msg.ID = t.nextID
  · have htop : ¬ received t (2 ^ 32 - 1) := fun h => by
      have := hb _ h
      omega
    obtain ⟨r, hnr, hrtop, hrn, hrmin⟩ :=
      exists_first_missing t t.nextID (2 ^ 32 - 1) (by omega) htop
    have hur : uint32 (t.nextID + (r - t.nextID)) = r := by
      have : t.nextID + (r - t.nextID) = r := by omega
      rw [this]
      exact uint32_of_lt (by omega)
    have hstep := originStep_advance hid (r - t.nextID) (by omega) (by omega)
      (by rw [hur]; simpa [received] using hrn) (by rw [hur]; omega)
      (fun j hj1 hjk _ => by
        have hu : uint32 (t.nextID + j) = t.nextID + j := uint32_of_lt (by omega)
        rw [hu]
        exact hrmin _ (by omega) (by omega))
    rw [hur] at hstep
    refine ⟨_, r, hstep, rfl, fun i => Load_stored_twice _ _ _, fun h => absurd hid h, fun _ => ?_⟩
    refine ⟨hnr, hrtop, ?_, ?_⟩
    · unfold received
      simp only [Load_stored_twice]
      have : r ≠ msg.ID := by omega
      simpa [this, received] using hrn
    · intro j hj hjr
      unfold received
      simp only [Load_stored_twice]
      have : j ≠ msg.ID := by omega
      simpa [this, received] using hrmin j hj hjr
  · exact ⟨_, t.nextID, originStep_ne hid, rfl, fun i => Load_stored_twice _ _ _, fun _ => rfl,
      fun h => absurd h hid⟩

theorem received_step {t t1 : messageTracking E} {msg : RumorMessage E}
    (h : ∀ i, GoMap.Load t1.messages i = if i = msg.ID then some msg else GoMap.Load t.messages i)
    (i : Nat) : received t1 i ↔ i = msg.ID ∨ received t i := by
  unfold received
  rw [h i]
  by_cases hi : i = msg.ID <;> simp [hi]

/-- `Tidy` is kept by a call with an id below `2^32 - 1`, which returns. -/
theorem tidy_step {t : messageTracking E} {msg : RumorMessage E} (ht : Tidy t)
    (hm : msg.ID < 2 ^ 32 - 1) :
    ∃ t1 a, originStep (some t) msg = some (t1, a, t.nextID) ∧ Tidy t1 ∧ t1.nextID = a ∧
      t.nextID ≤ a ∧ (∀ i, received t1 i ↔ i = msg.ID ∨ received t i) := by
  obtain ⟨h1, hnot, hall, hb⟩ := ht
  obtain ⟨t1, a, hstep, hnext, hload, hne, heq⟩ := originStep_bounded hb hm
  have hrec := received_step hload
  refine ⟨t1, a, hstep, ?_, hnext, ?_, hrec⟩
  · by_cases hid : msg.ID = t.nextID
    · obtain ⟨hlt, htop, hna, hbetween⟩ := heq hid
      refine ⟨by omega, by rw [hnext]; exact hna, ?_, ?_⟩
      · intro i hi1 hia
        rw [hnext] at hia
        by_cases hin : i < t.nextID
        · exact (hrec i).mpr (Or.inr (hall i hi1 hin))
        · by_cases hie : i = t.nextID
          · exact (hrec i).mpr (Or.inl (by omega))
          · exact hbetween i (by omega) hia
      · intro i hi
        rcases (hrec i).mp hi with h | h
        · omega
        · exact hb i h
    · have ha := hne hid
      refine ⟨by omega, ?_, ?_, ?_⟩
      · rw [hnext, ha]
        intro hr
        rcases (hrec _).mp hr with h | h
        · exact hid h.symm
        · exact hnot h
      · intro i hi1 hia
        rw [hnext, ha] at hia
        exact (hrec i).mpr (Or.inr (hall i hi1 hia))
      · intro i hi
        rcases (hrec i).mp hi with h | h
        · omega
        · exact hb i h
  · by_cases hid : msg.ID = t.nextID
    · have := (heq hid).1
      omega
    · have := hne hid
      omega

/-- The first call for an origin, with an id below `2^32 - 1`, leaves a `Tidy`
entry. -/
theorem tidy_first {msg : RumorMessage E} (hm : msg.ID < 2 ^ 32 - 1) :
    ∃ t1 a, originStep none msg = some (t1, a, 1) ∧ Tidy t1 ∧ t1.nextID = a ∧ 1 ≤ a ∧
      (a = if msg.ID = 1 then 2 else 1) ∧ (∀ i, received t1 i ↔ i = msg.ID) := by
  have hrec : ∀ i, received (⟨GoMap.Store [] msg.ID msg, if msg.ID = 1 then 2 else 1⟩ :
      messageTracking E) i ↔ i = msg.ID := by
    intro i
    unfold received
    rw [GoMap.Load_Store]
    by_cases hi : i = msg.ID <;> simp [hi, GoMap.Load]
  refine ⟨_, _, rfl, ⟨?_, ?_, ?_, ?_⟩, rfl, ?_, rfl, hrec⟩
  · show 1 ≤ if msg.ID = 1 then 2 else 1
    split <;> omega
  · rw [hrec]
    show (if msg.ID = 1 then 2 else 1) ≠ msg.ID
    split <;> omega
  · intro i hi1 hi2
    rw [hrec]
    have hi2' : i < if msg.ID = 1 then 2 else 1 := hi2
    split at hi2' <;> omega
  · intro i hi
    rw [hrec] at hi
    omega
  · split <;> omega

/-- One call with an id below `2^32 - 1`, for an origin that is unknown or
`Tidy`. -/
theorem tidy_any {t : Option (messageTracking E)} {msg : RumorMessage E}
    (ht : ∀ t0, t = some t0 → Tidy t0) (hm : msg.ID < 2 ^ 32 - 1) :
    ∃ t1 a, originStep t msg = some (t1, a, expectedOf t) ∧ Tidy t1 ∧ t1.nextID = a ∧
      expectedOf t ≤ a ∧ (∀ i, received t1 i ↔ i = msg.ID ∨ receivedIn t i) := by
  cases t with
  | none =>
    obtain ⟨t1, a, hs, htidy, hn, ha, _, hrec⟩ := tidy_first (E := E) hm
    exact ⟨t1, a, hs, htidy, hn, ha, fun i => by simp [receivedIn, hrec i]⟩
  | some t0 =>
    obtain ⟨t1, a, hs, htidy, hn, ha, hrec⟩ := tidy_step (ht t0 rfl) hm
    exact ⟨t1, a, hs, htidy, hn, ha, hrec⟩

theorem originRun_cons {t t2 : Option (messageTracking E)} {msg : RumorMessage E}
    {rest : List (RumorMessage E)} {rs : List (Nat × Nat)}
    (h : originRun t (msg :: rest) = some (t2, rs)) :
    ∃ t1 a b rs1, originStep t msg = some (t1, a, b) ∧
      originRun (some t1) rest = some (t2, rs1) ∧ rs = (a, b) :: rs1 := by
  cases hs : originStep t msg with
  | none => simp [originRun, hs] at h
  | some r =>
    obtain ⟨t1, a, b⟩ := r
    cases hr : originRun (some t1) rest with
    | none => simp [originRun, hs, hr] at h
    | some q =>
      obtain ⟨t3, rs1⟩ := q
      simp only [originRun, hs, hr, Option.some.injEq, Prod.mk.injEq] at h
      obtain ⟨h1, h2⟩ := h
      subst h1 h2
      exact ⟨t1, a, b, rs1, rfl, hr, rfl⟩

theorem originRun_known : ∀ (msgs : List (RumorMessage E)) (t : messageTracking E)
    (t2 : Option (messageTracking E)) (rs : List (Nat × Nat)),
    originRun (some t) msgs = some (t2, rs) → t2 ≠ none := by
  intro msgs
  induction msgs with
  | nil =>
    intro t t2 rs h
    simp only [originRun, Option.some.injEq, Prod.mk.injEq] at h
    rw [← h.1]
    simp
  | cons msg rest ih =>
    intro t t2 rs h
    obtain ⟨t1, a, b, rs1, _, hr, _⟩ := originRun_cons h
    exact ih t1 t2 rs1 hr

theorem contiguousFrom_le : ∀ (rs : List (Nat × Nat)) (start : Nat),
    contiguousFrom start rs → ∀ r ∈ rs, r.2 ≤ r.1 := by
  intro rs
  induction rs with
  | nil => intro _ _ r hr; simp at hr
  | cons x rs ih =>
    intro start h r hr
    obtain ⟨a, b⟩ := x
    obtain ⟨_, hle, hrest⟩ := h
    rcases List.mem_cons.mp hr with h1 | h1
    · subst h1
      exact hle
    · exact ih a hrest r h1

/-- A sequence of calls with ids below `2^32 - 1` for one origin, unknown or
`Tidy` at the start: every call returns, the results are contiguous from the
id expected at the start, the ids they report are exactly those between the
id expected at the start and the one expected at the end, and the history
gains the ids of the calls. -/
theorem tidy_run : ∀ (msgs : List (RumorMessage E)) (t : Option (messageTracking E)),
    (∀ t0, t = some t0 → Tidy t0) → (∀ m ∈ msgs, m.ID < 2 ^ 32 - 1) →
    ∃ t2 rs, originRun t msgs = some (t2, rs) ∧ (∀ t1, t2 = some t1 → Tidy t1) ∧
      contiguousFrom (expectedOf t) rs ∧ expectedOf t ≤ expectedOf t2 ∧
      rs.flatMap newIDs = List.range' (expectedOf t) (expectedOf t2 - expectedOf t) ∧
      (∀ i, receivedIn t2 i ↔ receivedIn t i ∨ i ∈ msgs.map (fun m => m.ID)) ∧
      (msgs ≠ [] → t2 ≠ none) := by
  intro msgs
  induction msgs with
  | nil =>
    intro t ht _
    exact ⟨t, [], rfl, ht, trivial, le_refl _, by simp, by simp, by simp⟩
  | cons msg rest ih =>
    intro t ht hm
    obtain ⟨t1, a, hs, htidy, hn, ha, hrec⟩ := tidy_any ht (hm msg (List.mem_cons_self _ _))
    obtain ⟨t2, rs, hrun, htidy2, hcont, hle, hids, hrec2, _⟩ :=
      ih (some t1) (fun t0 h => by cases h; exact htidy)
        (fun m h => hm m (List.mem_cons_of_mem _ h))
    have ht1 : expectedOf (some t1) = a := hn
    rw [ht1] at hcont hle hids
    refine ⟨t2, (a, expectedOf t) :: rs, ?_, htidy2, ⟨rfl, ha, hcont⟩, by omega, ?_, ?_, ?_⟩
    · simp [originRun, hs, hrun]
    · rw [List.flatMap_cons, hids]
      show List.range' (expectedOf t) (a - expectedOf t) ++ _ = _
      have h1 : a = expectedOf t + 1 * (a - expectedOf t) := by omega
      have h2 : expectedOf t2 - expectedOf t = (expectedOf t2 - a) + (a - expectedOf t) := by omega
      rw [h2, ← List.range'_append, ← h1]
    · intro i
      rw [hrec2 i]
      show received t1 i ∨ _ ↔ _
      rw [hrec i]
      simp only [List.map_cons, List.mem_cons]
      tauto
    · intro _
      exact originRun_known rest t1 t2 rs hrun

/-! ### Sequences of calls on the gossiper -/

theorem trackAll_cons {g g2 : Gossiper E} {msg : RumorMessage E} {rest : List (RumorMessage E)}
    {rs : List (String × Nat × Nat)} (h : trackAll g (msg :: rest) = some (g2, rs)) :
    ∃ g1 a b rs1, trackRumor g msg = some (g1, a, b) ∧ trackAll g1 rest = some (g2, rs1) ∧
      rs = (msg.Origin, a, b) :: rs1 := by
  cases hs : trackRumor g msg with
  | none => simp [trackAll, hs] at h
  | some r =>
    obtain ⟨g1, a, b⟩ := r
    cases hr : trackAll g1 rest with
    | none => simp [trackAll, hs, hr] at h
    | some q =>
      obtain ⟨g3, rs1⟩ := q
      simp only [trackAll, hs, hr, Option.some.injEq, Prod.mk.injEq] at h
      obtain ⟨h1, h2⟩ := h
      subst h1 h2
      exact ⟨g1, a, b, rs1, rfl, hr, rfl⟩

theorem trackAll_step {g g1 g2 : Gossiper E} {msg : RumorMessage E}
    {rest : List (RumorMessage E)} {a b : Nat} {rs1 : List (String × Nat × Nat)}
    (h1 : trackRumor g msg = some (g1, a, b)) (h2 : trackAll g1 rest = some (g2, rs1)) :
    trackAll g (msg :: rest) = some (g2, (msg.Origin, a, b) :: rs1) := by
  simp [trackAll, h1, h2]

theorem trackAll_append : ∀ (l1 l2 : List (RumorMessage E)) (g g1 g2 : Gossiper E)
    (rs1 rs2 : List (String × Nat × Nat)),
    trackAll g l1 = some (g1, rs1) → trackAll g1 l2 = some (g2, rs2) →
    trackAll g (l1 ++ l2) = some (g2, rs1 ++ rs2) := by
  intro l1
  induction l1 with
  | nil =>
    intro l2 g g1 g2 rs1 rs2 h1 h2
    simp only [trackAll, Option.some.injEq, Prod.mk.injEq] at h1
    obtain ⟨hg, hrs⟩ := h1
    subst hg hrs
    simpa using h2
  | cons msg rest ih =>
    intro l2 g g1 g2 rs1 rs2 h1 h2
    obtain ⟨g0, a, b, rs0, hs, hr, hrs⟩ := trackAll_cons h1
    subst hrs
    exact trackAll_step hs (ih l2 g0 g1 g2 rs0 rs2 hr h2)

theorem reportsFor_cons_self (o : String) (a b : Nat) (rs : List (String × Nat × Nat)) :
    reportsFor o ((o, a, b) :: rs) = (a, b) :: reportsFor o rs := by
  simp [reportsFor]

theorem reportsFor_cons_ne {o o1 : String} (h : o1 ≠ o) (a b : Nat)
    (rs : List (String × Nat × Nat)) : reportsFor o ((o1, a, b) :: rs) = reportsFor o rs := by
  simp [reportsFor, h]

theorem reportsFor_append (o : String) (rs1 rs2 : List (String × Nat × Nat)) :
    reportsFor o (rs1 ++ rs2) = reportsFor o rs1 ++ reportsFor o rs2 := by
  simp [reportsFor]

/-- The calls of a sequence that are made for origin `o`, seen from the entry
of `o`: the other calls leave that entry alone. -/
theorem trackAll_origin (o : String) : ∀ (msgs : List (RumorMessage E)) (g g2 : Gossiper E)
    (rs : List (String × Nat × Nat)), trackAll g msgs = some (g2, rs) →
    originRun (GoMap.Load g.messages o) (msgs.filter (fun m => decide (m.Origin = o))) =
      some (GoMap.Load g2.messages o, reportsFor o rs) := by
  intro msgs
  induction msgs with
  | nil =>
    intro g g2 rs h
    simp only [trackAll, Option.some.injEq, Prod.mk.injEq] at h
    obtain ⟨hg, hrs⟩ := h
    subst hg hrs
    rfl
  | cons msg rest ih =>
    intro g g2 rs h
    obtain ⟨g1, a, b, rs1, hs, hr, hrs⟩ := trackAll_cons h
    obtain ⟨t1, hstep, hg1⟩ := trackRumor_some hs
    have hrec := ih g1 g2 rs1 hr
    subst hrs
    by_cases ho : msg.Origin = o
    · have hl : GoMap.Load g1.messages o = some t1 := by
        rw [hg1, ← ho]
        exact GoMap.Load_Store_self _ _ _
      rw [hl] at hrec
      rw [ho] at hstep
      rw [List.filter_cons_of_pos (by simpa using ho), ho, reportsFor_cons_self]
      simp [originRun, hstep, hrec]
    · have hl : GoMap.Load g1.messages o = GoMap.Load g.messages o := by
        rw [hg1]
        exact GoMap.Load_Store_of_ne _ _ (Ne.symm ho)
      rw [hl] at hrec
      rw [List.filter_cons_of_neg (by simpa using ho), reportsFor_cons_ne ho]
      exact hrec

/-- On a gossiper all of whose origins are `Tidy`, every call of a sequence
with ids below `2^32 - 1` returns. -/
theorem trackAll_total : ∀ (msgs : List (RumorMessage E)) (g : Gossiper E), AllTidy g →
    (∀ m ∈ msgs, m.ID < 2 ^ 32 - 1) →
    ∃ g2 rs, trackAll g msgs = some (g2, rs) ∧ AllTidy g2 := by
  intro msgs
  induction msgs with
  | nil =>
    intro g hg _
    exact ⟨g, [], rfl, hg⟩
  | cons msg rest ih =>
    intro g hg hm
    obtain ⟨t1, a, hs, htidy, _, _, _⟩ :=
      tidy_any (t := GoMap.Load g.messages msg.Origin) (fun t0 h => hg _ t0 h)
        (hm msg (List.mem_cons_self _ _))
    have hstep := trackRumor_of_step hs
    have hg1 : AllTidy { g with messages := GoMap.Store g.messages msg.Origin t1 } := by
      intro o t hl
      simp only [GoMap.Load_Store] at hl
      by_cases ho : o = msg.Origin
      · simp only [ho, if_true, Option.some.injEq] at hl
        rw [← hl]
        exact htidy
      · simp only [ho, if_false] at hl
        exact hg o t hl
    obtain ⟨g2, rs, hrun, hg2⟩ := ih _ hg1 (fun m h => hm m (List.mem_cons_of_mem _ h))
    exact ⟨g2, _, trackAll_step hstep hrun, hg2⟩

theorem allTidy_fresh (address identifier : String) (antiEntropy routeTimer : Int) :
    AllTidy (NewGossiper address identifier antiEntropy routeTimer : Gossiper E) := by
  intro o t h
  simp [NewGossiper, GoMap.Load] at h

theorem expectedOf_eq (g : Gossiper E) (o : String) :
    expectedOf (GoMap.Load g.messages o) = (expectedID g o).getD 1 := by
  unfold expectedID
  cases GoMap.Load g.messages o <;> rfl

/-- The sequence of calls of a fresh gossiper for any one origin, when all ids
are below `2^32 - 1`. -/
theorem fresh_run (address identifier : String) (antiEntropy routeTimer : Int)
    (calls : List (RumorMessage E)) (hb : ∀ m ∈ calls, m.ID < 2 ^ 32 - 1) :
    ∃ g rs, trackAll (NewGossiper address identifier antiEntropy routeTimer) calls = some (g, rs) ∧
      AllTidy g ∧
      ∀ o, contiguousFrom 1 (reportsFor o rs) ∧
        (reportsFor o rs).flatMap newIDs = List.range' 1 (expectedOf (GoMap.Load g.messages o) - 1) ∧
        (∀ i, receivedIn (GoMap.Load g.messages o) i ↔
          i ∈ (calls.filter (fun m => decide (m.Origin = o))).map (fun m => m.ID)) := by
  obtain ⟨g, rs, hrun, hg⟩ := trackAll_total calls _
    (allTidy_fresh address identifier antiEntropy routeTimer) hb
  refine ⟨g, rs, hrun, hg, fun o => ?_⟩
  have hproj := trackAll_origin o calls _ g rs hrun
  obtain ⟨t2, rs2, hrun2, _, hcont, _, hids, hrec, _⟩ :=
    tidy_run (calls.filter (fun m => decide (m.Origin = o)))
      (GoMap.Load (NewGossiper address identifier antiEntropy routeTimer : Gossiper E).messages o)
      (fun t0 h => by simp [NewGossiper, GoMap.Load] at h)
      (fun m h => hb m (List.mem_of_mem_filter h))
  rw [hproj] at hrun2
  simp only [Option.some.injEq, Prod.mk.injEq] at hrun2
  obtain ⟨h1, h2⟩ := hrun2
  subst h1 h2
  have hstart : expectedOf (GoMap.Load
      (NewGossiper address identifier antiEntropy routeTimer : Gossiper E).messages o) = 1 := rfl
  rw [hstart] at hcont hids
  refine ⟨hcont, hids, fun i => ?_⟩
  rw [hrec i]
  simp [NewGossiper, GoMap.Load, receivedIn]

/-- A `Tidy` origin that received exactly the ids `1..n` expects `n + 1`. -/
theorem tidy_expected {t : messageTracking E} {n : Nat} (ht : Tidy t)
    (hrec : ∀ i, received t i ↔ 1 ≤ i ∧ i ≤ n) : t.nextID = n + 1 := by
  obtain ⟨h1, hnot, hall, _⟩ := ht
  by_contra hne
  rcases Nat.lt_or_gt_of_ne hne with hlt | hgt
  · exact hnot ((hrec _).mpr ⟨h1, by omega⟩)
  · have := (hrec (n + 1)).mp (hall (n + 1) (by omega) hgt)
    omega

/-- The ids `1..n` of one origin, given to a fresh gossiper in any order. -/
theorem perm_run (address identifier : String) (antiEntropy routeTimer : Int) (o : String)
    (n : Nat) (hn1 : 1 ≤ n) (hn : n < 2 ^ 32 - 1) (msgs : List (RumorMessage E))
    (ho : ∀ m ∈ msgs, m.Origin = o)
    (hperm : (msgs.map (fun m => m.ID)).Perm (List.range' 1 n)) :
    ∃ g rs t, trackAll (NewGossiper address identifier antiEntropy routeTimer) msgs = some (g, rs) ∧
      GoMap.Load g.messages o = some t ∧ t.nextID = n + 1 ∧
      (∀ i, received t i ↔ 1 ≤ i ∧ i ≤ n) ∧ contiguousFrom 1 (reportsFor o rs) := by
  have hmem : ∀ i, i ∈ msgs.map (fun m => m.ID) ↔ 1 ≤ i ∧ i ≤ n := by
    intro i
    rw [hperm.mem_iff, List.mem_range'_1]
    omega
  have hb : ∀ m ∈ msgs, m.ID < 2 ^ 32 - 1 := by
    intro m hm
    have := (hmem m.ID).mp (List.mem_map_of_mem _ hm)
    omega
  obtain ⟨g, rs, hrun, hg, hall⟩ := fresh_run address identifier antiEntropy routeTimer msgs hb
  obtain ⟨hcont, _, hrec⟩ := hall o
  have hfilter : msgs.filter (fun m => decide (m.Origin = o)) = msgs :=
    List.filter_eq_self.mpr (fun m hm => by simpa using ho m hm)
  rw [hfilter] at hrec
  have h1 := (hrec 1).mpr ((hmem 1).mpr ⟨le_refl _, hn1⟩)
  cases hl : GoMap.Load g.messages o with
  | none => rw [hl] at h1; exact absurd h1 (by simp [receivedIn])
  | some t =>
    rw [hl] at hrec
    have hrec' : ∀ i, received t i ↔ 1 ≤ i ∧ i ≤ n := fun i => (hrec i).trans (hmem i)
    exact ⟨g, rs, t, hrun, hl, tidy_expected (hg o t hl) hrec', hrec', hcont⟩

theorem ascending_ids (o : String) (n : Nat) :
    (ascending E o n).map (fun m => m.ID) = List.range' 1 n := by
  simp [ascending, List.map_map, Function.comp_def]

theorem ascending_origin (o : String) (n : Nat) : ∀ m ∈ ascending E o n, m.Origin = o := by
  intro m hm
  simp only [ascending, List.mem_map] at hm
  obtain ⟨i, _, hi⟩ := hm
  rw [← hi]

theorem ascending_succ (o : String) (n : Nat) :
    ascending E o (n + 1) =
      ascending E o n ++ [{ Origin := o, ID := n + 1, Text := "", Extra := none }] := by
  simp [ascending, List.range'_concat, Nat.add_comm]

/-- The wrap-around: after the ids `1, ..., 2^32 - 2` of one origin, in order,
on a fresh gossiper, the origin expects `2^32 - 1`; the call with that id
returns 0 as the id expected afterwards. -/
theorem wrap_run (address identifier : String) (antiEntropy routeTimer : Int) (o : String) :
    ∃ g rs g1, trackAll (NewGossiper address identifier antiEntropy routeTimer : Gossiper E)
        (ascending E o 4294967294) = some (g, rs) ∧
      expectedID g o = some 4294967295 ∧
      trackRumor g { Origin := o, ID := 4294967295, Text := "", Extra := none } =
        some (g1, 0, 4294967295) := by
  obtain ⟨g, rs, t, hrun, hl, hnext, hrec, _⟩ :=
    perm_run address identifier antiEntropy routeTimer o 4294967294 (by norm_num) (by norm_num)
      (ascending E o 4294967294) (ascending_origin o _) (by rw [ascending_ids])
  have hu : uint32 (t.nextID + 1) = 0 := by rw [hnext]; rfl
  have h0 : GoMap.Load t.messages 0 = none := by
    by_contra hc
    have := (hrec 0).mp hc
    omega
  have hstep := @originStep_advance E t
    { Origin := o, ID := 4294967295, Text := "", Extra := none }
    (by rw [hnext]) 1 (le_refl _) (by norm_num) (by rw [hu]; exact h0) (by rw [hu]; simp)
    (fun j h1 h2 => by omega)
  rw [hu, hnext, ← hl] at hstep
  exact ⟨g, rs, _, hrun, by simp [expectedID, hl, hnext], trackRumor_of_step hstep⟩

/-! ### Ids that were counted are not counted again -/

/-- Once an id is in the history and is not the expected id, this stays so
after any call that returns. -/
theorem kept_step {t t1 : messageTracking E} {msg : RumorMessage E} {a b id : Nat}
    (h : originStep (some t) msg = some (t1, a, b)) (hr : received t id) (hn : t.nextID ≠ id) :
    received t1 id ∧ t1.nextID ≠ id := by
  obtain ⟨_, hnext, hload, hcase⟩ := originStep_known h
  have hrec := received_step hload
  have hr1 : received t1 id := (hrec id).mpr (Or.inr hr)
  refine ⟨hr1, ?_⟩
  rcases hcase with ⟨_, ha⟩ | ⟨_, k, _, _, _, hna, _⟩
  · rw [hnext, ha]
    exact hn
  · rw [hnext]
    intro hc
    rw [hc] at hna
    exact hna hr1

theorem kept_originRun (id : Nat) : ∀ (msgs : List (RumorMessage E)) (t : messageTracking E)
    (t2 : Option (messageTracking E)) (rs : List (Nat × Nat)),
    originRun (some t) msgs = some (t2, rs) → received t id → t.nextID ≠ id →
    ∃ t3, t2 = some t3 ∧ received t3 id ∧ t3.nextID ≠ id := by
  intro msgs
  induction msgs with
  | nil =>
    intro t t2 rs h hr hn
    simp only [originRun, Option.some.injEq, Prod.mk.injEq] at h
    exact ⟨t, h.1.symm, hr, hn⟩
  | cons msg rest ih =>
    intro t t2 rs h hr hn
    obtain ⟨t1, a, b, rs1, hs, hrun, _⟩ := originRun_cons h
    obtain ⟨hr1, hn1⟩ := kept_step hs hr hn
    exact ih t1 t2 rs1 hrun hr1 hn1

/-- A call that returns leaves the id of its rumor in the history, and the
expected id is another one. -/
theorem stored_after {g g1 : Gossiper E} {m : RumorMessage E} {a b : Nat}
    (h : trackRumor g m = some (g1, a, b)) :
    ∃ t1, GoMap.Load g1.messages m.Origin = some t1 ∧ received t1 m.ID ∧ t1.nextID ≠ m.ID := by
  obtain ⟨t1, hs, hg⟩ := trackRumor_some h
  refine ⟨t1, by rw [hg]; exact GoMap.Load_Store_self _ _ _, ?_⟩
  cases hl : GoMap.Load g.messages m.Origin with
  | none =>
    rw [hl] at hs
    simp only [originStep, Option.some.injEq, Prod.mk.injEq] at hs
    obtain ⟨ht, _, _⟩ := hs
    subst ht
    refine ⟨?_, ?_⟩
    · unfold received
      simp [GoMap.Load_Store_self]
    · show (if m.ID = 1 then 2 else 1) ≠ m.ID
      split <;> omega
  | some t =>
    rw [hl] at hs
    obtain ⟨_, hnext, hload, hcase⟩ := originStep_known hs
    have hself : received t1 m.ID := (received_step hload m.ID).mpr (Or.inl rfl)
    refine ⟨hself, ?_⟩
    rw [hnext]
    rcases hcase with ⟨hne, ha⟩ | ⟨_, k, _, _, _, hna, _⟩
    · rw [ha]
      exact fun hc => hne hc.symm
    · intro hc
      rw [hc] at hna
      exact hna hself

/-- A call that returns leaves in the history every id of the range it
reports (the ids from its second value up to the one before its first), and
the expected id is above them. -/
theorem reported_after {g g1 : Gossiper E} {m : RumorMessage E} {a b id : Nat}
    (h : trackRumor g m = some (g1, a, b)) (hlow : b ≤ id) (hup : id < a) :
    ∃ t1, GoMap.Load g1.messages m.Origin = some t1 ∧ received t1 id ∧ t1.nextID ≠ id := by
  obtain ⟨t0, hl0, hr0, _⟩ := stored_after h
  obtain ⟨t1, hs, hg⟩ := trackRumor_some h
  have hl1 : GoMap.Load g1.messages m.Origin = some t1 := by
    rw [hg]; exact GoMap.Load_Store_self _ _ _
  have ht : t0 = t1 := by
    rw [hl1] at hl0
    exact (Option.some.inj hl0).symm
  subst ht
  refine ⟨t0, hl1, ?_⟩
  cases hl : GoMap.Load g.messages m.Origin with
  | none =>
    rw [hl] at hs
    simp only [originStep, Option.some.injEq, Prod.mk.injEq] at hs
    obtain ⟨ht, ha, hb⟩ := hs
    have hid : id = m.ID := by
      by_cases h1 : m.ID = 1
      · rw [if_pos h1] at ha
        omega
      · rw [if_neg h1] at ha
        omega
    have hn : t0.nextID = a := by rw [← ht]; exact ha
    rw [hid]
    exact ⟨hr0, by rw [hn]; omega⟩
  | some t =>
    rw [hl] at hs
    obtain ⟨hb, hnext, _, hcase⟩ := originStep_known hs
    refine ⟨?_, by rw [hnext]; omega⟩
    rcases hcase with ⟨_, ha⟩ | ⟨hmid, k, hk1, hk, ha, _, hst⟩
    · omega
    · by_cases hid : id = m.ID
      · rw [hid]
        exact hr0
      · have ha32 : a < 2 ^ 32 := by rw [ha]; exact uint32_lt _
        have hwrap : t.nextID + k < 2 ^ 32 := by
          by_contra hc
          have : a = t.nextID + k - 2 ^ 32 := by
            rw [ha]
            unfold uint32
            omega
          omega
        have hak : a = t.nextID + k := by rw [ha, uint32_of_lt hwrap]
        have := hst (id - t.nextID) (by omega) (by omega)
        have hi : t.nextID + (id - t.nextID) = id := by omega
        rw [hi, uint32_of_lt (by omega)] at this
        exact this

/-- A call for an id that is in the history and is not the expected one
returns the expected id twice and leaves it as it is. -/
theorem repeat_call {g : Gossiper E} {m : RumorMessage E} {t : messageTracking E}
    (hl : GoMap.Load g.messages m.Origin = some t) (hn : t.nextID ≠ m.ID) :
    ∃ g1, trackRumor g m = some (g1, t.nextID, t.nextID) ∧
      expectedID g m.Origin = some t.nextID ∧ expectedID g1 m.Origin = some t.nextID := by
  have hs := @originStep_ne E t m (Ne.symm hn)
  rw [← hl] at hs
  refine ⟨_, trackRumor_of_step hs, by simp [expectedID, hl], ?_⟩
  simp [expectedID, GoMap.Load_Store_self]

/-! ### A fresh gossiper under arbitrary ids -/

/-- `Loose` is kept by any call that returns; the call either leaves the
expected id where it was or moves it up, or wraps it to 0; once it is 0 it
stays 0. -/
theorem loose_step {t t1 : messageTracking E} {msg : RumorMessage E} {a b : Nat}
    (ht : Loose t) (h : originStep (some t) msg = some (t1, a, b)) :
    Loose t1 ∧ b = t.nextID ∧ t1.nextID = a ∧ (a = 0 ∨ (1 ≤ b ∧ b ≤ a)) := by
  obtain ⟨hb, hnext, hload, hcase⟩ := originStep_known h
  have hrec := received_step hload
  have hgrow : ∀ i, received t i → received t1 i := fun i hi => (hrec i).mpr (Or.inr hi)
  obtain ⟨hlt, hshape⟩ := ht
  suffices hmain : Loose t1 ∧ (a = 0 ∨ (1 ≤ t.nextID ∧ t.nextID ≤ a)) by
    refine ⟨hmain.1, hb, hnext, ?_⟩
    rw [hb]
    exact hmain.2
  rcases hcase with ⟨_, ha⟩ | ⟨hid, k, hk1, hk, ha, hna, hst⟩
  · refine ⟨⟨by rw [hnext, ha]; exact hlt, ?_⟩, ?_⟩
    · rw [hnext, ha]
      rcases hshape with ⟨h1, hall⟩ | ⟨h0, hall⟩
      · exact Or.inl ⟨h1, fun i hi1 hi2 => hgrow i (hall i hi1 hi2)⟩
      · exact Or.inr ⟨h0, fun i hi1 hi2 => hgrow i (hall i hi1 hi2)⟩
    · rw [ha]
      by_cases h0 : t.nextID = 0
      · exact Or.inl h0
      · exact Or.inr ⟨by omega, le_refl _⟩
  · have hself : received t1 t.nextID := (hrec _).mpr (Or.inl hid.symm)
    have hbetween : ∀ i, t.nextID < i → i < t.nextID + k → i < 2 ^ 32 → received t1 i := by
      intro i hi1 hi2 hi3
      have := hst (i - t.nextID) (by omega) (by omega)
      have hi : t.nextID + (i - t.nextID) = i := by omega
      rw [hi, uint32_of_lt hi3] at this
      exact this
    have ha32 : a < 2 ^ 32 := by rw [ha]; exact uint32_lt _
    rcases hshape with ⟨h1, hall⟩ | ⟨h0, hall⟩
    · by_cases hwrap : t.nextID + k < 2 ^ 32
      · have hak : a = t.nextID + k := by rw [ha, uint32_of_lt hwrap]
        refine ⟨⟨by rw [hnext]; exact ha32, Or.inl ⟨by rw [hnext]; omega, ?_⟩⟩,
          Or.inr ⟨h1, by omega⟩⟩
        intro i hi1 hi2
        rw [hnext, hak] at hi2
        by_cases hin : i < t.nextID
        · exact hgrow i (hall i hi1 hin)
        · by_cases hie : i = t.nextID
          · rw [hie]; exact hself
          · exact hbetween i (by omega) hi2 (by omega)
      · have hfull : ∀ i, 1 ≤ i → i < 2 ^ 32 → received t1 i := by
          intro i hi1 hi2
          by_cases hin : i < t.nextID
          · exact hgrow i (hall i hi1 hin)
          · by_cases hie : i = t.nextID
            · rw [hie]; exact hself
            · exact hbetween i (by omega) (by omega) hi2
        have ha0 : a = 0 := by
          by_contra hc
          exact hna (hfull a (by omega) ha32)
        exact ⟨⟨by rw [hnext]; exact ha32, Or.inr ⟨by rw [hnext]; exact ha0, hfull⟩⟩,
          Or.inl ha0⟩
    · exfalso
      have hfull : ∀ i, i < 2 ^ 32 → received t1 i := by
        intro i hi
        by_cases hi0 : i = 0
        · rw [hi0, ← h0]; exact hself
        · exact hgrow i (hall i (by omega) hi)
      exact hna (hfull a ha32)

theorem mem_newIDs {a b x : Nat} : x ∈ newIDs (a, b) ↔ b ≤ x ∧ x < a := by
  simp only [newIDs, List.mem_range'_1]
  omega

theorem nodup_newIDs (r : Nat × Nat) : (newIDs r).Nodup := by
  unfold newIDs
  exact List.nodup_range' _ _

/-- The ids reported by the calls for an origin in a `Loose` state: none below
the expected id, none at all once the expected id has wrapped to 0, and no id
twice. -/
theorem loose_run : ∀ (msgs : List (RumorMessage E)) (t : messageTracking E)
    (t2 : Option (messageTracking E)) (rs : List (Nat × Nat)), Loose t →
    originRun (some t) msgs = some (t2, rs) →
    (t.nextID = 0 → rs.flatMap newIDs = []) ∧ (∀ x ∈ rs.flatMap newIDs, t.nextID ≤ x) ∧
      (rs.flatMap newIDs).Nodup := by
  intro msgs
  induction msgs with
  | nil =>
    intro t t2 rs _ h
    simp only [originRun, Option.some.injEq, Prod.mk.injEq] at h
    rw [← h.2]
    simp
  | cons msg rest ih =>
    intro t t2 rs ht h
    obtain ⟨t1, a, b, rs1, hs, hrun, hrs⟩ := originRun_cons h
    obtain ⟨ht1, hb, hnext, hshape⟩ := loose_step ht hs
    obtain ⟨hzero, hlow, hnodup⟩ := ih t1 t2 rs1 ht1 hrun
    rw [hnext] at hzero hlow
    subst hrs
    rw [List.flatMap_cons]
    refine ⟨?_, ?_, ?_⟩
    · intro h0
      have ha : a = 0 := by omega
      rw [hzero ha, ha, hb, h0]
      rfl
    · intro x hx
      rcases List.mem_append.mp hx with h1 | h1
      · have := (mem_newIDs.mp h1).1
        omega
      · rcases hshape with ha | ⟨_, hle⟩
        · rw [hzero ha] at h1
          simp at h1
        · have := hlow x h1
          omega
    · refine List.nodup_append.mpr ⟨nodup_newIDs _, hnodup, ?_⟩
      intro x h1 h2
      have := (mem_newIDs.mp h1).2
      have := hlow x h2
      omega

theorem loose_first {t1 : messageTracking E} {msg : RumorMessage E} {a b : Nat}
    (h : originStep none msg = some (t1, a, b)) :
    Loose t1 ∧ b = 1 ∧ t1.nextID = a ∧ 1 ≤ a := by
  simp only [originStep, Option.some.injEq, Prod.mk.injEq] at h
  obtain ⟨ht, ha, hb⟩ := h
  subst ht
  have hcases : a = 1 ∨ (a = 2 ∧ msg.ID = 1) := by
    by_cases h1 : msg.ID = 1
    · right; rw [← ha]; simp [h1]
    · left; rw [← ha]; simp [h1]
  refine ⟨⟨?_, Or.inl ⟨?_, ?_⟩⟩, hb.symm, ha, by omega⟩
  · show (if msg.ID = 1 then 2 else 1) < 2 ^ 32
    rw [ha]
    omega
  · show 1 ≤ (if msg.ID = 1 then 2 else 1)
    rw [ha]
    omega
  · intro i hi1 hi2
    have hi2' : i < if msg.ID = 1 then 2 else 1 := hi2
    rw [ha] at hi2'
    have hi : i = msg.ID := by omega
    unfold received
    rw [hi]
    simp [GoMap.Load_Store_self]

/-- On a fresh gossiper no id of an origin is reported by two calls, whatever
the ids of the rumors. -/
theorem fresh_nodup (address identifier : String) (antiEntropy routeTimer : Int)
    (calls : List (RumorMessage E)) (g : Gossiper E) (rs : List (String × Nat × Nat))
    (h : trackAll (NewGossiper address identifier antiEntropy routeTimer) calls = some (g, rs))
    (o : String) : ((reportsFor o rs).flatMap newIDs).Nodup := by
  have hproj := trackAll_origin o calls _ g rs h
  have hnone : GoMap.Load
      (NewGossiper address identifier antiEntropy routeTimer : Gossiper E).messages o = none := rfl
  rw [hnone] at hproj
  cases hf : calls.filter (fun m => decide (m.Origin = o)) with
  | nil =>
    rw [hf] at hproj
    simp only [originRun, Option.some.injEq, Prod.mk.injEq] at hproj
    rw [← hproj.2]
    simp
  | cons msg rest =>
    rw [hf] at hproj
    obtain ⟨t1, a, b, rs1, hs, hrun, hrs⟩ := originRun_cons hproj
    obtain ⟨ht1, hb, hnext, _⟩ := loose_first hs
    obtain ⟨_, hlow, hnodup⟩ := loose_run rest t1 _ rs1 ht1 hrun
    rw [hrs, List.flatMap_cons]
    refine List.nodup_append.mpr ⟨nodup_newIDs _, hnodup, ?_⟩
    intro x h1 h2
    have := (mem_newIDs.mp h1).2
    have := hlow x h2
    omega

/-- The calls for an origin in a `Loose` state report every id from the id
expected at the start up to the one before the id expected at the end. -/
theorem loose_cover : ∀ (msgs : List (RumorMessage E)) (t t2 : messageTracking E)
    (rs : List (Nat × Nat)), Loose t → originRun (some t) msgs = some (some t2, rs) →
    ∀ x, t.nextID ≤ x → x < t2.nextID → x ∈ rs.flatMap newIDs := by
  intro msgs
  induction msgs with
  | nil =>
    intro t t2 rs _ h x h1 h2
    simp only [originRun, Option.some.injEq, Prod.mk.injEq] at h
    rw [← h.1] at h2
    omega
  | cons msg rest ih =>
    intro t t2 rs ht h x h1 h2
    obtain ⟨t1, a, b, rs1, hs, hrun, hrs⟩ := originRun_cons h
    obtain ⟨ht1, hb, hnext, _⟩ := loose_step ht hs
    subst hrs
    rw [List.flatMap_cons]
    by_cases hx : x < a
    · exact List.mem_append_left _ (mem_newIDs.mpr ⟨by omega, hx⟩)
    · exact List.mem_append_right _ (ih t1 t2 rs1 ht1 hrun x (by omega) h2)

/-- On a fresh gossiper every positive id below the id expected from an origin
was reported by one of the calls for that origin. -/
theorem fresh_cover (address identifier : String) (antiEntropy routeTimer : Int)
    (calls : List (RumorMessage E)) (g : Gossiper E) (rs : List (String × Nat × Nat))
    (h : trackAll (NewGossiper address identifier antiEntropy routeTimer) calls = some (g, rs))
    (o : String) (n id : Nat) (hn : expectedID g o = some n) (h1 : 1 ≤ id) (h2 : id < n) :
    id ∈ (reportsFor o rs).flatMap newIDs := by
  have hproj := trackAll_origin o calls _ g rs h
  have hnone : GoMap.Load
      (NewGossiper address identifier antiEntropy routeTimer : Gossiper E).messages o = none := rfl
  rw [hnone] at hproj
  cases hl : GoMap.Load g.messages o with
  | none => simp [expectedID, hl] at hn
  | some t2 =>
    have hn2 : t2.nextID = n := by simpa [expectedID, hl] using hn
    rw [hl] at hproj
    cases hf : calls.filter (fun m => decide (m.Origin = o)) with
    | nil =>
      rw [hf] at hproj
      simp [originRun] at hproj
    | cons msg rest =>
      rw [hf] at hproj
      obtain ⟨t1, a, b, rs1, hs, hrun, hrs⟩ := originRun_cons hproj
      obtain ⟨ht1, hb, hnext, _⟩ := loose_first hs
      rw [hrs, List.flatMap_cons]
      by_cases hx : id < a
      · exact List.mem_append_left _ (mem_newIDs.mpr ⟨by omega, hx⟩)
      · exact List.mem_append_right _
          (loose_cover rest t1 t2 rs1 ht1 hrun id (by omega) (by omega))

/-! ### Delivery order, duplicates and gaps -/

/-- C1 (as amended): on a fresh gossiper, for every sequence of `trackRumor`
calls whose ids are all below `2^32 - 1`, every call returns and, for every
origin, the results of its calls are contiguous from 1 (each `before` is the
previous `after`, 1 for the first call, and is not above its own `after`), so
that the ids reported for the origin are exactly 1, 2, ... up to the id
before the one expected at the end, in increasing order and without a gap. -/
theorem monotonic_delivery_bounded (address identifier : String) (antiEntropy routeTimer : Int)
    (calls : List (RumorMessage E)) (hb : ∀ m ∈ calls, m.ID < 2 ^ 32 - 1) :
    ∃ g rs, trackAll (NewGossiper address identifier antiEntropy routeTimer) calls = some (g, rs) ∧
      ∀ o, contiguousFrom 1 (reportsFor o rs) ∧
        (reportsFor o rs).flatMap newIDs = List.range' 1 ((expectedID g o).getD 1 - 1) := by
  obtain ⟨g, rs, hrun, _, hall⟩ := fresh_run address identifier antiEntropy routeTimer calls hb
  refine ⟨g, rs, hrun, fun o => ?_⟩
  obtain ⟨hcont, hids, _⟩ := hall o
  rw [expectedOf_eq] at hids
  exact ⟨hcont, hids⟩

/-- C1, a concrete run: ids 2, 1 of origin `o`, then id 1 of origin `p`. -/
theorem monotonic_delivery_bounded_witness :
    (∀ m ∈ ([⟨"o", 2, "b", none⟩, ⟨"o", 1, "a", none⟩, ⟨"p", 1, "c", none⟩] :
        List (RumorMessage Unit)), m.ID < 2 ^ 32 - 1) ∧
    ∃ g rs, trackAll (NewGossiper "127.0.0.1:5000" "A" 10 0)
        ([⟨"o", 2, "b", none⟩, ⟨"o", 1, "a", none⟩, ⟨"p", 1, "c", none⟩] :
          List (RumorMessage Unit)) = some (g, rs) ∧
      ∀ o, contiguousFrom 1 (reportsFor o rs) ∧
        (reportsFor o rs).flatMap newIDs = List.range' 1 ((expectedID g o).getD 1 - 1) :=
  ⟨by decide, monotonic_delivery_bounded "127.0.0.1:5000" "A" 10 0 _ (by decide)⟩

/-- C1 fails as it is stated: on a fresh gossiper the calls with the ids
`1, 2, ..., 2^32 - 1` of one origin, in this order, all return, and the last
one returns 0 as the id expected afterwards and `2^32 - 1` as the id expected
before, so that its `before` is above its `after`. -/
theorem monotonic_delivery_wraps :
    ∃ g rs, trackAll (NewGossiper "127.0.0.1:5000" "A" 10 0 : Gossiper Unit)
        (ascending Unit "o" 4294967295) = some (g, rs) ∧
      ¬ contiguousFrom 1 (reportsFor "o" rs) := by
  obtain ⟨g, rs, g1, hrun, _, hlast⟩ := wrap_run (E := Unit) "127.0.0.1:5000" "A" 10 0 "o"
  have hone : trackAll g [{ Origin := "o", ID := 4294967295, Text := "", Extra := none }] =
      some (g1, [("o", 0, 4294967295)]) := trackAll_step hlast rfl
  have hall := trackAll_append _ _ _ _ _ _ _ hrun hone
  rw [← ascending_succ] at hall
  refine ⟨g1, _, hall, fun hc => ?_⟩
  rw [reportsFor_append] at hc
  have := contiguousFrom_le _ _ hc (0, 4294967295)
    (List.mem_append_right _ (by simp [reportsFor]))
  simp at this

/-- C2: once a `trackRumor` call for the origin has counted the id as in
order, that is, has returned an expected id above it and either carried the
id in its rumor or reported it in its range of newly accepted ids (the range
from its second value up to the one before its first, which holds the ids
that were buffered ahead of a gap when the call fills the gap), then after
any further calls that returned, a call with the same origin and that id
(whatever its text or payload) returns, returns the expected id twice (an
empty range) and leaves the expected id of the origin as it was. And on a
fresh gossiper, whatever the sequence of calls, no id of an origin is in the
reported range of two calls, and every positive id below the id expected from
an origin is in the reported range of one: every such id was counted by a
call. -/
theorem duplicate_suppression (g g1 g2 : Gossiper E) (m m' : RumorMessage E) (a b : Nat)
    (later : List (RumorMessage E)) (rs : List (String × Nat × Nat))
    (hfirst : trackRumor g m = some (g1, a, b))
    (hcounted : (m'.ID = m.ID ∨ b ≤ m'.ID) ∧ m'.ID < a)
    (hlater : trackAll g1 later = some (g2, rs))
    (horigin : m'.Origin = m.Origin) :
    (∃ g3 n, trackRumor g2 m' = some (g3, n, n) ∧ expectedID g2 m.Origin = some n ∧
        expectedID g3 m.Origin = some n) ∧
      ∀ (address identifier : String) (antiEntropy routeTimer : Int)
        (calls : List (RumorMessage E)) (gEnd : Gossiper E) (results : List (String × Nat × Nat)),
        trackAll (NewGossiper address identifier antiEntropy routeTimer) calls =
            some (gEnd, results) →
          ∀ o, ((reportsFor o results).flatMap newIDs).Nodup ∧
            ∀ n id, expectedID gEnd o = some n → 1 ≤ id → id < n →
              id ∈ (reportsFor o results).flatMap newIDs := by
  refine ⟨?_, fun address identifier antiEntropy routeTimer calls gEnd results h o =>
    ⟨fresh_nodup address identifier antiEntropy routeTimer calls gEnd results h o,
      fun n id hn h1 h2 =>
        fresh_cover address identifier antiEntropy routeTimer calls gEnd results h o n id
          hn h1 h2⟩⟩
  have hkept : ∃ t1, GoMap.Load g1.messages m.Origin = some t1 ∧ received t1 m'.ID ∧
      t1.nextID ≠ m'.ID := by
    rcases hcounted.1 with hsame | hrange
    · rw [hsame]
      exact stored_after hfirst
    · exact reported_after hfirst hrange hcounted.2
  obtain ⟨t1, hl1, hr1, hn1⟩ := hkept
  have hproj := trackAll_origin m.Origin later g1 g2 rs hlater
  rw [hl1] at hproj
  obtain ⟨t2, hl2, hr2, hn2⟩ := kept_originRun m'.ID _ t1 _ _ hproj hr1 hn1
  rw [← horigin] at hl2
  obtain ⟨g3, hcall, he2, he3⟩ := repeat_call hl2 hn2
  rw [horigin] at he2 he3
  exact ⟨g3, t2.nextID, hcall, he2, he3⟩

/-- C2, a concrete run: the ids 3 and 1 of origin `o` have come, so that id 3
waits behind the gap at 2; the call with id 2 fills the gap and returns
(4, 2), counting the ids 2 and 3; after a call with id 6, the rumor with id 3
comes again with another text, and the call returns (4, 4). -/
theorem duplicate_suppression_witness :
    ∃ g3 n, trackRumor
        (knowingExample [(3, ⟨"o", 3, "c", none⟩), (1, ⟨"o", 1, "a", none⟩),
          (2, ⟨"o", 2, "b", none⟩), (6, ⟨"o", 6, "f", none⟩)] 4)
        ⟨"o", 3, "again", none⟩ = some (g3, n, n) ∧
      expectedID (knowingExample [(3, ⟨"o", 3, "c", none⟩), (1, ⟨"o", 1, "a", none⟩),
          (2, ⟨"o", 2, "b", none⟩), (6, ⟨"o", 6, "f", none⟩)] 4) "o" = some n ∧
      expectedID g3 "o" = some n :=
  (duplicate_suppression
    (knowingExample [(3, ⟨"o", 3, "c", none⟩), (1, ⟨"o", 1, "a", none⟩)] 2)
    (knowingExample [(3, ⟨"o", 3, "c", none⟩), (1, ⟨"o", 1, "a", none⟩),
      (2, ⟨"o", 2, "b", none⟩)] 4)
    (knowingExample [(3, ⟨"o", 3, "c", none⟩), (1, ⟨"o", 1, "a", none⟩),
      (2, ⟨"o", 2, "b", none⟩), (6, ⟨"o", 6, "f", none⟩)] 4)
    ⟨"o", 2, "b", none⟩ ⟨"o", 3, "again", none⟩ 4 2 [⟨"o", 6, "f", none⟩] [("o", 4, 4)]
    (by decide) (by decide) (by decide) rfl).1

/-- C6 (as amended): for every rumor with an id below `2^32 - 1` and every
gossiper whose history of the rumor's origin holds only ids below `2^32 - 1`,
`trackRumor` returns; its second value is the id expected for the origin
before the call (1 for an origin never seen), its first value the id expected
afterwards; the first is greater than the second if and only if the id of the
rumor is the expected one, and otherwise both values are the expected id,
which is left as it was. -/
theorem acceptance_rule_bounded (g : Gossiper E) (msg : RumorMessage E)
    (hm : msg.ID < 2 ^ 32 - 1)
    (hb : ∀ t i, GoMap.Load g.messages msg.Origin = some t → received t i → i < 2 ^ 32 - 1) :
    ∃ g1 a b, trackRumor g msg = some (g1, a, b) ∧ b = (expectedID g msg.Origin).getD 1 ∧
      expectedID g1 msg.Origin = some a ∧ (b < a ↔ msg.ID = b) ∧ (msg.ID ≠ b → a = b) := by
  cases hl : GoMap.Load g.messages msg.Origin with
  | none =>
    have hs : originStep (GoMap.Load g.messages msg.Origin) msg =
        some (⟨GoMap.Store [] msg.ID msg, if msg.ID = 1 then 2 else 1⟩,
          (if msg.ID = 1 then 2 else 1), 1) := by
      rw [hl]
      rfl
    refine ⟨_, _, _, trackRumor_of_step hs, by simp [expectedID, hl], ?_, ?_, ?_⟩
    · simp [expectedID, GoMap.Load_Store_self]
    · by_cases h1 : msg.ID = 1 <;> simp [h1]
    · intro h1
      simp [h1]
  | some t =>
    obtain ⟨t1, a, hs, hnext, _, hne, heq⟩ := originStep_bounded (hb t · hl) hm
    rw [← hl] at hs
    refine ⟨_, a, t.nextID, trackRumor_of_step hs, by simp [expectedID, hl], ?_, ?_, ?_⟩
    · simp [expectedID, GoMap.Load_Store_self, hnext]
    · constructor
      · intro hlt
        by_contra hc
        have := hne hc
        omega
      · intro h
        exact (heq h).1
    · exact hne

/-- C6, a concrete call: the rumor with id 2 for an origin that expects 2 and
already holds id 3 moves the expected id to 4. -/
theorem acceptance_rule_bounded_witness :
    ∃ g1 a b, trackRumor
        (knowingExample [(1, ⟨"o", 1, "a", none⟩), (3, ⟨"o", 3, "c", none⟩)] 2)
        ⟨"o", 2, "b", none⟩ = some (g1, a, b) ∧
      b = (expectedID
        (knowingExample [(1, ⟨"o", 1, "a", none⟩), (3, ⟨"o", 3, "c", none⟩)] 2) "o").getD 1 ∧
      expectedID g1 "o" = some a ∧ (b < a ↔ 2 = b) ∧ (2 ≠ b → a = b) :=
  acceptance_rule_bounded
    (knowingExample [(1, ⟨"o", 1, "a", none⟩), (3, ⟨"o", 3, "c", none⟩)] 2)
    ⟨"o", 2, "b", none⟩ (by decide) (by
    intro t i hl hr
    have ht : t = { messages := [(1, ⟨"o", 1, "a", none⟩), (3, ⟨"o", 3, "c", none⟩)],
                    nextID := 2 } := by
      simpa [GoMap.Load, knowingExample] using hl.symm
    subst ht
    simp only [received, GoMap.Load] at hr
    by_cases h1 : 1 = i
    · omega
    · by_cases h3 : 3 = i
      · omega
      · simp [h1, h3] at hr)

/-- C6 fails as it is stated: after the ids `1, ..., 2^32 - 2` of one origin on
a fresh gossiper, the origin expects `2^32 - 1`; the call with exactly that
id returns 0 and `2^32 - 1`: the id is the expected one and yet the first
value is not greater than the second. -/
theorem acceptance_rule_wraps :
    ∃ g rs g1 a b, trackAll (NewGossiper "127.0.0.1:5000" "A" 10 0 : Gossiper Unit)
        (ascending Unit "o" 4294967294) = some (g, rs) ∧
      expectedID g "o" = some 4294967295 ∧
      trackRumor g { Origin := "o", ID := 4294967295, Text := "", Extra := none } =
        some (g1, a, b) ∧ ¬ b < a := by
  obtain ⟨g, rs, g1, hrun, hexp, hlast⟩ := wrap_run (E := Unit) "127.0.0.1:5000" "A" 10 0 "o"
  exact ⟨g, rs, g1, 0, 4294967295, hrun, hexp, hlast, by omega⟩

/-- C7: for every `n` with `1 ≤ n < 2^32 - 1` and every list of rumors of one
origin whose ids are a permutation of `1..n`, giving the rumors in that order
to `trackRumor` on a fresh gossiper makes every call return and ends with the
origin expecting `n + 1`. -/
theorem gap_filling_order_independent (address identifier : String)
    (antiEntropy routeTimer : Int) (o : String) (n : Nat) (hn1 : 1 ≤ n) (hn : n < 2 ^ 32 - 1)
    (msgs : List (RumorMessage E)) (ho : ∀ m ∈ msgs, m.Origin = o)
    (hperm : (msgs.map (fun m => m.ID)).Perm (List.range' 1 n)) :
    ∃ g rs, trackAll (NewGossiper address identifier antiEntropy routeTimer) msgs = some (g, rs) ∧
      expectedID g o = some (n + 1) := by
  obtain ⟨g, rs, t, hrun, hl, hnext, _, _⟩ :=
    perm_run address identifier antiEntropy routeTimer o n hn1 hn msgs ho hperm
  exact ⟨g, rs, hrun, by simp [expectedID, hl, hnext]⟩

/-- C7, a concrete order: the ids 3, 1, 4, 2 of origin `o`. -/
theorem gap_filling_order_independent_witness :
    ∃ g rs, trackAll (NewGossiper "127.0.0.1:5000" "A" 10 0 : Gossiper Unit)
        [⟨"o", 3, "c", none⟩, ⟨"o", 1, "a", none⟩, ⟨"o", 4, "d", none⟩, ⟨"o", 2, "b", none⟩] =
          some (g, rs) ∧
      expectedID g "o" = some (4 + 1) :=
  gap_filling_order_independent "127.0.0.1:5000" "A" 10 0 "o" 4 (by decide) (by decide) _
    (by decide) (by decide)

/-! ### `updateRoute` -/

/-- A route that exists is left as it is by `updateRoute`. -/
theorem updateRoute_known (g : Gossiper E) (destination nextHop : String) (lastID : Nat)
    (flag : Bool) (route : RouteStruct) (h : GoMap.Load g.routes destination = some route) :
    updateRoute g destination nextHop lastID flag = g := by
  unfold updateRoute GoMap.LoadOrStore
  by_cases ha : g.address = nextHop
  · simp [ha]
  · simp [ha, h]

/-- The first route for a destination is stored as given, unless its next hop
is the local address. -/
theorem updateRoute_unknown (g : Gossiper E) (destination nextHop : String) (lastID : Nat)
    (flag : Bool) (h : GoMap.Load g.routes destination = none) (ha : g.address ≠ nextHop) :
    GoMap.Load (updateRoute g destination nextHop lastID flag).routes destination =
      some { NextHop := nextHop, LastID := lastID } := by
  unfold updateRoute GoMap.LoadOrStore
  simp [ha, h, GoMap.Load_Store_self]

/-- C3, the code at the failing input: on a fresh gossiper, the update with id
3 followed by the update with id 5 for the same destination leaves the route
of id 3 (the first one) and not that of id 5; the updates with id 5 and then
id 3 leave the route of id 5. -/
theorem routing_first_update_stays :
    GoMap.Load (updateRoute (updateRoute freshExample "d" "10.0.0.1:1" 3 false)
        "d" "10.0.0.2:1" 5 false).routes "d" = some { NextHop := "10.0.0.1:1", LastID := 3 } ∧
    GoMap.Load (updateRoute (updateRoute freshExample "d" "10.0.0.1:1" 5 false)
        "d" "10.0.0.2:1" 3 false).routes "d" = some { NextHop := "10.0.0.1:1", LastID := 5 } := by
  decide

/-! ### `AddMessage` and `AddExtraMessage` -/

theorem trackRumor_nextID {g g1 : Gossiper E} {msg : RumorMessage E} {a b : Nat}
    (h : trackRumor g msg = some (g1, a, b)) : g1.nextID = g.nextID := by
  obtain ⟨t1, _, hg⟩ := trackRumor_some h
  rw [hg]

theorem trackingHandler_nextID {L : Type} (g : Gossiper E) (packet : GossipPacket E L)
    (addr : String) : (trackingHandler g packet addr).nextID = g.nextID := by
  unfold trackingHandler
  cases packet.Rumor with
  | none => rfl
  | some msg =>
    cases h : trackRumor g msg with
    | none => simp only [h]
    | some r =>
      obtain ⟨g1, a, b⟩ := r
      simp only [h]
      exact trackRumor_nextID h

/-- The ids returned by a sequence of submissions, from any value of the local
counter that leaves room for them. -/
theorem submitAll_ids {L : Type} (HandlePacket : PacketHandler E L)
    (hframe : ∀ g packet addr, (HandlePacket g packet addr).nextID = g.nextID) :
    ∀ (calls : List (Submission E)) (g : Gossiper E), g.nextID + calls.length < 2 ^ 32 →
      (submitAll HandlePacket g calls).2 = List.range' g.nextID calls.length := by
  intro calls
  induction calls with
  | nil => intro g _; rfl
  | cons call rest ih =>
    intro g hlen
    simp only [List.length_cons] at hlen
    have hu : uint32 (g.nextID + 1) = g.nextID + 1 := uint32_of_lt (by omega)
    cases call with
    | message text =>
      have hn : (AddMessage HandlePacket g text).1.nextID = g.nextID + 1 := by
        simp only [AddMessage, hframe, hu]
      have hrec := ih (AddMessage HandlePacket g text).1 (by rw [hn]; omega)
      rw [hn] at hrec
      simp only [submitAll, hrec, List.length_cons, List.range'_succ]
      rfl
    | extra paxosMsg =>
      have hn : (AddExtraMessage HandlePacket g paxosMsg).1.nextID = g.nextID + 1 := by
        simp only [AddExtraMessage, hframe, hu]
      have hrec := ih (AddExtraMessage HandlePacket g paxosMsg).1 (by rw [hn]; omega)
      rw [hn] at hrec
      simp only [submitAll, hrec, List.length_cons, List.range'_succ]
      rfl

/-- C8: on a freshly created gossiper, with a message handler that leaves the
local counter alone, for every sequence of fewer than `2^32 - 1` calls of
`AddMessage` and `AddExtraMessage` in any mix, the ids returned are
`1, 2, ..., ` the number of calls, in this order: the k-th call returns k, and
no id is returned twice. -/
theorem local_sequence_numbers {L : Type} (HandlePacket : PacketHandler E L)
    (hframe : ∀ g packet addr, (HandlePacket g packet addr).nextID = g.nextID)
    (address identifier : String) (antiEntropy routeTimer : Int)
    (calls : List (Submission E)) (hlen : calls.length < 2 ^ 32 - 1) :
    (submitAll HandlePacket (NewGossiper address identifier antiEntropy routeTimer) calls).2 =
        List.range' 1 calls.length ∧
      (submitAll HandlePacket (NewGossiper address identifier antiEntropy routeTimer) calls).2.Nodup := by
  have h := submitAll_ids HandlePacket hframe calls
    (NewGossiper address identifier antiEntropy routeTimer)
    (by show 1 + calls.length < 2 ^ 32; omega)
  refine ⟨h, ?_⟩
  rw [h]
  exact List.nodup_range' _ _

/-- C8, a concrete run: a message, a consensus payload and a message, with the
handler that tracks each rumor. -/
theorem local_sequence_numbers_witness :
    (submitAll (trackingHandler : PacketHandler Unit Unit) (NewGossiper "127.0.0.1:5000" "A" 10 0)
        [.message "a", .extra (), .message "b"]).2 = List.range' 1 3 ∧
      (submitAll (trackingHandler : PacketHandler Unit Unit)
        (NewGossiper "127.0.0.1:5000" "A" 10 0)
        [.message "a", .extra (), .message "b"]).2.Nodup :=
  local_sequence_numbers trackingHandler trackingHandler_nextID "127.0.0.1:5000" "A" 10 0
    [.message "a", .extra (), .message "b"] (by decide)

end Gossip

/-! ## The block log -/

/-- Storing a block that extends the tail keeps the stored blocks linked and
makes the new block the only one with the highest number. -/
theorem linked_store {B : Type} (number : B → Int) (previous hash : B → List Nat)
    (blocks : GoMap String B) (tail : Option B) (block : B) (key : String)
    (hl : ChainLinked number previous hash blocks) (ht : TailOnTop number blocks tail)
    (he : Extends number previous hash tail block) :
    ChainLinked number previous hash (GoMap.Store blocks key block) ∧
      TailOnTop number (GoMap.Store blocks key block) (some block) := by
  have hold : ∀ k b, GoMap.Load (GoMap.Store blocks key block) k = some b →
      b = block ∨ ∃ k0, GoMap.Load blocks k0 = some b := by
    intro k b h
    rw [GoMap.Load_Store] at h
    by_cases hk : k = key
    · simp only [hk, if_true, Option.some.injEq] at h
      exact Or.inl h.symm
    · simp only [hk, if_false] at h
      exact Or.inr ⟨k, h⟩
  cases tail with
  | none =>
    have hempty : ∀ k0 (b : B), GoMap.Load blocks k0 ≠ some b := by
      intro k0 b
      have hnil : blocks = [] := ht
      rw [hnil]
      simp [GoMap.Load]
    constructor
    · intro k1 k2 b1 b2 h1 h2 hn
      rcases hold k1 b1 h1 with e1 | ⟨k0, h0⟩
      · rcases hold k2 b2 h2 with e2 | ⟨k0, h0⟩
        · rw [e1, e2] at hn
          omega
        · exact absurd h0 (hempty k0 b2)
      · exact absurd h0 (hempty k0 b1)
    · intro k b h
      rcases hold k b h with e | ⟨k0, h0⟩
      · rw [e]
        exact ⟨le_refl _, fun _ => rfl⟩
      · exact absurd h0 (hempty k0 b)
  | some t =>
    obtain ⟨hnum, hprev⟩ := he
    have htop : ∀ k0 b, GoMap.Load blocks k0 = some b →
        number b ≤ number t ∧ (number b = number t → b = t) := ht
    constructor
    · intro k1 k2 b1 b2 h1 h2 hn
      rcases hold k1 b1 h1 with e1 | ⟨k0, h0⟩
      · rcases hold k2 b2 h2 with e2 | ⟨k3, h3⟩
        · rw [e1, e2] at hn
          omega
        · have := (htop k3 b2 h3).1
          rw [e1] at hn
          omega
      · rcases hold k2 b2 h2 with e2 | ⟨k3, h3⟩
        · rw [e2] at hn ⊢
          have hb1 : b1 = t := (htop k0 b1 h0).2 (by omega)
          rw [hb1]
          exact hprev
        · exact hl k0 k3 b1 b2 h0 h3 hn
    · intro k b h
      rcases hold k b h with e | ⟨k0, h0⟩
      · rw [e]
        exact ⟨le_refl _, fun _ => rfl⟩
      · have := (htop k0 b h0).1
        exact ⟨by omega, fun hc => by omega⟩

namespace Paxos

variable {T M C : Type}

theorem paxos_handle_some (env : Env T M C) (b : BlockChain T C) (msg : M) (tlc : T)
    (block : BlockContainer C) (h : env.tlcHandleExtraMessage b.tlc msg = (tlc, some block)) :
    HandleExtraMessage env b msg =
      ({ b with
          blocks := GoMap.Store b.blocks (hex.EncodeToString (env.Hash block.Block)) block
          tail := some block
          tlc := env.NewTLC b.numParticipant b.nodeIndex b.paxosRetry
            (int64 (block.Block.BlockNumber + 1)) b.blockFactory },
        some block) := by
  simp only [HandleExtraMessage, h]

theorem paxos_handle_none (env : Env T M C) (b : BlockChain T C) (msg : M) (tlc : T)
    (h : env.tlcHandleExtraMessage b.tlc msg = (tlc, none)) :
    HandleExtraMessage env b msg = ({ b with tlc := tlc }, none) := by
  simp only [HandleExtraMessage, h]

/-- The linked block map with the tail on top is kept along linked calls. -/
theorem paxos_exec_linked (env : Env T M C) : ∀ (calls : List (Call M C)) (b : BlockChain T C),
    ChainIntegrity env b → TailOnTop (fun c => c.Block.BlockNumber) b.blocks b.tail →
    linkedCalls env b calls →
    ChainIntegrity env (exec env b calls) ∧
      TailOnTop (fun c => c.Block.BlockNumber) (exec env b calls).blocks (exec env b calls).tail := by
  intro calls
  induction calls with
  | nil => intro b hl ht _; exact ⟨hl, ht⟩
  | cons call rest ih =>
    intro b hl ht hcalls
    cases call with
    | propose blockContent => exact ih (Propose env b blockContent) hl ht hcalls
    | handle msg =>
      obtain ⟨hext, hrest⟩ := hcalls
      cases hr : env.tlcHandleExtraMessage b.tlc msg with
      | mk tlc out =>
        cases out with
        | none =>
          have hh := paxos_handle_none env b msg tlc hr
          simp only [exec]
          rw [hh] at hrest ⊢
          exact ih _ hl ht hrest
        | some block =>
          have hh := paxos_handle_some env b msg tlc block hr
          have hstore := linked_store _ _ _ b.blocks b.tail block
            (hex.EncodeToString (env.Hash block.Block)) hl ht (hext block (by rw [hr]))
          simp only [exec]
          rw [hh] at hrest ⊢
          exact ih _ hstore.1 hstore.2 hrest

end Paxos

namespace Gossip

variable {T M : Type}

theorem gossip_handle_some (env : Env T M) (b : BlockChain T) (msg : M) (tlc : T) (block : Block)
    (h : env.tlcHandleExtraMessage b.tlc msg = (tlc, some block)) :
    handleExtraMessage env b msg =
      ({ b with
          blocks := GoMap.Store b.blocks (hex.EncodeToString (env.Hash block)) block
          tail := some block
          tlc := env.NewTLC b.numParticipant b.nodeIndex b.paxosRetry
            (int64 (block.BlockNumber + 1))
            { BlockNumber := int64 (block.BlockNumber + 1), PreviousHash := env.Hash block,
              Filename := "", Metahash := [] } },
        some block) := by
  simp only [handleExtraMessage, h]

theorem gossip_handle_none (env : Env T M) (b : BlockChain T) (msg : M) (tlc : T)
    (h : env.tlcHandleExtraMessage b.tlc msg = (tlc, none)) :
    handleExtraMessage env b msg = ({ b with tlc := tlc }, none) := by
  simp only [handleExtraMessage, h]

/-- The linked block map with the tail on top is kept along linked calls. -/
theorem gossip_exec_linked (env : Env T M) : ∀ (calls : List (Call M)) (b : BlockChain T),
    ChainIntegrity env b → TailOnTop (fun c => c.BlockNumber) b.blocks b.tail →
    linkedCalls env b calls →
    ChainIntegrity env (exec env b calls) ∧
      TailOnTop (fun c => c.BlockNumber) (exec env b calls).blocks (exec env b calls).tail := by
  intro calls
  induction calls with
  | nil => intro b hl ht _; exact ⟨hl, ht⟩
  | cons call rest ih =>
    intro b hl ht hcalls
    cases call with
    | propose metahash filename => exact ih (propose env b metahash filename) hl ht hcalls
    | handle msg =>
      obtain ⟨hext, hrest⟩ := hcalls
      cases hr : env.tlcHandleExtraMessage b.tlc msg with
      | mk tlc out =>
        cases out with
        | none =>
          have hh := gossip_handle_none env b msg tlc hr
          simp only [exec]
          rw [hh] at hrest ⊢
          exact ih _ hl ht hrest
        | some block =>
          have hh := gossip_handle_some env b msg tlc block hr
          have hstore := linked_store _ _ _ b.blocks b.tail block
            (hex.EncodeToString (env.Hash block)) hl ht (hext block (by rw [hr]))
          simp only [exec]
          rw [hh] at hrest ⊢
          exact ih _ hstore.1 hstore.2 hrest

end Gossip

/-! ### Integrity, proposals and commits -/

/-- C4 (as amended): in every state of the block log reached from
`NewBlockchain` by a sequence of `Propose` and `HandleExtraMessage` calls in
which every block the round hands back extends the tail of that moment (its
number is the tail's plus one and its previous hash is the hash of the tail;
any block on the empty chain), whenever two stored blocks have consecutive
numbers the later one has `PreviousHash` equal to `Hash()` of the earlier
one. For `paxos/blockchain.go` and for `gossip/blockchain.go`. -/
theorem chain_integrity_linked :
    (∀ (T M C : Type) (env : Paxos.Env T M C) (numParticipant nodeIndex paxosRetry : Int)
        (blockFactory : Paxos.BlockFactory C) (calls : List (Paxos.Call M C)),
        Paxos.linkedCalls env
            (Paxos.NewBlockchain env numParticipant nodeIndex paxosRetry blockFactory) calls →
          Paxos.ChainIntegrity env (Paxos.exec env
            (Paxos.NewBlockchain env numParticipant nodeIndex paxosRetry blockFactory) calls)) ∧
      ∀ (T M : Type) (env : Gossip.Env T M) (numParticipant nodeIndex paxosRetry : Int)
        (calls : List (Gossip.Call M)),
        Gossip.linkedCalls env (Gossip.NewBlockchain env numParticipant nodeIndex paxosRetry) calls →
          Gossip.ChainIntegrity env (Gossip.exec env
            (Gossip.NewBlockchain env numParticipant nodeIndex paxosRetry) calls) := by
  constructor
  · intro T M C env numParticipant nodeIndex paxosRetry blockFactory calls h
    refine (Paxos.paxos_exec_linked env calls
      (Paxos.NewBlockchain env numParticipant nodeIndex paxosRetry blockFactory) ?_ ?_ h).1
    · intro k1 k2 b1 b2 h1
      simp [Paxos.NewBlockchain, GoMap.Load] at h1
    · simp [Paxos.NewBlockchain, TailOnTop]
  · intro T M env numParticipant nodeIndex paxosRetry calls h
    refine (Gossip.gossip_exec_linked env calls
      (Gossip.NewBlockchain env numParticipant nodeIndex paxosRetry) ?_ ?_ h).1
    · intro k1 k2 b1 b2 h1
      simp [Gossip.NewBlockchain, GoMap.Load] at h1
    · simp [Gossip.NewBlockchain, TailOnTop]

/-- C4, a concrete run of `gossip/blockchain.go`: the round hands back block 0
and then block 1 carrying the hash of block 0. -/
theorem chain_integrity_linked_witness :
    Gossip.ChainIntegrity Gossip.echoEnv (Gossip.exec Gossip.echoEnv
      (Gossip.NewBlockchain Gossip.echoEnv 3 0 1)
      [.handle (some { BlockNumber := 0, PreviousHash := List.replicate 32 0,
                       Filename := "a", Metahash := [1] }),
       .propose [2] "b",
       .handle (some { BlockNumber := 1, PreviousHash := [0],
                       Filename := "b", Metahash := [2] })]) :=
  chain_integrity_linked.2 Unit (Option Gossip.Block) Gossip.echoEnv 3 0 1 _ (by
    simp only [Gossip.linkedCalls]
    refine ⟨?_, ?_, trivial⟩
    · intro block _
      trivial
    · intro block h
      have hb : block = ⟨1, [0], "b", [2]⟩ := by
        simpa [Gossip.echoEnv] using h.symm
      rw [hb]
      exact ⟨by decide, by decide⟩)

/-- C4 fails as it is stated: the block log stores whatever block the round
hands back. After block 0 and then a block numbered 1 whose previous hash is
not the hash of block 0, both are stored and they are not linked. For
`paxos/blockchain.go` and for `gossip/blockchain.go`. -/
theorem chain_integrity_unlinked :
    ¬ Paxos.ChainIntegrity Paxos.echoEnv (Paxos.exec Paxos.echoEnv
        (Paxos.NewBlockchain Paxos.echoEnv 3 0 1 (Paxos.specFactory Nat))
        [.handle (some { Block := { BlockNumber := 0, PreviousHash := List.replicate 32 0,
                                    Content := some 7 }, BlockType := "NamingBlock" }),
         .handle (some { Block := { BlockNumber := 1, PreviousHash := [9, 9],
                                    Content := some 8 }, BlockType := "NamingBlock" })]) ∧
      ¬ Gossip.ChainIntegrity Gossip.echoEnv (Gossip.exec Gossip.echoEnv
        (Gossip.NewBlockchain Gossip.echoEnv 3 0 1)
        [.handle (some { BlockNumber := 0, PreviousHash := List.replicate 32 0,
                         Filename := "a", Metahash := [1] }),
         .handle (some { BlockNumber := 1, PreviousHash := [9, 9],
                         Filename := "b", Metahash := [2] })]) := by
  constructor
  · intro h
    have := h "00" "01" ⟨⟨0, List.replicate 32 0, some 7⟩, "NamingBlock"⟩
      ⟨⟨1, [9, 9], some 8⟩, "NamingBlock"⟩ (by decide) (by decide) (by decide)
    revert this
    decide
  · intro h
    have := h "00" "01" ⟨0, List.replicate 32 0, "a", [1]⟩ ⟨1, [9, 9], "b", [2]⟩
      (by decide) (by decide) (by decide)
    revert this
    decide

/-- C9 (as amended): `propose` of `gossip/blockchain.go` hands the round a
block that carries the given file name and metahash; on the empty chain the
block has number 0 and a previous hash of 32 zero bytes; on a chain with tail
`T` it has previous hash `T.Hash()` and the number that `T.BlockNumber + 1`
gives on a Go `int`, which is never the number of `T` and is
`T.BlockNumber + 1` whenever the number of `T` is below `MaxInt64`; after a
commit of a block `B` the next proposal never has the number of `B`, and has
number `B.BlockNumber + 1` when the number of `B` is below `MaxInt64`.
`Propose` of `paxos/blockchain.go` hands the round the block its factory makes
from these same arguments: the genesis block for number 0 on the empty chain,
and otherwise the block for that number and `T.Hash()`, with the given
content; the factory as the spec describes it gives these blocks that number,
previous hash and content. -/
theorem propose_linkage_bounded :
    (∀ (T M : Type) (env : Gossip.Env T M) (b : Gossip.BlockChain T) (metahash : List Nat)
        (filename : String),
        Gossip.propose env b metahash filename =
            { b with tlc := env.tlcPropose b.tlc (Gossip.proposal env b metahash filename) } ∧
          (Gossip.proposal env b metahash filename).Filename = filename ∧
          (Gossip.proposal env b metahash filename).Metahash = metahash ∧
          (b.tail = none →
            (Gossip.proposal env b metahash filename).BlockNumber = 0 ∧
            (Gossip.proposal env b metahash filename).PreviousHash = List.replicate 32 0) ∧
          (∀ tail, b.tail = some tail →
            (Gossip.proposal env b metahash filename).BlockNumber =
              int64 (tail.BlockNumber + 1) ∧
            (Gossip.proposal env b metahash filename).BlockNumber ≠ tail.BlockNumber ∧
            (Gossip.proposal env b metahash filename).PreviousHash = env.Hash tail ∧
            (isInt64 tail.BlockNumber → tail.BlockNumber < MaxInt64 →
              (Gossip.proposal env b metahash filename).BlockNumber = tail.BlockNumber + 1)) ∧
          (∀ msg block, (env.tlcHandleExtraMessage b.tlc msg).2 = some block →
            (Gossip.proposal env (Gossip.handleExtraMessage env b msg).1 metahash
              filename).BlockNumber ≠ block.BlockNumber ∧
            (isInt64 block.BlockNumber → block.BlockNumber < MaxInt64 →
              (Gossip.proposal env (Gossip.handleExtraMessage env b msg).1 metahash
                filename).BlockNumber = block.BlockNumber + 1))) ∧
      (∀ (T M C : Type) (env : Paxos.Env T M C) (b : Paxos.BlockChain T C) (blockContent : C),
        Paxos.Propose env b blockContent =
            { b with tlc := env.tlcPropose b.tlc (Paxos.proposal env b blockContent) } ∧
          (b.tail = none →
            Paxos.proposal env b blockContent =
              b.blockFactory.NewGenesisBlock (env.BlockType blockContent) 0 blockContent) ∧
          (∀ tail, b.tail = some tail →
            Paxos.proposal env b blockContent =
              b.blockFactory.NewBlock (env.BlockType blockContent)
                (int64 (tail.Block.BlockNumber + 1)) (env.Hash tail.Block) blockContent ∧
            int64 (tail.Block.BlockNumber + 1) ≠ tail.Block.BlockNumber ∧
            (isInt64 tail.Block.BlockNumber → tail.Block.BlockNumber < MaxInt64 →
              Paxos.proposal env b blockContent =
                b.blockFactory.NewBlock (env.BlockType blockContent)
                  (tail.Block.BlockNumber + 1) (env.Hash tail.Block) blockContent))) ∧
      ∀ (C : Type) (blockType : String) (blockNumber : Int) (previousHash : List Nat)
        (blockContent : C),
        ((Paxos.specFactory C).NewGenesisBlock blockType 0 blockContent).Block =
            { BlockNumber := 0, PreviousHash := List.replicate 32 0,
              Content := some blockContent } ∧
          ((Paxos.specFactory C).NewBlock blockType blockNumber previousHash blockContent).Block =
            { BlockNumber := blockNumber, PreviousHash := previousHash,
              Content := some blockContent } := by
  refine ⟨?_, ?_, ?_⟩
  · intro T M env b metahash filename
    refine ⟨rfl, ?_, ?_, ?_, ?_, ?_⟩
    · unfold Gossip.proposal
      cases b.tail <;> rfl
    · unfold Gossip.proposal
      cases b.tail <;> rfl
    · intro h
      simp [Gossip.proposal, h]
    · intro tail h
      have hn : (Gossip.proposal env b metahash filename).BlockNumber =
          int64 (tail.BlockNumber + 1) := by
        simp [Gossip.proposal, h]
      refine ⟨hn, ?_, ?_, ?_⟩
      · rw [hn]
        exact int64_succ_ne _
      · simp [Gossip.proposal, h]
      · intro hr hmax
        rw [hn]
        exact int64_succ hr hmax
    · intro msg block h
      cases hr : env.tlcHandleExtraMessage b.tlc msg with
      | mk tlc out =>
        rw [hr] at h
        simp only at h
        subst h
        rw [Gossip.gossip_handle_some env b msg tlc block hr]
        have hn : (Gossip.proposal env
            ({ b with
                blocks := GoMap.Store b.blocks (hex.EncodeToString (env.Hash block)) block
                tail := some block
                tlc := env.NewTLC b.numParticipant b.nodeIndex b.paxosRetry
                  (int64 (block.BlockNumber + 1))
                  { BlockNumber := int64 (block.BlockNumber + 1), PreviousHash := env.Hash block,
                    Filename := "", Metahash := [] } }, some block).1 metahash
              filename).BlockNumber = int64 (block.BlockNumber + 1) := rfl
        rw [hn]
        exact ⟨int64_succ_ne _, fun hr hmax => int64_succ hr hmax⟩
  · intro T M C env b blockContent
    refine ⟨rfl, ?_, ?_⟩
    · intro h
      simp [Paxos.proposal, h]
    · intro tail h
      have hp : Paxos.proposal env b blockContent =
          b.blockFactory.NewBlock (env.BlockType blockContent)
            (int64 (tail.Block.BlockNumber + 1)) (env.Hash tail.Block) blockContent := by
        simp [Paxos.proposal, h]
      refine ⟨hp, int64_succ_ne _, ?_⟩
      intro hr hmax
      rw [hp, int64_succ hr hmax]
  · intro C blockType blockNumber previousHash blockContent
    exact ⟨rfl, rfl⟩

/-- C9, a concrete chain of `gossip/blockchain.go`: with a tail numbered 4 the
proposal has number 5 and carries the hash of the tail. -/
theorem propose_linkage_bounded_witness :
    (Gossip.proposal Gossip.echoEnv
        { numParticipant := 3, nodeIndex := 0, paxosRetry := 1,
          tail := some { BlockNumber := 4, PreviousHash := [3], Filename := "d", Metahash := [4] },
          blocks := [], tlc := () } [5] "e").BlockNumber = 4 + 1 ∧
      (Gossip.proposal Gossip.echoEnv
        { numParticipant := 3, nodeIndex := 0, paxosRetry := 1,
          tail := some { BlockNumber := 4, PreviousHash := [3], Filename := "d", Metahash := [4] },
          blocks := [], tlc := () } [5] "e").PreviousHash = [4] :=
  have h := (propose_linkage_bounded.1 Unit (Option Gossip.Block) Gossip.echoEnv
    { numParticipant := 3, nodeIndex := 0, paxosRetry := 1,
      tail := some { BlockNumber := 4, PreviousHash := [3], Filename := "d", Metahash := [4] },
      blocks := [], tlc := () } [5] "e").2.2.2.2.1
    { BlockNumber := 4, PreviousHash := [3], Filename := "d", Metahash := [4] } rfl
  ⟨h.2.2.2 (by decide) (by decide), h.2.2.1⟩

/-- C9 fails as it is stated: the number of the proposal is computed on a Go
`int`. Once the round has handed back a block numbered `MaxInt64`, which is
then the tail, the proposal has the number `MinInt64` and not the number of
the tail plus one. For `gossip/blockchain.go` and, with the factory as the
spec describes it, for `paxos/blockchain.go`. -/
theorem propose_linkage_wraps :
    (Gossip.exec Gossip.echoEnv (Gossip.NewBlockchain Gossip.echoEnv 3 0 1)
        [.handle (some { BlockNumber := MaxInt64, PreviousHash := List.replicate 32 0,
                         Filename := "a", Metahash := [1] })]).tail =
        some { BlockNumber := MaxInt64, PreviousHash := List.replicate 32 0,
               Filename := "a", Metahash := [1] } ∧
      (Gossip.proposal Gossip.echoEnv
        (Gossip.exec Gossip.echoEnv (Gossip.NewBlockchain Gossip.echoEnv 3 0 1)
          [.handle (some { BlockNumber := MaxInt64, PreviousHash := List.replicate 32 0,
                           Filename := "a", Metahash := [1] })]) [2] "b").BlockNumber =
        MinInt64 ∧
      (Gossip.proposal Gossip.echoEnv
        (Gossip.exec Gossip.echoEnv (Gossip.NewBlockchain Gossip.echoEnv 3 0 1)
          [.handle (some { BlockNumber := MaxInt64, PreviousHash := List.replicate 32 0,
                           Filename := "a", Metahash := [1] })]) [2] "b").BlockNumber ≠
        MaxInt64 + 1 ∧
      (Paxos.proposal Paxos.echoEnv
        (Paxos.exec Paxos.echoEnv
          (Paxos.NewBlockchain Paxos.echoEnv 3 0 1 (Paxos.specFactory Nat))
          [.handle (some { Block := { BlockNumber := MaxInt64,
                                      PreviousHash := List.replicate 32 0, Content := some 7 },
                           BlockType := "NamingBlock" })]) 8).Block.BlockNumber = MinInt64 ∧
      (Paxos.proposal Paxos.echoEnv
        (Paxos.exec Paxos.echoEnv
          (Paxos.NewBlockchain Paxos.echoEnv 3 0 1 (Paxos.specFactory Nat))
          [.handle (some { Block := { BlockNumber := MaxInt64,
                                      PreviousHash := List.replicate 32 0, Content := some 7 },
                           BlockType := "NamingBlock" })]) 8).Block.BlockNumber ≠
        MaxInt64 + 1 := by
  decide

/-- C10 (as amended): for every state of the block log and every message,
when the round hands back a block `B`, after `HandleExtraMessage` the block
map holds `B` under the key `hex(B.Hash())`, every other key holds what it
held, the tail is `B`, the round is a new one created for the number that
`B.BlockNumber + 1` gives on a Go `int`, which is `B.BlockNumber + 1` whenever
the number of `B` is below `MaxInt64`, and `B` is returned; when the round
hands back no block, the tail and the block map are as before and nil is
returned. For `paxos/blockchain.go` and for `gossip/blockchain.go`. -/
theorem commit_effect_bounded :
    (∀ (T M C : Type) (env : Paxos.Env T M C) (b : Paxos.BlockChain T C) (msg : M),
        (∀ block, (env.tlcHandleExtraMessage b.tlc msg).2 = some block →
          GoMap.Load (Paxos.HandleExtraMessage env b msg).1.blocks
              (hex.EncodeToString (env.Hash block.Block)) = some block ∧
            (∀ key, key ≠ hex.EncodeToString (env.Hash block.Block) →
              GoMap.Load (Paxos.HandleExtraMessage env b msg).1.blocks key =
                GoMap.Load b.blocks key) ∧
            (Paxos.HandleExtraMessage env b msg).1.tail = some block ∧
            (Paxos.HandleExtraMessage env b msg).1.tlc =
              env.NewTLC b.numParticipant b.nodeIndex b.paxosRetry
                (int64 (block.Block.BlockNumber + 1)) b.blockFactory ∧
            (isInt64 block.Block.BlockNumber → block.Block.BlockNumber < MaxInt64 →
              (Paxos.HandleExtraMessage env b msg).1.tlc =
                env.NewTLC b.numParticipant b.nodeIndex b.paxosRetry
                  (block.Block.BlockNumber + 1) b.blockFactory) ∧
            (Paxos.HandleExtraMessage env b msg).2 = some block) ∧
          ((env.tlcHandleExtraMessage b.tlc msg).2 = none →
            (Paxos.HandleExtraMessage env b msg).1.tail = b.tail ∧
            (Paxos.HandleExtraMessage env b msg).1.blocks = b.blocks ∧
            (Paxos.HandleExtraMessage env b msg).2 = none)) ∧
      ∀ (T M : Type) (env : Gossip.Env T M) (b : Gossip.BlockChain T) (msg : M),
        (∀ block, (env.tlcHandleExtraMessage b.tlc msg).2 = some block →
          GoMap.Load (Gossip.handleExtraMessage env b msg).1.blocks
              (hex.EncodeToString (env.Hash block)) = some block ∧
            (∀ key, key ≠ hex.EncodeToString (env.Hash block) →
              GoMap.Load (Gossip.handleExtraMessage env b msg).1.blocks key =
                GoMap.Load b.blocks key) ∧
            (Gossip.handleExtraMessage env b msg).1.tail = some block ∧
            (Gossip.handleExtraMessage env b msg).1.tlc =
              env.NewTLC b.numParticipant b.nodeIndex b.paxosRetry
                (int64 (block.BlockNumber + 1))
                { BlockNumber := int64 (block.BlockNumber + 1), PreviousHash := env.Hash block,
                  Filename := "", Metahash := [] } ∧
            (isInt64 block.BlockNumber → block.BlockNumber < MaxInt64 →
              (Gossip.handleExtraMessage env b msg).1.tlc =
                env.NewTLC b.numParticipant b.nodeIndex b.paxosRetry (block.BlockNumber + 1)
                  { BlockNumber := block.BlockNumber + 1, PreviousHash := env.Hash block,
                    Filename := "", Metahash := [] }) ∧
            (Gossip.handleExtraMessage env b msg).2 = some block) ∧
          ((env.tlcHandleExtraMessage b.tlc msg).2 = none →
            (Gossip.handleExtraMessage env b msg).1.tail = b.tail ∧
            (Gossip.handleExtraMessage env b msg).1.blocks = b.blocks ∧
            (Gossip.handleExtraMessage env b msg).2 = none) := by
  constructor
  · intro T M C env b msg
    cases hr : env.tlcHandleExtraMessage b.tlc msg with
    | mk tlc out =>
      cases out with
      | none =>
        rw [Paxos.paxos_handle_none env b msg tlc hr]
        exact ⟨fun block h => by simp at h, fun _ => ⟨rfl, rfl, rfl⟩⟩
      | some block0 =>
        rw [Paxos.paxos_handle_some env b msg tlc block0 hr]
        refine ⟨fun block h => ?_, fun h => by simp at h⟩
        simp only [Option.some.injEq] at h
        subst h
        refine ⟨GoMap.Load_Store_self _ _ _, fun key hk => GoMap.Load_Store_of_ne _ _ hk,
          rfl, rfl, fun hr hmax => ?_, rfl⟩
        simp only [int64_succ hr hmax]
  · intro T M env b msg
    cases hr : env.tlcHandleExtraMessage b.tlc msg with
    | mk tlc out =>
      cases out with
      | none =>
        rw [Gossip.gossip_handle_none env b msg tlc hr]
        exact ⟨fun block h => by simp at h, fun _ => ⟨rfl, rfl, rfl⟩⟩
      | some block0 =>
        rw [Gossip.gossip_handle_some env b msg tlc block0 hr]
        refine ⟨fun block h => ?_, fun h => by simp at h⟩
        simp only [Option.some.injEq] at h
        subst h
        refine ⟨GoMap.Load_Store_self _ _ _, fun key hk => GoMap.Load_Store_of_ne _ _ hk,
          rfl, rfl, fun hr hmax => ?_, rfl⟩
        simp only [int64_succ hr hmax]

/-- C10, a concrete commit on `gossip/blockchain.go`: on a fresh block log the
round hands back block 0, which is then stored under `"00"` and is the tail,
and the new round is created for number 1. -/
theorem commit_effect_bounded_witness :
    GoMap.Load (Gossip.handleExtraMessage Gossip.numberEnv
        (Gossip.NewBlockchain Gossip.numberEnv 3 0 1)
        (some ⟨0, List.replicate 32 0, "a", [1]⟩)).1.blocks "00" =
        some ⟨0, List.replicate 32 0, "a", [1]⟩ ∧
      (Gossip.handleExtraMessage Gossip.numberEnv (Gossip.NewBlockchain Gossip.numberEnv 3 0 1)
        (some ⟨0, List.replicate 32 0, "a", [1]⟩)).1.tail =
        some ⟨0, List.replicate 32 0, "a", [1]⟩ ∧
      (Gossip.handleExtraMessage Gossip.numberEnv (Gossip.NewBlockchain Gossip.numberEnv 3 0 1)
        (some ⟨0, List.replicate 32 0, "a", [1]⟩)).1.tlc = 0 + 1 :=
  have h := (commit_effect_bounded.2 Int (Option Gossip.Block) Gossip.numberEnv
    (Gossip.NewBlockchain Gossip.numberEnv 3 0 1) (some ⟨0, List.replicate 32 0, "a", [1]⟩)).1
    ⟨0, List.replicate 32 0, "a", [1]⟩ rfl
  ⟨h.1, h.2.2.1, h.2.2.2.2.1 (by decide) (by decide)⟩

/-- C10 fails as it is stated: the number of the new round is computed on a Go
`int`. When the round hands back a block numbered `MaxInt64`, the block
becomes the tail and the new round is created for the number `MinInt64`, not
for the number of the block plus one. For `gossip/blockchain.go` and for
`paxos/blockchain.go`. -/
theorem commit_effect_wraps :
    (Gossip.handleExtraMessage Gossip.numberEnv (Gossip.NewBlockchain Gossip.numberEnv 3 0 1)
        (some ⟨MaxInt64, List.replicate 32 0, "a", [1]⟩)).1.tail =
        some ⟨MaxInt64, List.replicate 32 0, "a", [1]⟩ ∧
      (Gossip.handleExtraMessage Gossip.numberEnv (Gossip.NewBlockchain Gossip.numberEnv 3 0 1)
        (some ⟨MaxInt64, List.replicate 32 0, "a", [1]⟩)).1.tlc = MinInt64 ∧
      (Gossip.handleExtraMessage Gossip.numberEnv (Gossip.NewBlockchain Gossip.numberEnv 3 0 1)
        (some ⟨MaxInt64, List.replicate 32 0, "a", [1]⟩)).1.tlc ≠ MaxInt64 + 1 ∧
      (Paxos.HandleExtraMessage Paxos.numberEnv
        (Paxos.NewBlockchain Paxos.numberEnv 3 0 1 (Paxos.specFactory Nat))
        (some ⟨⟨MaxInt64, List.replicate 32 0, some 7⟩, "NamingBlock"⟩)).1.tlc = MinInt64 ∧
      (Paxos.HandleExtraMessage Paxos.numberEnv
        (Paxos.NewBlockchain Paxos.numberEnv 3 0 1 (Paxos.specFactory Nat))
        (some ⟨⟨MaxInt64, List.replicate 32 0, some 7⟩, "NamingBlock"⟩)).1.tlc ≠
        MaxInt64 + 1 := by
  decide

/-! ## Keys of a Go map -/

namespace GoMap

variable {K V : Type} [DecidableEq K]

theorem mem_keys_Store (m : GoMap K V) (k k' : K) (v : V) :
    k' ∈ keys (Store m k v) ↔ k' = k ∨ k' ∈ keys m := by
  induction m with
  | nil => simp [Store, keys]
  | cons e m ih =>
    obtain ⟨k1, v1⟩ := e
    by_cases h : k1 = k
    · subst h
      simp [Store, keys]
    · have ih' : k' ∈ List.map Prod.fst (Store m k v) ↔ k' = k ∨ k' ∈ List.map Prod.fst m := ih
      simp only [Store, h, if_false, keys, List.map_cons, List.mem_cons, ih']
      tauto

theorem nodup_keys_Store (m : GoMap K V) (k : K) (v : V) (h : (keys m).Nodup) :
    (keys (Store m k v)).Nodup := by
  induction m with
  | nil => simp [Store, keys]
  | cons e m ih =>
    obtain ⟨k1, v1⟩ := e
    have h' : k1 ∉ keys m ∧ (keys m).Nodup := by simpa [keys] using h
    by_cases hk : k1 = k
    · subst hk
      simpa [Store, keys] using h
    · have hnot : k1 ∉ keys (Store m k v) := by
        rw [mem_keys_Store]
        intro hc
        rcases hc with hc | hc
        · exact hk hc
        · exact h'.1 hc
      have hrec := ih h'.2
      simp only [Store, hk, if_false]
      exact List.nodup_cons.mpr ⟨hnot, hrec⟩

theorem Load_eq_none_iff (m : GoMap K V) (k : K) : Load m k = none ↔ k ∉ keys m := by
  induction m with
  | nil => simp [Load, keys]
  | cons e m ih =>
    obtain ⟨k1, v1⟩ := e
    have ih' : Load m k = none ↔ k ∉ List.map Prod.fst m := ih
    by_cases h : k1 = k
    · simp [Load, keys, h]
    · simp only [Load, h, if_false, keys, List.map_cons, List.mem_cons, ih']
      constructor
      · intro hn hc
        rcases hc with hc | hc
        · exact h hc.symm
        · exact hn hc
      · intro hn hc
        exact hn (Or.inr hc)

theorem Store_absent (m : GoMap K V) (k : K) (v : V) (h : k ∉ keys m) :
    Store m k v = m ++ [(k, v)] := by
  induction m with
  | nil => rfl
  | cons e m ih =>
    obtain ⟨k1, v1⟩ := e
    have h' : k ≠ k1 ∧ k ∉ keys m := by simpa [keys] using h
    simp only [Store, Ne.symm h'.1, if_false, List.cons_append, ih h'.2]

/-- Copying a map entry by entry into an empty map gives the same map, when no
key occurs twice. -/
theorem foldl_Store_eq : ∀ (l acc : GoMap K V), (keys (acc ++ l)).Nodup →
    l.foldl (fun m e => Store m e.1 e.2) acc = acc ++ l := by
  intro l
  induction l with
  | nil => intro acc _; simp
  | cons e l ih =>
    intro acc h
    have hk : e.1 ∉ keys acc := by
      intro hc
      have h2 : (List.map Prod.fst acc ++ e.1 :: List.map Prod.fst l).Nodup := by
        simpa [keys] using h
      have := (List.nodup_append.mp h2).2.2
      exact this hc (List.mem_cons_self _ _)
    have hs : Store acc e.1 e.2 = acc ++ [e] := Store_absent acc e.1 e.2 hk
    simp only [List.foldl_cons, hs]
    have h3 : (keys ((acc ++ [e]) ++ l)).Nodup := by simpa using h
    rw [ih (acc ++ [e]) h3]
    simp

end GoMap

/-! ## Peers of the gossiper -/

namespace Gossip

variable {E : Type}

theorem resolves_ok {R : String → Except String String} {a addr : String} (h : R a = .ok addr) :
    resolves R a = true := by
  simp [resolves, h]

theorem resolves_error {R : String → Except String String} {a err : String}
    (h : R a = .error err) : resolves R a = false := by
  simp [resolves, h]

/-- What `AddAddresses` does: no error exactly when every address resolves;
the nodes afterwards are those before and the addresses, other than the local
one, that come before the first one that does not resolve; nothing but the
nodes changes. -/
theorem AddAddresses_spec (R : String → Except String String) :
    ∀ (addrs : List String) (g : Gossiper E),
      ((AddAddresses R g addrs).2 = none ↔ ∀ a ∈ addrs, resolves R a = true) ∧
      (AddAddresses R g addrs).1 = { g with nodes := (AddAddresses R g addrs).1.nodes } ∧
      (∀ k, k ∈ GetNodes (AddAddresses R g addrs).1 ↔
        k ∈ GetNodes g ∨ (k ∈ addrs.takeWhile (resolves R) ∧ k ≠ g.address)) ∧
      ((GetNodes g).Nodup → (GetNodes (AddAddresses R g addrs).1).Nodup) := by
  intro addrs
  induction addrs with
  | nil =>
    intro g
    simp [AddAddresses]
  | cons a rest ih =>
    intro g
    cases h : R a with
    | error err =>
      have hr := resolves_error h
      simp [AddAddresses, h, hr]
    | ok addr =>
      have hr := resolves_ok h
      by_cases ha : a = g.address
      · obtain ⟨h1, h2, h3, h4⟩ := ih g
        have hstep : AddAddresses R g (a :: rest) = AddAddresses R g rest := by
          simp only [AddAddresses, h]
          simp [ha]
        rw [hstep]
        refine ⟨?_, h2, ?_, h4⟩
        · rw [h1]
          simp [hr]
        · intro k
          rw [h3 k]
          simp only [List.takeWhile_cons, hr, if_true, List.mem_cons]
          constructor
          · rintro (hk | ⟨hk, hne⟩)
            · exact Or.inl hk
            · exact Or.inr ⟨Or.inr hk, hne⟩
          · rintro (hk | ⟨hk | hk, hne⟩)
            · exact Or.inl hk
            · exact absurd (hk.trans ha) hne
            · exact Or.inr ⟨hk, hne⟩
      · obtain ⟨h1, h2, h3, h4⟩ := ih { g with nodes := GoMap.Store g.nodes a addr }
        have hstep : AddAddresses R g (a :: rest) =
            AddAddresses R { g with nodes := GoMap.Store g.nodes a addr } rest := by
          simp only [AddAddresses, h]
          simp [ha]
        rw [hstep]
        refine ⟨?_, ?_, ?_, ?_⟩
        · rw [h1]
          simp [hr]
        · rw [h2]
        · intro k
          rw [h3 k]
          have hmem : k ∈ GetNodes { g with nodes := GoMap.Store g.nodes a addr } ↔
              k = a ∨ k ∈ GetNodes g := GoMap.mem_keys_Store g.nodes a k addr
          rw [hmem]
          simp only [List.takeWhile_cons, hr, if_true, List.mem_cons]
          constructor
          · rintro ((hk | hk) | ⟨hk, hne⟩)
            · exact Or.inr ⟨Or.inl hk, by rw [hk]; exact ha⟩
            · exact Or.inl hk
            · exact Or.inr ⟨Or.inr hk, hne⟩
          · rintro (hk | ⟨hk | hk, hne⟩)
            · exact Or.inl (Or.inr hk)
            · exact Or.inl (Or.inl hk)
            · exact Or.inr ⟨hk, hne⟩
        · intro hn
          exact h4 (GoMap.nodup_keys_Store g.nodes a addr hn)

/-- A sequence of `AddAddresses` calls: the local address stays what it is, the
nodes afterwards are those before and the addresses each batch registers, and
no node comes twice when none came twice before. -/
theorem addBatches_spec (R : String → Except String String) :
    ∀ (batches : List (List String)) (g : Gossiper E),
      (addBatches R g batches).address = g.address ∧
      (∀ k, k ∈ GetNodes (addBatches R g batches) ↔
        k ∈ GetNodes g ∨
          ∃ batch ∈ batches, k ∈ batch.takeWhile (resolves R) ∧ k ≠ g.address) ∧
      ((GetNodes g).Nodup → (GetNodes (addBatches R g batches)).Nodup) := by
  intro batches
  induction batches with
  | nil =>
    intro g
    simp [addBatches]
  | cons batch rest ih =>
    intro g
    obtain ⟨_, hframe, hmem, hnodup⟩ := AddAddresses_spec R batch g
    obtain ⟨h1, h2, h3⟩ := ih (AddAddresses R g batch).1
    have haddr : (AddAddresses R g batch).1.address = g.address := by rw [hframe]
    refine ⟨?_, ?_, ?_⟩
    · show (addBatches R (AddAddresses R g batch).1 rest).address = g.address
      rw [h1, haddr]
    · intro k
      show k ∈ GetNodes (addBatches R (AddAddresses R g batch).1 rest) ↔ _
      rw [h2 k, hmem k, haddr]
      simp only [List.mem_cons, exists_eq_or_imp]
      tauto
    · intro hn
      exact h3 (hnodup hn)

/-- The local address alone, when it resolves: no error, nothing changes. -/
theorem AddAddresses_local (R : String → Except String String) (g : Gossiper E)
    (hlocal : resolves R g.address = true) :
    AddAddresses R g [GetLocalAddr g] = (g, none) := by
  cases hr : R g.address with
  | ok addr =>
    show AddAddresses R g [g.address] = (g, none)
    simp only [AddAddresses, hr]
    simp
  | error err =>
    rw [resolves_error hr] at hlocal
    exact absurd hlocal (by simp)

/-- C13: for every batch of addresses, `AddAddresses` returns an error if and
only if some address of the batch does not resolve; the nodes afterwards are
the nodes before together with the addresses, other than the local address,
that come before the first address that does not resolve (all of them when
every address resolves), so that nothing at or after that address is added;
and nothing but the nodes is changed. -/
theorem add_addresses_cut_off (R : String → Except String String) (g : Gossiper E)
    (addrs : List String) :
    ((AddAddresses R g addrs).2 ≠ none ↔ ∃ a ∈ addrs, ∃ err, R a = .error err) ∧
      (∀ k, k ∈ GetNodes (AddAddresses R g addrs).1 ↔
        k ∈ GetNodes g ∨ (k ∈ addrs.takeWhile (resolves R) ∧ k ≠ GetLocalAddr g)) ∧
      (AddAddresses R g addrs).1 = { g with nodes := (AddAddresses R g addrs).1.nodes } := by
  obtain ⟨herr, hframe, hmem, _⟩ := AddAddresses_spec R addrs g
  refine ⟨?_, hmem, hframe⟩
  rw [Ne, herr]
  constructor
  · intro h
    by_contra hc
    apply h
    intro a ha
    cases hr : R a with
    | ok addr => exact resolves_ok hr
    | error err => exact absurd ⟨a, ha, err, hr⟩ hc
  · rintro ⟨a, ha, err, hr⟩ hall
    have h1 := hall a ha
    rw [resolves_error hr] at h1
    exact absurd h1 (by simp)

/-- C14: when the local address resolves, `AddAddresses` given the local
address (as `GetLocalAddr` returns it) reports no error and leaves the
gossiper as it is; and after any sequence of `AddAddresses` calls on a fresh
gossiper, the list that `GetNodes` returns does not contain the local address,
contains no address twice, and contains exactly the addresses, other than the
local one, that came in some batch before the first address of that batch
that did not resolve. -/
theorem local_address_never_peer (R : String → Except String String)
    (address identifier : String) (antiEntropy routeTimer : Int) (batches : List (List String))
    (hlocal : resolves R address = true) :
    AddAddresses R
        (addBatches R (NewGossiper address identifier antiEntropy routeTimer : Gossiper E) batches)
        [GetLocalAddr
          (addBatches R (NewGossiper address identifier antiEntropy routeTimer : Gossiper E)
            batches)] =
        (addBatches R (NewGossiper address identifier antiEntropy routeTimer) batches, none) ∧
      GetLocalAddr (addBatches R (NewGossiper address identifier antiEntropy routeTimer :
          Gossiper E) batches) ∉
        GetNodes (addBatches R (NewGossiper address identifier antiEntropy routeTimer :
          Gossiper E) batches) ∧
      (GetNodes (addBatches R (NewGossiper address identifier antiEntropy routeTimer :
          Gossiper E) batches)).Nodup ∧
      ∀ a, a ∈ GetNodes (addBatches R (NewGossiper address identifier antiEntropy routeTimer :
          Gossiper E) batches) ↔
        ∃ batch ∈ batches, a ∈ batch.takeWhile (resolves R) ∧ a ≠ address := by
  obtain ⟨haddr, hmem, hnodup⟩ := addBatches_spec R batches
    (NewGossiper address identifier antiEntropy routeTimer : Gossiper E)
  have haddr' : GetLocalAddr (addBatches R
      (NewGossiper address identifier antiEntropy routeTimer : Gossiper E) batches) = address :=
    haddr
  have hfresh : GetNodes (NewGossiper address identifier antiEntropy routeTimer : Gossiper E) =
      [] := rfl
  have hmem' : ∀ a, a ∈ GetNodes (addBatches R
      (NewGossiper address identifier antiEntropy routeTimer : Gossiper E) batches) ↔
      ∃ batch ∈ batches, a ∈ batch.takeWhile (resolves R) ∧ a ≠ address := by
    intro a
    rw [hmem a, hfresh]
    simp [NewGossiper]
  refine ⟨?_, ?_, ?_, hmem'⟩
  · exact AddAddresses_local R _ (by rw [haddr]; exact hlocal)
  · rw [haddr', hmem' address]
    rintro ⟨batch, _, _, hne⟩
    exact hne rfl
  · exact hnodup (by rw [hfresh]; exact List.nodup_nil)

/-- C14, a concrete run: two batches, the first with the local address in it,
the second cut off by an address that does not resolve. -/
theorem local_address_never_peer_witness :
    GetLocalAddr (addBatches (fun a => if a = "bad" then .error "missing port" else .ok a)
        (NewGossiper "127.0.0.1:5000" "A" 10 0 : Gossiper Unit)
        [["10.0.0.1:1", "127.0.0.1:5000"], ["10.0.0.2:1", "bad", "10.0.0.3:1"]]) ∉
      GetNodes (addBatches (fun a => if a = "bad" then .error "missing port" else .ok a)
        (NewGossiper "127.0.0.1:5000" "A" 10 0 : Gossiper Unit)
        [["10.0.0.1:1", "127.0.0.1:5000"], ["10.0.0.2:1", "bad", "10.0.0.3:1"]]) ∧
      (GetNodes (addBatches (fun a => if a = "bad" then .error "missing port" else .ok a)
        (NewGossiper "127.0.0.1:5000" "A" 10 0 : Gossiper Unit)
        [["10.0.0.1:1", "127.0.0.1:5000"], ["10.0.0.2:1", "bad", "10.0.0.3:1"]])).Nodup :=
  have h := local_address_never_peer (E := Unit)
    (fun a => if a = "bad" then .error "missing port" else .ok a)
    "127.0.0.1:5000" "A" 10 0 [["10.0.0.1:1", "127.0.0.1:5000"], ["10.0.0.2:1", "bad", "10.0.0.3:1"]]
    (by decide)
  ⟨h.2.1, h.2.2.1⟩

/-- C19: for every peer set, every list of excluded addresses and every
outcome of the random choice, `RandomAddress` returns an error if and only if
every known node is among the excluded addresses (in particular when there is
no node); otherwise it returns an address, and any address it returns is a
known node that is not among the excluded addresses. -/
theorem random_address_excludes (random : Nat) (g : Gossiper E) (exceptAddresses : List String) :
    ((∃ err, RandomAddress random g exceptAddresses = .error err) ↔
        ∀ n ∈ GetNodes g, n ∈ exceptAddresses) ∧
      ((¬ ∀ n ∈ GetNodes g, n ∈ exceptAddresses) →
        ∃ a, RandomAddress random g exceptAddresses = .ok a) ∧
      ∀ a, RandomAddress random g exceptAddresses = .ok a →
        a ∈ GetNodes g ∧ a ∉ exceptAddresses := by
  have hnil : (GoMap.keys g.nodes).filter (fun n => !exceptAddresses.contains n) = [] ↔
      ∀ n ∈ GetNodes g, n ∈ exceptAddresses := by
    rw [List.filter_eq_nil_iff]
    simp [GetNodes]
  by_cases hempty : (GoMap.keys g.nodes).filter (fun n => !exceptAddresses.contains n) = []
  · have hres : RandomAddress random g exceptAddresses = .error "No other known hosts" := by
      simp only [RandomAddress]
      rw [hempty]
      rfl
    rw [hres]
    refine ⟨⟨fun _ => hnil.mp hempty, fun _ => ⟨_, rfl⟩⟩, fun h => absurd (hnil.mp hempty) h, ?_⟩
    intro a ha
    simp at ha
  · have hpos : 0 < ((GoMap.keys g.nodes).filter
        (fun n => !exceptAddresses.contains n)).length := by
      rcases Nat.eq_zero_or_pos ((GoMap.keys g.nodes).filter
        (fun n => !exceptAddresses.contains n)).length with h0 | h0
      · exact absurd (List.length_eq_zero.mp h0) hempty
      · exact h0
    have hlt := Nat.mod_lt random hpos
    have hres : RandomAddress random g exceptAddresses =
        .ok (((GoMap.keys g.nodes).filter (fun n => !exceptAddresses.contains n)).getD
          (random % ((GoMap.keys g.nodes).filter
            (fun n => !exceptAddresses.contains n)).length) "") := by
      simp only [RandomAddress]
      rw [if_neg (by omega)]
    have hin := List.getElem_mem hlt
    rw [← List.getD_eq_getElem _ "" hlt] at hin
    have hprop := List.mem_filter.mp hin
    rw [hres]
    refine ⟨⟨fun h => ?_, fun h => absurd (hnil.mpr h) hempty⟩, fun _ => ⟨_, rfl⟩, ?_⟩
    · obtain ⟨err, he⟩ := h
      simp at he
    · intro a ha
      simp only [Except.ok.injEq] at ha
      rw [← ha]
      refine ⟨hprop.1, ?_⟩
      have := hprop.2
      simpa using this

/-! ## Routing table and timers -/

/-- No destination comes twice in the routes and no route goes through the
local address. -/
theorem updateRoute_keeps (g : Gossiper E) (destination nextHop : String) (lastID : Nat)
    (flag : Bool) (hn : (GoMap.keys g.routes).Nodup)
    (hl : ∀ d r, GoMap.Load g.routes d = some r → r.NextHop ≠ g.address) :
    (updateRoute g destination nextHop lastID flag).address = g.address ∧
      (GoMap.keys (updateRoute g destination nextHop lastID flag).routes).Nodup ∧
      ∀ d r, GoMap.Load (updateRoute g destination nextHop lastID flag).routes d = some r →
        r.NextHop ≠ g.address := by
  by_cases ha : g.address = nextHop
  · have h : updateRoute g destination nextHop lastID flag = g := by simp [updateRoute, ha]
    rw [h]
    exact ⟨rfl, hn, hl⟩
  · cases hd : GoMap.Load g.routes destination with
    | some route =>
      rw [updateRoute_known g destination nextHop lastID flag route hd]
      exact ⟨rfl, hn, hl⟩
    | none =>
      have h : updateRoute g destination nextHop lastID flag =
          { g with routes := GoMap.Store (GoMap.Store g.routes destination ⟨nextHop, lastID⟩)
                               destination ⟨nextHop, lastID⟩ } := by
        simp [updateRoute, GoMap.LoadOrStore, ha, hd]
      rw [h]
      refine ⟨rfl, GoMap.nodup_keys_Store _ _ _ (GoMap.nodup_keys_Store _ _ _ hn), ?_⟩
      intro d r hr
      simp only [GoMap.Load_Store] at hr
      by_cases hdd : d = destination
      · simp only [hdd, if_true, Option.some.injEq] at hr
        rw [← hr]
        exact fun hc => ha hc.symm
      · simp only [hdd, if_false] at hr
        exact hl d r hr

theorem routeAll_keeps : ∀ (calls : List RouteCall) (g : Gossiper E),
    (GoMap.keys g.routes).Nodup →
    (∀ d r, GoMap.Load g.routes d = some r → r.NextHop ≠ g.address) →
    (routeAll g calls).address = g.address ∧ (GoMap.keys (routeAll g calls).routes).Nodup ∧
      ∀ d r, GoMap.Load (routeAll g calls).routes d = some r → r.NextHop ≠ g.address := by
  intro calls
  induction calls with
  | nil => intro g hn hl; exact ⟨rfl, hn, hl⟩
  | cons call rest ih =>
    intro g hn hl
    cases call with
    | update destination nextHop lastID flag =>
      obtain ⟨h1, h2, h3⟩ := updateRoute_keeps g destination nextHop lastID flag hn hl
      obtain ⟨h4, h5, h6⟩ := ih (updateRoute g destination nextHop lastID flag) h2
        (by rw [h1]; exact h3)
      rw [h1] at h4 h6
      exact ⟨h4, h5, h6⟩
    | add peerName nextHop =>
      obtain ⟨h1, h2, h3⟩ := updateRoute_keeps g peerName nextHop 0 true hn hl
      obtain ⟨h4, h5, h6⟩ := ih (updateRoute g peerName nextHop 0 true) h2
        (by rw [h1]; exact h3)
      rw [h1] at h4 h6
      exact ⟨h4, h5, h6⟩

theorem GetRoutingTable_eq (g : Gossiper E) (hn : (GoMap.keys g.routes).Nodup) :
    GetRoutingTable g = g.routes := by
  have h := GoMap.foldl_Store_eq g.routes [] (by simpa using hn)
  simpa [GetRoutingTable] using h

/-- C15: in every state reached from a fresh gossiper by `updateRoute` and
`AddRoute` calls with arbitrary arguments, the table that `GetRoutingTable`
returns (a copy of the routes) has no destination twice and no entry whose
`NextHop` is the local address; and in any state a call of `updateRoute` or
`AddRoute` whose next hop is the local address leaves the gossiper, and so
the table, as it is. -/
theorem routing_table_invariant (address identifier : String) (antiEntropy routeTimer : Int)
    (calls : List RouteCall) :
    (GoMap.keys (GetRoutingTable (routeAll
        (NewGossiper address identifier antiEntropy routeTimer : Gossiper E) calls))).Nodup ∧
      (∀ d r, GoMap.Load (GetRoutingTable (routeAll
          (NewGossiper address identifier antiEntropy routeTimer : Gossiper E) calls)) d = some r →
        r.NextHop ≠ GetLocalAddr (routeAll
          (NewGossiper address identifier antiEntropy routeTimer : Gossiper E) calls)) ∧
      GetRoutingTable (routeAll
          (NewGossiper address identifier antiEntropy routeTimer : Gossiper E) calls) =
        (routeAll (NewGossiper address identifier antiEntropy routeTimer : Gossiper E)
          calls).routes ∧
      ∀ (g : Gossiper E) (destination : String) (lastID : Nat) (flag : Bool),
        updateRoute g destination (GetLocalAddr g) lastID flag = g ∧
          AddRoute g destination (GetLocalAddr g) = g := by
  obtain ⟨h1, h2, h3⟩ := routeAll_keeps calls
    (NewGossiper address identifier antiEntropy routeTimer : Gossiper E)
    (by simp [NewGossiper, GoMap.keys])
    (by intro d r h; simp [NewGossiper, GoMap.Load] at h)
  have heq := GetRoutingTable_eq _ h2
  refine ⟨by rw [heq]; exact h2, ?_, heq, ?_⟩
  · intro d r hr
    rw [heq] at hr
    show r.NextHop ≠ (routeAll _ calls).address
    rw [h1]
    exact h3 d r hr
  · intro g destination lastID flag
    constructor
    · simp [updateRoute, GetLocalAddr]
    · simp [AddRoute, updateRoute, GetLocalAddr]

/-- C17, the code at the failing input: on a fresh gossiper, after
`AddRoute("p", "10.0.0.1:1")` the call `AddRoute("p", "10.0.0.2:1")` leaves
the routing table with the first next hop for `p`, not the one just given. -/
theorem add_route_keeps_first_hop :
    GoMap.Load (GetRoutingTable
        (AddRoute (AddRoute freshExample "p" "10.0.0.1:1") "p" "10.0.0.2:1")) "p" =
      some { NextHop := "10.0.0.1:1", LastID := 0 } := by
  decide

/-- C16 (as amended): `NewGossiper` stores 10 as the anti-entropy interval
when it is given 0 or a negative number, and `Run` then starts the
anti-entropy ticker with a period of 10 seconds; it stores a positive number
as it is given, and for a positive number of at most 9223372036 seconds (the
most that `time.Second * time.Duration(g.antiEntropy)` holds without
overflow) `Run` starts the ticker with exactly that many seconds as its
period. Whatever number is given, the ticker is never left off; for
9223372037 seconds the product overflows to a negative duration and
`time.NewTicker` panics. -/
theorem anti_entropy_default (address identifier : String) (antiEntropy routeTimer : Int) :
    (antiEntropy ≤ 0 →
        (NewGossiper address identifier antiEntropy routeTimer : Gossiper E).antiEntropy = 10 ∧
        antiEntropyTicker (NewGossiper address identifier antiEntropy routeTimer : Gossiper E) =
          .every (10 * Second)) ∧
      (0 < antiEntropy →
        (NewGossiper address identifier antiEntropy routeTimer : Gossiper E).antiEntropy =
          antiEntropy) ∧
      (0 < antiEntropy → antiEntropy ≤ 9223372036 →
        antiEntropyTicker (NewGossiper address identifier antiEntropy routeTimer : Gossiper E) =
          .every (antiEntropy * Second)) ∧
      antiEntropyTicker (NewGossiper address identifier antiEntropy routeTimer : Gossiper E) ≠
        .off ∧
      antiEntropyTicker (NewGossiper address identifier 9223372037 routeTimer : Gossiper E) =
        .panics := by
  refine ⟨?_, ?_, ?_, ?_, ?_⟩
  · intro h
    refine ⟨by simp [NewGossiper, h], ?_⟩
    simp only [antiEntropyTicker, NewGossiper, h, if_true]
    decide
  · intro h
    have hn : ¬ antiEntropy ≤ 0 := by omega
    simp [NewGossiper, hn]
  · intro h hle
    have hn : ¬ antiEntropy ≤ 0 := by omega
    have hw : int64 (Second * antiEntropy) = antiEntropy * Second := by
      unfold int64 Second
      omega
    have hpos : ¬ antiEntropy * Second ≤ 0 := by
      unfold Second
      omega
    simp only [antiEntropyTicker, NewGossiper, hn, if_false, gt_iff_lt, h, if_true, hw, NewTicker,
      hpos]
  · have hstored : (NewGossiper address identifier antiEntropy routeTimer : Gossiper E).antiEntropy
        > 0 := by
      by_cases h : antiEntropy ≤ 0
      · simp [NewGossiper, h]
      · simp only [NewGossiper, h, if_false]
        omega
    simp only [antiEntropyTicker, hstored, if_true, NewTicker]
    split <;> simp
  · simp only [antiEntropyTicker, NewGossiper]
    decide

/-- C16, concrete intervals: 30 is stored as 30 and gives a ticker of 30
seconds; -5 is stored as 10 and gives a ticker of 10 seconds. -/
theorem anti_entropy_default_witness :
    (NewGossiper "127.0.0.1:5000" "A" 30 0 : Gossiper Unit).antiEntropy = 30 ∧
      antiEntropyTicker (NewGossiper "127.0.0.1:5000" "A" 30 0 : Gossiper Unit) =
        .every (30 * Second) ∧
      (NewGossiper "127.0.0.1:5000" "A" (-5) 0 : Gossiper Unit).antiEntropy = 10 ∧
      antiEntropyTicker (NewGossiper "127.0.0.1:5000" "A" (-5) 0 : Gossiper Unit) =
        .every (10 * Second) :=
  ⟨(anti_entropy_default "127.0.0.1:5000" "A" 30 0).2.1 (by decide),
    (anti_entropy_default "127.0.0.1:5000" "A" 30 0).2.2.1 (by decide) (by decide),
    ((anti_entropy_default "127.0.0.1:5000" "A" (-5) 0).1 (by decide)).1,
    ((anti_entropy_default "127.0.0.1:5000" "A" (-5) 0).1 (by decide)).2⟩

/-- C16 fails as it is stated: a gossiper created with `antiEntropy = 0` has 10
as its stored interval, not 0, and `Run` starts the anti-entropy ticker for it,
with a period of 10 seconds. -/
theorem anti_entropy_zero_runs :
    (NewGossiper "127.0.0.1:5000" "A" 0 0 : Gossiper Unit).antiEntropy = 10 ∧
      antiEntropyTicker (NewGossiper "127.0.0.1:5000" "A" 0 0 : Gossiper Unit) =
        .every 10000000000 ∧
      antiEntropyTicker (NewGossiper "127.0.0.1:5000" "A" 0 0 : Gossiper Unit) ≠ .off := by
  decide

/-! ## Copy of a packet -/

/-- C20: when `ExtraMessage.Copy` gives back an equal payload, the copy of a
packet is equal to the packet: each of `Rumor`, `Status` and `Private` is set
in the copy exactly when it is set in the packet, and every field of a
variant that is set has the same value (for the rumor `Origin`, `ID`, `Text`
and `Extra`; for the status the `Want` list; for the private message
`Origin`, `ID`, `Destination`, `HopLimit` and both fields of `Data`). The
status and the private message are copied so whatever `ExtraMessage.Copy`
does. -/
theorem copy_is_faithful {L : Type} (copyExtra : E → E) (hcopy : ∀ e, copyExtra e = e)
    (p : GossipPacket E L) :
    GossipPacket.Copy copyExtra p = p ∧
      ((GossipPacket.Copy copyExtra p).Rumor = none ↔ p.Rumor = none) ∧
      ((GossipPacket.Copy copyExtra p).Status = none ↔ p.Status = none) ∧
      ((GossipPacket.Copy copyExtra p).Private = none ↔ p.Private = none) := by
  have heq : GossipPacket.Copy copyExtra p = p := by
    obtain ⟨rumor, status, priv⟩ := p
    have hr : (match rumor with
        | none => none
        | some r => some { Origin := r.Origin, ID := r.ID, Text := r.Text,
                           Extra := match r.Extra with
                             | none => none
                             | some extra => some (copyExtra extra) }) = rumor := by
      cases rumor with
      | none => rfl
      | some r =>
        obtain ⟨o, i, t, e⟩ := r
        cases e with
        | none => rfl
        | some e => simp [hcopy]
    have hs : (match status with
        | none => none
        | some s => some ({ Want := [] ++ s.Want } : StatusPacket)) = status := by
      cases status with
      | none => rfl
      | some s => rfl
    have hp : (match priv with
        | none => none
        | some q => some ({ Destination := q.Destination, HopLimit := q.HopLimit, ID := q.ID,
                            Origin := q.Origin,
                            Data := { Location := q.Data.Location, DroneID := q.Data.DroneID } } :
                          PrivateMessage L)) = priv := by
      cases priv with
      | none => rfl
      | some q => rfl
    simp only [GossipPacket.Copy, hr, hs, hp]
  rw [heq]
  exact ⟨rfl, Iff.rfl, Iff.rfl, Iff.rfl⟩

/-- C20, a concrete packet: a rumor with a payload. -/
theorem copy_is_faithful_witness :
    GossipPacket.Copy (fun e : Nat => e)
        ({ Rumor := some ⟨"A", 3, "hello", some 7⟩, Status := none, Private := none } :
          GossipPacket Nat Unit) =
      { Rumor := some ⟨"A", 3, "hello", some 7⟩, Status := none, Private := none } :=
  (copy_is_faithful (fun e : Nat => e) (fun _ => rfl) _).1

end Gossip

/-! ## Snapshots of the block log and pending proposals -/

/-- Storing a block under its key keeps every block under its key and makes
the block the stored tail. -/
theorem hashKeyed_store {B : Type} (key : B → String) (blocks : GoMap String B)
    (tail : Option B) (block : B) (h : HashKeyed key blocks tail) :
    HashKeyed key (GoMap.Store blocks (key block) block) (some block) := by
  refine ⟨?_, GoMap.Load_Store_self _ _ _⟩
  intro k b hb
  rw [GoMap.Load_Store] at hb
  by_cases hk : k = key block
  · simp only [hk, if_true, Option.some.injEq] at hb
    rw [hk, hb]
  · simp only [hk, if_false] at hb
    exact h.1 k b hb

namespace Paxos

variable {T M C : Type}

theorem paxos_exec_keyed (env : Env T M C) : ∀ (calls : List (Call M C)) (b : BlockChain T C),
    HashKeyed (fun c => hex.EncodeToString (env.Hash c.Block)) b.blocks b.tail →
    HashKeyed (fun c => hex.EncodeToString (env.Hash c.Block)) (exec env b calls).blocks
      (exec env b calls).tail := by
  intro calls
  induction calls with
  | nil => intro b h; exact h
  | cons call rest ih =>
    intro b h
    cases call with
    | propose blockContent => exact ih (Propose env b blockContent) h
    | handle msg =>
      cases hr : env.tlcHandleExtraMessage b.tlc msg with
      | mk tlc out =>
        cases out with
        | none =>
          simp only [exec]
          rw [paxos_handle_none env b msg tlc hr]
          exact ih _ h
        | some block =>
          simp only [exec]
          rw [paxos_handle_some env b msg tlc block hr]
          exact ih _ (hashKeyed_store _ b.blocks b.tail block h)

end Paxos

namespace Gossip

variable {T M : Type}

theorem gossip_exec_keyed (env : Env T M) : ∀ (calls : List (Call M)) (b : BlockChain T),
    HashKeyed (fun c => hex.EncodeToString (env.Hash c)) b.blocks b.tail →
    HashKeyed (fun c => hex.EncodeToString (env.Hash c)) (exec env b calls).blocks
      (exec env b calls).tail := by
  intro calls
  induction calls with
  | nil => intro b h; exact h
  | cons call rest ih =>
    intro b h
    cases call with
    | propose metahash filename => exact ih (propose env b metahash filename) h
    | handle msg =>
      cases hr : env.tlcHandleExtraMessage b.tlc msg with
      | mk tlc out =>
        cases out with
        | none =>
          simp only [exec]
          rw [gossip_handle_none env b msg tlc hr]
          exact ih _ h
        | some block =>
          simp only [exec]
          rw [gossip_handle_some env b msg tlc block hr]
          exact ih _ (hashKeyed_store _ b.blocks b.tail block h)

end Gossip

theorem hex_zero_hash :
    hex.EncodeToString (List.replicate 32 0) = String.mk (List.replicate 64 '0') := by
  decide

/-- C12: in every state of the block log reached from `NewBlockchain` by
`Propose` and `HandleExtraMessage` calls, whatever blocks the round hands
back: without a tail `GetBlocks` returns the hexadecimal form of 32 zero
bytes (64 characters `0`) and an empty block map; with a tail `T` it returns
`hex(T.Hash())`, which is a key of the returned map, with `T` stored under it;
every key of the returned map is the hexadecimal hash of the block stored
under it; and the returned map is the map of the block log, which `GetBlocks`,
a function of the block log alone, leaves as it is. For `paxos/blockchain.go`
and for `gossip/blockchain.go`. -/
theorem get_blocks_snapshot :
    (∀ (T M C : Type) (env : Paxos.Env T M C) (numParticipant nodeIndex paxosRetry : Int)
        (blockFactory : Paxos.BlockFactory C) (calls : List (Paxos.Call M C)),
        ((Paxos.exec env (Paxos.NewBlockchain env numParticipant nodeIndex paxosRetry
              blockFactory) calls).tail = none →
          Paxos.GetBlocks env (Paxos.exec env (Paxos.NewBlockchain env numParticipant nodeIndex
              paxosRetry blockFactory) calls) = (String.mk (List.replicate 64 '0'), [])) ∧
        (∀ tail, (Paxos.exec env (Paxos.NewBlockchain env numParticipant nodeIndex paxosRetry
              blockFactory) calls).tail = some tail →
          (Paxos.GetBlocks env (Paxos.exec env (Paxos.NewBlockchain env numParticipant nodeIndex
              paxosRetry blockFactory) calls)).1 = hex.EncodeToString (env.Hash tail.Block) ∧
          GoMap.Load (Paxos.GetBlocks env (Paxos.exec env (Paxos.NewBlockchain env
              numParticipant nodeIndex paxosRetry blockFactory) calls)).2
            (hex.EncodeToString (env.Hash tail.Block)) = some tail) ∧
        (∀ key block, GoMap.Load (Paxos.GetBlocks env (Paxos.exec env (Paxos.NewBlockchain env
              numParticipant nodeIndex paxosRetry blockFactory) calls)).2 key = some block →
          key = hex.EncodeToString (env.Hash block.Block)) ∧
        (Paxos.GetBlocks env (Paxos.exec env (Paxos.NewBlockchain env numParticipant nodeIndex
              paxosRetry blockFactory) calls)).2 =
          (Paxos.exec env (Paxos.NewBlockchain env numParticipant nodeIndex paxosRetry
              blockFactory) calls).blocks) ∧
      ∀ (T M : Type) (env : Gossip.Env T M) (numParticipant nodeIndex paxosRetry : Int)
        (calls : List (Gossip.Call M)),
        ((Gossip.exec env (Gossip.NewBlockchain env numParticipant nodeIndex paxosRetry)
              calls).tail = none →
          Gossip.GetBlocks env (Gossip.exec env (Gossip.NewBlockchain env numParticipant
              nodeIndex paxosRetry) calls) = (String.mk (List.replicate 64 '0'), [])) ∧
        (∀ tail, (Gossip.exec env (Gossip.NewBlockchain env numParticipant nodeIndex paxosRetry)
              calls).tail = some tail →
          (Gossip.GetBlocks env (Gossip.exec env (Gossip.NewBlockchain env numParticipant
              nodeIndex paxosRetry) calls)).1 = hex.EncodeToString (env.Hash tail) ∧
          GoMap.Load (Gossip.GetBlocks env (Gossip.exec env (Gossip.NewBlockchain env
              numParticipant nodeIndex paxosRetry) calls)).2
            (hex.EncodeToString (env.Hash tail)) = some tail) ∧
        (∀ key block, GoMap.Load (Gossip.GetBlocks env (Gossip.exec env (Gossip.NewBlockchain
              env numParticipant nodeIndex paxosRetry) calls)).2 key = some block →
          key = hex.EncodeToString (env.Hash block)) ∧
        (Gossip.GetBlocks env (Gossip.exec env (Gossip.NewBlockchain env numParticipant
              nodeIndex paxosRetry) calls)).2 =
          (Gossip.exec env (Gossip.NewBlockchain env numParticipant nodeIndex paxosRetry)
              calls).blocks := by
  constructor
  · intro T M C env numParticipant nodeIndex paxosRetry blockFactory calls
    have hk := Paxos.paxos_exec_keyed env calls
      (Paxos.NewBlockchain env numParticipant nodeIndex paxosRetry blockFactory)
      ⟨fun k b h => by simp [Paxos.NewBlockchain, GoMap.Load] at h, rfl⟩
    generalize Paxos.exec env
      (Paxos.NewBlockchain env numParticipant nodeIndex paxosRetry blockFactory) calls = b at hk
    obtain ⟨hkey, htail⟩ := hk
    have hmap : (Paxos.GetBlocks env b).2 = b.blocks := by
      unfold Paxos.GetBlocks
      cases b.tail <;> rfl
    refine ⟨?_, ?_, ?_, hmap⟩
    · intro hnone
      rw [hnone] at htail
      have hb : b.blocks = [] := htail
      simp only [Paxos.GetBlocks, hnone, hb, hex_zero_hash]
    · intro tail hsome
      rw [hsome] at htail
      rw [hmap]
      exact ⟨by simp only [Paxos.GetBlocks, hsome], htail⟩
    · intro key block h
      rw [hmap] at h
      exact hkey key block h
  · intro T M env numParticipant nodeIndex paxosRetry calls
    have hk := Gossip.gossip_exec_keyed env calls
      (Gossip.NewBlockchain env numParticipant nodeIndex paxosRetry)
      ⟨fun k b h => by simp [Gossip.NewBlockchain, GoMap.Load] at h, rfl⟩
    generalize Gossip.exec env
      (Gossip.NewBlockchain env numParticipant nodeIndex paxosRetry) calls = b at hk
    obtain ⟨hkey, htail⟩ := hk
    have hmap : (Gossip.GetBlocks env b).2 = b.blocks := by
      unfold Gossip.GetBlocks
      cases b.tail <;> rfl
    refine ⟨?_, ?_, ?_, hmap⟩
    · intro hnone
      rw [hnone] at htail
      have hb : b.blocks = [] := htail
      simp only [Gossip.GetBlocks, hnone, hb, hex_zero_hash]
    · intro tail hsome
      rw [hsome] at htail
      rw [hmap]
      exact ⟨by simp only [Gossip.GetBlocks, hsome], htail⟩
    · intro key block h
      rw [hmap] at h
      exact hkey key block h

/-- C12, a concrete chain of `gossip/blockchain.go`: after the commit of block
0, whose hash is the byte 0, `GetBlocks` returns `"00"` and the block is
stored under that key. -/
theorem get_blocks_snapshot_witness :
    (Gossip.GetBlocks Gossip.echoEnv (Gossip.exec Gossip.echoEnv
        (Gossip.NewBlockchain Gossip.echoEnv 3 0 1)
        [.handle (some ⟨0, List.replicate 32 0, "a", [1]⟩)])).1 = "00" ∧
      GoMap.Load (Gossip.GetBlocks Gossip.echoEnv (Gossip.exec Gossip.echoEnv
        (Gossip.NewBlockchain Gossip.echoEnv 3 0 1)
        [.handle (some ⟨0, List.replicate 32 0, "a", [1]⟩)])).2 "00" =
        some ⟨0, List.replicate 32 0, "a", [1]⟩ :=
  (get_blocks_snapshot.2 Unit (Option Gossip.Block) Gossip.echoEnv 3 0 1
    [.handle (some ⟨0, List.replicate 32 0, "a", [1]⟩)]).2.1
    ⟨0, List.replicate 32 0, "a", [1]⟩ rfl

/-- C11 (as amended): `Propose` returns nothing and looks at no pending round.
Every call hands the round the block for the current end of the chain and
changes neither the tail nor the block map; a second call made before any
commit hands the round a second block for the same position (the proposal is
built from the same tail), after the first one. For `paxos/blockchain.go` and
for `gossip/blockchain.go`. -/
theorem propose_is_passed_on :
    (∀ (T M C : Type) (env : Paxos.Env T M C) (b : Paxos.BlockChain T C) (first second : C),
        (Paxos.Propose env b first).tail = b.tail ∧
        (Paxos.Propose env b first).blocks = b.blocks ∧
        Paxos.proposal env (Paxos.Propose env b first) second = Paxos.proposal env b second ∧
        (Paxos.Propose env (Paxos.Propose env b first) second).tlc =
          env.tlcPropose (env.tlcPropose b.tlc (Paxos.proposal env b first))
            (Paxos.proposal env b second)) ∧
      ∀ (T M : Type) (env : Gossip.Env T M) (b : Gossip.BlockChain T)
        (metahash1 metahash2 : List Nat) (filename1 filename2 : String),
        (Gossip.propose env b metahash1 filename1).tail = b.tail ∧
        (Gossip.propose env b metahash1 filename1).blocks = b.blocks ∧
        Gossip.proposal env (Gossip.propose env b metahash1 filename1) metahash2 filename2 =
          Gossip.proposal env b metahash2 filename2 ∧
        (Gossip.propose env (Gossip.propose env b metahash1 filename1) metahash2 filename2).tlc =
          env.tlcPropose (env.tlcPropose b.tlc (Gossip.proposal env b metahash1 filename1))
            (Gossip.proposal env b metahash2 filename2) := by
  constructor
  · intro T M C env b first second
    exact ⟨rfl, rfl, rfl, rfl⟩
  · intro T M env b metahash1 metahash2 filename1 filename2
    exact ⟨rfl, rfl, rfl, rfl⟩

/-- C11, a concrete run of `gossip/blockchain.go` with a round that keeps what
it is handed: after two calls of `propose` on a fresh block log the round
holds two blocks numbered 0. -/
theorem propose_is_passed_on_witness :
    (Gossip.propose Gossip.recordEnv
        (Gossip.propose Gossip.recordEnv (Gossip.NewBlockchain Gossip.recordEnv 3 0 1) [1] "a")
        [2] "b").tlc =
      [⟨0, List.replicate 32 0, "a", [1]⟩, ⟨0, List.replicate 32 0, "b", [2]⟩] :=
  (propose_is_passed_on.2 (List Gossip.Block) (Option Gossip.Block) Gossip.recordEnv
    (Gossip.NewBlockchain Gossip.recordEnv 3 0 1) [1] [2] "a" "b").2.2.2

/-- C11 fails as it is stated: with a round that keeps every block it is
handed, a second `Propose` made right after a first one, before any commit,
is not turned down: it changes the round, which then holds both blocks. For
`paxos/blockchain.go` and for `gossip/blockchain.go`. -/
theorem second_propose_reaches_round :
    (Paxos.Propose Paxos.recordEnv
        (Paxos.Propose Paxos.recordEnv
          (Paxos.NewBlockchain Paxos.recordEnv 3 0 1 (Paxos.specFactory Nat)) 7) 8).tlc ≠
      (Paxos.Propose Paxos.recordEnv
          (Paxos.NewBlockchain Paxos.recordEnv 3 0 1 (Paxos.specFactory Nat)) 7).tlc ∧
    (Paxos.Propose Paxos.recordEnv
        (Paxos.Propose Paxos.recordEnv
          (Paxos.NewBlockchain Paxos.recordEnv 3 0 1 (Paxos.specFactory Nat)) 7) 8).tlc =
      [⟨⟨0, List.replicate 32 0, some 7⟩, "NamingBlock"⟩,
       ⟨⟨0, List.replicate 32 0, some 8⟩, "NamingBlock"⟩] ∧
    (Gossip.propose Gossip.recordEnv
        (Gossip.propose Gossip.recordEnv (Gossip.NewBlockchain Gossip.recordEnv 3 0 1) [1] "a")
        [2] "b").tlc ≠
      (Gossip.propose Gossip.recordEnv (Gossip.NewBlockchain Gossip.recordEnv 3 0 1)
        [1] "a").tlc := by
  decide

/-- C18, the code at the failing input: whatever the decoders of the
registered type do, `UnmarshalJSON` of the object with `"Type": "Foo"` and
`"Block": {"Content": {}}` ends in the panic of `reflect.New` on the nil type
that the lookup of `"Foo"` in `blockContentTypes` gives; it does not return
an error. -/
theorem unmarshal_unregistered_type_panics (C : Type)
    (decodeContent : Paxos.JSON → Except String C) (decodeBlock : Paxos.JSON → Paxos.Block C) :
    Paxos.UnmarshalJSON decodeContent decodeBlock
        (some (.object [("Type", .string "Foo"), ("Block", .object [("Content", .object [])])])) =
      .panic "reflect: New(nil)" := by
  rfl

/-! ## The history of an origin -/

namespace Gossip

variable {E : Type}

/-- C22: in every state reached from a fresh gossiper by `trackRumor` calls
with ids below `2^32 - 1`, every call returns and, for every known origin
with expected id `n`: `n` is positive, every id from 1 to `n - 1` is in the
history of the origin, `n` is not, and so `n` is the smallest positive id
that was not received. A further call with an id below `2^32 - 1` returns and
leaves the expected id of every origin (1 for an origin not yet known) where
it was or higher. -/
theorem history_invariant (address identifier : String) (antiEntropy routeTimer : Int)
    (calls : List (RumorMessage E)) (next : RumorMessage E)
    (hb : ∀ m ∈ calls, m.ID < 2 ^ 32 - 1) (hnext : next.ID < 2 ^ 32 - 1) :
    ∃ g rs, trackAll (NewGossiper address identifier antiEntropy routeTimer) calls = some (g, rs) ∧
      (∀ o t, GoMap.Load g.messages o = some t →
        1 ≤ t.nextID ∧ (∀ i, 1 ≤ i → i < t.nextID → received t i) ∧ ¬ received t t.nextID ∧
          ∀ j, 1 ≤ j → ¬ received t j → t.nextID ≤ j) ∧
      ∃ g1 a b, trackRumor g next = some (g1, a, b) ∧
        ∀ o, expectedOf (GoMap.Load g.messages o) ≤ expectedOf (GoMap.Load g1.messages o) := by
  obtain ⟨g, rs, hrun, hg, _⟩ := fresh_run address identifier antiEntropy routeTimer calls hb
  refine ⟨g, rs, hrun, ?_, ?_⟩
  · intro o t hl
    obtain ⟨h1, hnot, hall, _⟩ := hg o t hl
    refine ⟨h1, hall, hnot, ?_⟩
    intro j hj hnj
    by_contra hc
    exact hnj (hall j hj (by omega))
  · obtain ⟨t1, a, hs, _, hn, ha, _⟩ :=
      tidy_any (t := GoMap.Load g.messages next.Origin) (fun t0 h => hg _ t0 h) hnext
    refine ⟨_, a, _, trackRumor_of_step hs, ?_⟩
    intro o
    simp only [GoMap.Load_Store]
    by_cases ho : o = next.Origin
    · simp only [ho, if_true]
      show _ ≤ t1.nextID
      rw [hn]
      exact ha
    · simp only [ho, if_false]
      exact le_refl _

/-- C22, a concrete run: ids 3 and 1 of origin `o`, then id 2. -/
theorem history_invariant_witness :
    ∃ g rs, trackAll (NewGossiper "127.0.0.1:5000" "A" 10 0 : Gossiper Unit)
        [⟨"o", 3, "c", none⟩, ⟨"o", 1, "a", none⟩] = some (g, rs) ∧
      (∀ o t, GoMap.Load g.messages o = some t →
        1 ≤ t.nextID ∧ (∀ i, 1 ≤ i → i < t.nextID → received t i) ∧ ¬ received t t.nextID ∧
          ∀ j, 1 ≤ j → ¬ received t j → t.nextID ≤ j) ∧
      ∃ g1 a b, trackRumor g ⟨"o", 2, "b", none⟩ = some (g1, a, b) ∧
        ∀ o, expectedOf (GoMap.Load g.messages o) ≤ expectedOf (GoMap.Load g1.messages o) :=
  history_invariant "127.0.0.1:5000" "A" 10 0 [⟨"o", 3, "c", none⟩, ⟨"o", 1, "a", none⟩]
    ⟨"o", 2, "b", none⟩ (by decide) (by decide)

/-- C23 (as amended): once a `trackRumor` call has returned for a rumor,
which it stored under its origin and id, then after any further calls that
returned, a call with the same origin and id, whatever its text or payload,
returns, and returns the expected id twice; a rumor was stored under that id
before the call, and after it the rumor of the call is stored there in its
place (the history keeps the last rumor received for an id; the stored rumor
is as before when the call brings the same rumor again); the rumors stored
under the other ids of the origin, the expected id of the origin and the
entries of the other origins are as before the call. -/
theorem stored_rumor_is_replaced (g g1 g2 : Gossiper E) (m m' : RumorMessage E) (a b : Nat)
    (later : List (RumorMessage E)) (rs : List (String × Nat × Nat))
    (hfirst : trackRumor g m = some (g1, a, b))
    (hlater : trackAll g1 later = some (g2, rs))
    (horigin : m'.Origin = m.Origin) (hid : m'.ID = m.ID) :
    ∃ g3 n t2 t3, trackRumor g2 m' = some (g3, n, n) ∧
      GoMap.Load g2.messages m.Origin = some t2 ∧
      GoMap.Load g3.messages m.Origin = some t3 ∧
      (∃ stored, GoMap.Load t2.messages m.ID = some stored) ∧
      (later = [] → GoMap.Load t2.messages m.ID = some m) ∧
      GoMap.Load t3.messages m.ID = some m' ∧
      (∀ i, i ≠ m.ID → GoMap.Load t3.messages i = GoMap.Load t2.messages i) ∧
      t2.nextID = n ∧ t3.nextID = n ∧
      ∀ o, o ≠ m.Origin → GoMap.Load g3.messages o = GoMap.Load g2.messages o := by
  obtain ⟨t1, hl1, hr1, hn1⟩ := stored_after hfirst
  have hproj := trackAll_origin m.Origin later g1 g2 rs hlater
  rw [hl1] at hproj
  obtain ⟨t2, hl2, hr2, hn2⟩ := kept_originRun m.ID _ t1 _ _ hproj hr1 hn1
  have hne : m'.ID ≠ t2.nextID := by
    rw [hid]
    exact fun hc => hn2 hc.symm
  have hs := @originStep_ne E t2 m' hne
  have hl2' : GoMap.Load g2.messages m'.Origin = some t2 := by rw [horigin]; exact hl2
  rw [← hl2'] at hs
  refine ⟨_, t2.nextID, t2,
    { messages := GoMap.Store (GoMap.Store t2.messages m'.ID m') m'.ID m', nextID := t2.nextID },
    trackRumor_of_step hs, hl2, ?_, ?_, ?_, ?_, ?_, rfl, rfl, ?_⟩
  · rw [horigin]
    exact GoMap.Load_Store_self _ _ _
  · unfold received at hr2
    cases hst : GoMap.Load t2.messages m.ID with
    | none => exact absurd hst hr2
    | some stored => exact ⟨stored, rfl⟩
  · intro hnil
    subst hnil
    simp only [trackAll, Option.some.injEq, Prod.mk.injEq] at hlater
    have hg : g1 = g2 := hlater.1
    subst hg
    rw [hl1] at hl2
    have ht : t1 = t2 := Option.some.inj hl2
    subst ht
    obtain ⟨t0, hs0, hg0⟩ := trackRumor_some hfirst
    have ht0 : t0 = t1 := by
      rw [hg0] at hl1
      have hself : GoMap.Load (GoMap.Store g.messages m.Origin t0) m.Origin = some t0 :=
        GoMap.Load_Store_self _ _ _
      rw [hself] at hl1
      exact Option.some.inj hl1
    subst ht0
    cases hl : GoMap.Load g.messages m.Origin with
    | none =>
      rw [hl] at hs0
      simp only [originStep, Option.some.injEq, Prod.mk.injEq] at hs0
      rw [← hs0.1]
      exact GoMap.Load_Store_self _ _ _
    | some t =>
      rw [hl] at hs0
      obtain ⟨_, _, hload, _⟩ := originStep_known hs0
      rw [hload]
      simp
  · show GoMap.Load (GoMap.Store (GoMap.Store t2.messages m'.ID m') m'.ID m') m.ID = some m'
    rw [Load_stored_twice]
    simp [hid]
  · intro i hi
    show GoMap.Load (GoMap.Store (GoMap.Store t2.messages m'.ID m') m'.ID m') i = _
    rw [Load_stored_twice]
    simp [hid, hi]
  · intro o ho
    show GoMap.Load (GoMap.Store g2.messages m'.Origin _) o = _
    rw [horigin]
    exact GoMap.Load_Store_of_ne _ _ ho

/-- C23, a concrete run: after the rumor with id 1 of origin `o` and then the
one with id 3, the rumor with id 1 comes again with another text; the call
returns (2, 2) and the history holds the new rumor under id 1 and the rumor
with id 3 as before. -/
theorem stored_rumor_is_replaced_witness :
    ∃ g3 n t2 t3, trackRumor
        (knowingExample [(1, ⟨"o", 1, "a", none⟩), (3, ⟨"o", 3, "c", none⟩)] 2)
        ⟨"o", 1, "again", none⟩ = some (g3, n, n) ∧
      GoMap.Load (knowingExample [(1, ⟨"o", 1, "a", none⟩),
        (3, ⟨"o", 3, "c", none⟩)] 2).messages "o" = some t2 ∧
      GoMap.Load g3.messages "o" = some t3 ∧
      (∃ stored, GoMap.Load t2.messages 1 = some stored) ∧
      (([⟨"o", 3, "c", none⟩] : List (RumorMessage Unit)) = [] →
        GoMap.Load t2.messages 1 = some ⟨"o", 1, "a", none⟩) ∧
      GoMap.Load t3.messages 1 = some ⟨"o", 1, "again", none⟩ ∧
      (∀ i, i ≠ 1 → GoMap.Load t3.messages i = GoMap.Load t2.messages i) ∧
      t2.nextID = n ∧ t3.nextID = n ∧
      ∀ o, o ≠ "o" → GoMap.Load g3.messages o = GoMap.Load
        (knowingExample [(1, ⟨"o", 1, "a", none⟩), (3, ⟨"o", 3, "c", none⟩)] 2).messages o :=
  stored_rumor_is_replaced freshExample (knowingExample [(1, ⟨"o", 1, "a", none⟩)] 2)
    (knowingExample [(1, ⟨"o", 1, "a", none⟩), (3, ⟨"o", 3, "c", none⟩)] 2)
    ⟨"o", 1, "a", none⟩ ⟨"o", 1, "again", none⟩ 2 1 [⟨"o", 3, "c", none⟩] [("o", 2, 2)]
    (by decide) (by decide) rfl rfl

/-- C23 fails as it is stated: on a fresh gossiper, after the rumor with id 1
and text `a` of origin `o`, the call with the same origin and id and the text
`b` returns, and the history of `o` then holds the second rumor under id 1,
not the first. -/
theorem stored_rumor_is_overwritten :
    ∃ g rs t, trackAll freshExample [⟨"o", 1, "a", none⟩, ⟨"o", 1, "b", none⟩] = some (g, rs) ∧
      GoMap.Load g.messages "o" = some t ∧
      GoMap.Load t.messages 1 = some ⟨"o", 1, "b", none⟩ ∧
      GoMap.Load t.messages 1 ≠ some ⟨"o", 1, "a", none⟩ :=
  ⟨knowingExample [(1, ⟨"o", 1, "b", none⟩)] 2, [("o", 2, 1), ("o", 2, 2)],
    { messages := [(1, ⟨"o", 1, "b", none⟩)], nextID := 2 },
    by decide, by decide, by decide, by decide⟩

end Gossip

/-! ## The basic path -/

namespace pathgenerator

theorem total_append (p q : List Vec) :
    total (p ++ q) = { X := (total p).X + (total q).X, Y := (total p).Y + (total q).Y,
                       Z := (total p).Z + (total q).Z } := by
  simp [total, List.map_append, List.sum_append]

theorem total_moves (delta : Int) (axis : Vec) :
    total (moves delta axis) =
      { X := delta * axis.X, Y := delta * axis.Y, Z := delta * axis.Z } := by
  have h : ∀ c : Int, (delta.natAbs : Int) * (Int.sign delta * c) = delta * c := by
    intro c
    rw [← mul_assoc, mul_comm (delta.natAbs : Int), Int.sign_mul_natAbs]
  simp only [total, moves, List.map_replicate, List.sum_replicate, nsmul_eq_mul, h]

theorem total_dronePath (start dest : Vec) : total (dronePath start dest) = Vec.sub dest start := by
  simp only [dronePath, total_append, total_moves, Vec.sub]
  simp

theorem total_padded (path : List Vec) (k : Nat) :
    total (path ++ List.replicate k Vec.zero) = total path := by
  simp [total, List.map_append, List.sum_append, List.map_replicate, List.sum_replicate,
    Vec.zero]

theorem natAbs_sign_le (delta : Int) : (Int.sign delta).natAbs ≤ 1 := by
  rw [Int.natAbs_sign]
  split <;> omega

theorem isStep_moves (delta : Int) (axis : Vec) (haxis : isStep axis) :
    ∀ v ∈ moves delta axis, isStep v := by
  intro v hv
  have hv' := (List.mem_replicate.mp hv).2
  rw [hv']
  have hs := natAbs_sign_le delta
  have hmul : ∀ c : Int, (Int.sign delta * c).natAbs ≤ c.natAbs := by
    intro c
    rw [Int.natAbs_mul]
    calc (Int.sign delta).natAbs * c.natAbs ≤ 1 * c.natAbs := Nat.mul_le_mul_right _ hs
      _ = c.natAbs := Nat.one_mul _
  have hx := hmul axis.X
  have hy := hmul axis.Y
  have hz := hmul axis.Z
  unfold isStep at haxis ⊢
  simp only
  omega

theorem isStep_dronePath (start dest : Vec) : ∀ v ∈ dronePath start dest, isStep v := by
  intro v hv
  simp only [dronePath, List.mem_append] at hv
  rcases hv with (hv | hv) | hv
  · exact isStep_moves _ _ (by decide) v hv
  · exact isStep_moves _ _ (by decide) v hv
  · exact isStep_moves _ _ (by decide) v hv

theorem length_le_longest : ∀ (paths : List (List Vec)) (path : List Vec), path ∈ paths →
    path.length ≤ longest paths := by
  intro paths
  induction paths with
  | nil => intro path h; simp at h
  | cons q rest ih =>
    intro path h
    simp only [longest, List.foldr_cons]
    rcases List.mem_cons.mp h with h1 | h1
    · rw [h1]
      exact le_max_left _ _
    · exact le_trans (ih path h1) (le_max_right _ _)

theorem mem_zipWith_dronePath : ∀ (start dest : List Vec) (path : List Vec),
    path ∈ List.zipWith dronePath start dest → ∃ s d, path = dronePath s d := by
  intro start
  induction start with
  | nil => intro dest path h; simp at h
  | cons s rest ih =>
    intro dest path h
    cases dest with
    | nil => simp at h
    | cons d dest =>
      simp only [List.zipWith_cons_cons, List.mem_cons] at h
      rcases h with h1 | h1
      · exact ⟨s, d, h1⟩
      · exact ih dest path h1

/-- C21: for every pair of equally long lists of grid points,
`generateBasicPath` (as modelled from its test) returns one path per drone;
all paths have the same number of steps, that of the longest; every step is
of at most one unit along a single axis, or the zero step; and the steps of
drone `i` add up to `dest[i] - from[i]`. -/
theorem basic_path_lock_step (start dest : List Vec) (h : start.length = dest.length) :
    (generateBasicPath start dest).length = start.length ∧
      (∀ path ∈ generateBasicPath start dest,
        path.length = longest (List.zipWith dronePath start dest)) ∧
      (∀ path ∈ generateBasicPath start dest, ∀ v ∈ path, isStep v) ∧
      (generateBasicPath start dest).map total =
        List.zipWith (fun s d => Vec.sub d s) start dest := by
  refine ⟨?_, ?_, ?_, ?_⟩
  · simp [generateBasicPath, List.length_zipWith, h]
  · intro path hp
    simp only [generateBasicPath, List.mem_map] at hp
    obtain ⟨q, hq, hpq⟩ := hp
    have hle := length_le_longest _ q hq
    rw [← hpq, List.length_append, List.length_replicate]
    omega
  · intro path hp v hv
    simp only [generateBasicPath, List.mem_map] at hp
    obtain ⟨q, hq, hpq⟩ := hp
    rw [← hpq] at hv
    rcases List.mem_append.mp hv with h1 | h1
    · obtain ⟨s, d, hsd⟩ := mem_zipWith_dronePath start dest q hq
      rw [hsd] at h1
      exact isStep_dronePath s d v h1
    · rw [(List.mem_replicate.mp h1).2]
      decide
  · simp only [generateBasicPath, List.map_map, List.map_zipWith, Function.comp_def,
      total_padded, total_dronePath]

/-- C21, the run of `TestGenerateBasicPath`: the model returns the paths the
test expects, four paths of three steps each, the Y moves before the X
moves. -/
theorem basic_path_lock_step_witness :
    generateBasicPath testFrom testDest = testExpected ∧
      (generateBasicPath testFrom testDest).length = testFrom.length ∧
      (∀ path ∈ generateBasicPath testFrom testDest, path.length = 3) ∧
      (generateBasicPath testFrom testDest).map total =
        List.zipWith (fun s d => Vec.sub d s) testFrom testDest :=
  have h := basic_path_lock_step testFrom testDest (by decide)
  ⟨by decide, h.1, h.2.1, h.2.2.2⟩

end pathgenerator
